import Mathlib

/-!
Verification development for the maze-solver grid pathfinding visualizer.

The source program (src/src/App.tsx) implements an interactive grid on which a
stepwise search engine runs one of three strategies (BFS, DFS, A*).  This file
gives a shallow embedding of the search-related code:

* positions are integer pairs (the source uses JS numbers; all positions that
  occur are integers, and `generateKey r c = "r-c"` is injective on integer
  pairs, so grids and the A* maps are modelled as association structures keyed
  directly by the pair);
* JS `Map` objects are modelled by `OMap`, an insertion-ordered association
  list: `set` on a present key replaces the value in place (JS keeps the
  original insertion position), `set` on an absent key appends, and
  `Array.from(m.keys()).pop()` is the key of the last entry;
* cell ids are random in the source and used only as opaque distinct
  identities; the embedding assigns them injectively (row-major index + 1);
* the generator function `search` is modelled as an explicit state machine:
  one `next()` call is `resumeRun`, whose inner `continue` (skipping walls,
  the start, and already-visited nodes without yielding) is the structural
  recursion of `resumeAux` on the shrinking queue.
-/

set_option maxRecDepth 10000

abbrev Pos := Int × Int

/-- Translation of `manhattanDistance` (App.tsx line 155). -/
def manhattanDistance (p q : Pos) : Nat :=
  (p.1 - q.1).natAbs + (p.2 - q.2).natAbs

/-- Cell state flags, translation of `ICell.state` (App.tsx line 164). -/
structure CellState where
  isStart : Bool
  isActive : Bool
  isWall : Bool
  isVisited : Bool
  isQueued : Bool
  isGoal : Bool
  isPath : Bool
deriving DecidableEq, Repr

/-- Translation of `ICell` (id plus state flags). -/
structure Cell where
  id : Nat
  state : CellState
deriving DecidableEq, Repr

/-- Translation of `CellFactory.defaultState()`. -/
def defaultState : CellState := ⟨false, false, false, false, false, false, false⟩

/-- Translation of `CellFactory.start()`'s state. -/
def startState : CellState := { defaultState with isStart := true }

/-- Translation of `CellFactory.goal()`'s state. -/
def goalState : CellState := { defaultState with isGoal := true }

/-- Translation of `CellFactory.wall()`'s state. -/
def wallState : CellState := { defaultState with isWall := true }

/-- Translation of `CellFactory.visited()`'s state. -/
def visitedState : CellState := { defaultState with isVisited := true }

/-- Translation of `CellFactory.queued()`'s state. -/
def queuedState : CellState := { defaultState with isQueued := true }

/-- Translation of `CellFactory.path()`'s state. -/
def pathState : CellState := { defaultState with isPath := true }

/-- Insertion-ordered association list modelling a JS `Map`. -/
structure OMap (α β : Type) where
  entries : List (α × β)
deriving DecidableEq, Repr

namespace OMap

variable {α β : Type} [DecidableEq α]

def empty : OMap α β := ⟨[]⟩

def find? (m : OMap α β) (k : α) : Option β :=
  (m.entries.find? (fun e => decide (e.1 = k))).map (·.2)

def hasKey (m : OMap α β) (k : α) : Bool :=
  (m.find? k).isSome

def setAux (k : α) (v : β) : List (α × β) → List (α × β)
  | [] => [(k, v)]
  | e :: rest => if e.1 = k then (k, v) :: rest else e :: setAux k v rest

/-- JS `Map.prototype.set`: replace in place when the key is present (keeping
its insertion position), append when absent. -/
def set (m : OMap α β) (k : α) (v : β) : OMap α β :=
  ⟨setAux k v m.entries⟩

/-- Key of the last entry in insertion order: `Array.from(m.keys()).pop()`. -/
def lastKey? (m : OMap α β) : Option α :=
  m.entries.getLast?.map (·.1)

def size (m : OMap α β) : Nat := m.entries.length

end OMap

abbrev Grid := OMap Pos Cell

/-- Deterministic stand-in for `CellFactory._generateId`: cell ids are random
in the source and used only as opaque distinct identities, so the embedding
numbers the cells of a `rows × cols` grid injectively in row-major order
(starting at 1; id 0 is reserved for the junk cell of `gridCell`). -/
def idOf (cols : Nat) (p : Pos) : Nat :=
  p.1.toNat * cols + p.2.toNat + 1

/-- Lookup with the JS non-null assertion `grid.get(key)!` modelled as a junk
default; every lookup the engine performs on reachable states hits a present
key, so the junk cell never influences reachable behavior. -/
def gridCell (g : Grid) (p : Pos) : Cell :=
  (g.find? p).getD ⟨0, defaultState⟩

/-- Translation of `initialGrid` (App.tsx line 126): a dense `rows × cols`
grid of default cells in row-major insertion order. -/
def initialGrid (rows cols : Nat) : Grid :=
  ⟨(List.range rows).flatMap (fun r =>
    (List.range cols).map (fun c =>
      ((Int.ofNat r, Int.ofNat c), ⟨idOf cols (Int.ofNat r, Int.ofNat c), defaultState⟩)))⟩

/-- Translation of `getNeighbours` (App.tsx line 136): the up, down, left,
right candidates in that order, keeping those whose key the grid has. -/
def getNeighbours (p : Pos) (grid : Grid) : List Pos :=
  [(p.1 - 1, p.2), (p.1 + 1, p.2), (p.1, p.2 - 1), (p.1, p.2 + 1)].filter
    (fun q => grid.hasKey q)

/-- Strategy tag: the source dispatches on object identity
(`strategy === aStarStrategy`); the embedding dispatches on this tag. -/
inductive Strat
  | bfs
  | dfs
  | astar
deriving DecidableEq, Repr

/-- Strategy-local state of `aStarStrategy`: the `gScore` and `parentMap`
fields, keyed by `generateKey` strings in the source, i.e. by positions. -/
structure AStarState where
  gScore : OMap Pos Nat
  parentMap : OMap Pos Pos
deriving DecidableEq, Repr

/-- Translation of `aStarStrategy.initialize` (App.tsx line 56): clear both
maps and seed the start's g-score to 0. -/
def aStarInit (start : Pos) : AStarState :=
  ⟨OMap.empty.set start 0, OMap.empty⟩

/-- Scan of `aStarStrategy.getNextNode`'s loop: fold over the queue tracking
the best `(f, index)` seen so far, taking a later element only on a strictly
smaller `f` (`minF` starts at `Infinity`, so the first element is always
taken; `g` defaults to 0 via `|| 0`). -/
def selectAux (gs : OMap Pos Nat) (goal : Pos) :
    List Pos → Nat → Option (Nat × Nat) → Option (Nat × Nat)
  | [], _, best => best
  | q :: rest, i, best =>
      let f := (gs.find? q).getD 0 + manhattanDistance q goal
      match best with
      | none => selectAux gs goal rest (i + 1) (some (f, i))
      | some (bf, bi) =>
          if f < bf then selectAux gs goal rest (i + 1) (some (f, i))
          else selectAux gs goal rest (i + 1) (some (bf, bi))

/-- Index selected by `aStarStrategy.getNextNode` (`minIndex`), or `none`
when the queue is empty (`minIndex` stays -1). -/
def selectIdx (gs : OMap Pos Nat) (goal : Pos) (queue : List Pos) : Option Nat :=
  (selectAux gs goal queue 0 none).map (·.2)

/-- Translation of the three strategies' `getNextNode`: BFS shifts the front,
DFS pops the back, A* splices out the minimum-f element; `none` models the
`null` return (empty queue / `minIndex === -1`). -/
def getNextNode (strat : Strat) (ast : AStarState) (goal : Pos)
    (queue : List Pos) : Option (Pos × List Pos) :=
  match strat with
  | .bfs =>
      match queue with
      | [] => none
      | h :: t => some (h, t)
  | .dfs =>
      match queue.getLast? with
      | none => none
      | some x => some (x, queue.dropLast)
  | .astar =>
      match selectIdx ast.gScore goal queue with
      | none => none
      | some i =>
          match queue.get? i with
          | none => none
          | some x => some (x, queue.eraseIdx i)

/-- Translation of `processNeighbour`: BFS/DFS always return `true` and touch
no state; A* computes `tentativeG = (gScore.get(current) || 0) + 1` and
records the new score and predecessor exactly when the neighbour has no score
or the tentative score is strictly smaller (App.tsx line 84). -/
def processNeighbour (strat : Strat) (ast : AStarState) (cur nbr : Pos) :
    Bool × AStarState :=
  match strat with
  | .bfs => (true, ast)
  | .dfs => (true, ast)
  | .astar =>
      let tg := (ast.gScore.find? cur).getD 0 + 1
      match ast.gScore.find? nbr with
      | none => (true, ⟨ast.gScore.set nbr tg, ast.parentMap.set nbr cur⟩)
      | some g =>
          if tg < g then (true, ⟨ast.gScore.set nbr tg, ast.parentMap.set nbr cur⟩)
          else (false, ast)

/-- Backward walk of `aStarStrategy.getOptimalPath`'s `while` loop: from a
current key, push the parent position and continue from its key until a key
with no entry.  The source loop has no fuel; it terminates exactly when the
parent links from the start key are acyclic, which the fuel argument makes
explicit (callers pass `size + 1`, enough for any acyclic chain). -/
def walkAux (m : OMap Pos Pos) : Nat → Pos → List Pos
  | 0, _ => []
  | fuel + 1, k =>
      match m.find? k with
      | none => []
      | some p => p :: walkAux m fuel p

/-- Translation of `aStarStrategy.getOptimalPath` (App.tsx line 100): start
the walk at the last-inserted key of the strategy's own predecessor map. -/
def getOptimalPath (ast : AStarState) : List Pos :=
  match ast.parentMap.lastKey? with
  | none => []
  | some k => walkAux ast.parentMap (ast.parentMap.size + 1) k

/-- Engine-run state suspended between `yield`s of the `search` generator:
the grid signal, the queue, the visited id set (as a list in insertion order,
which JS `Set` preserves), the engine's id-keyed predecessor map, and the
strategy-local A* state. -/
structure EngineState where
  grid : Grid
  queue : List Pos
  visited : List Nat
  parentMap : OMap Nat Pos
  astar : AStarState
deriving DecidableEq, Repr

def visitedHas (v : List Nat) (i : Nat) : Bool := v.contains i

/-- Search run configuration: the `start`, `goal`, and `strategy` arguments
of `search`. -/
structure SearchCfg where
  start : Pos
  goal : Pos
  strat : Strat
deriving DecidableEq, Repr

/-- Translation of the initialization prefix of `search` (App.tsx lines
663-677): seed the queue with the start's neighbours, mark the start cell's
id visited, call the strategy's initialize, and record each seeded
neighbour's predecessor as the start.  `ast0` is the pre-existing state of
the module-level `aStarStrategy` singleton (kept untouched by BFS/DFS whose
`initialize` is a no-op). -/
def engineInit (grid : Grid) (cfg : SearchCfg) (ast0 : AStarState) : EngineState :=
  let neighbours := getNeighbours cfg.start grid
  let startEl := gridCell grid cfg.start
  { grid := grid
    queue := neighbours
    visited := [startEl.id]
    parentMap := neighbours.foldl (fun m n => m.set (gridCell grid n).id cfg.start) OMap.empty
    astar := match cfg.strat with
      | .astar => aStarInit cfg.start
      | _ => ast0 }

/-- Translation of the goal branch's backward walk (App.tsx lines 695-707):
while the engine predecessor map has the current cell's id, push the current
position and move to its parent.  Fuel models the unbounded `while`; callers
pass `size + 1`, enough whenever the recorded links are acyclic. -/
def pathWalk (g : Grid) (pm : OMap Nat Pos) : Nat → Pos → List Pos
  | 0, _ => []
  | fuel + 1, cur =>
      match pm.find? (gridCell g cur).id with
      | none => []
      | some par => cur :: pathWalk g pm fuel par

/-- One conditional retag: skip the cell when `cond` holds, otherwise
replace its state (keeping its id).  The three painting passes below are
folds of this step with their respective guards. -/
def paintStep (cond : Cell → Bool) (s : CellState) (g : Grid) (p : Pos) : Grid :=
  let c := gridCell g p
  if cond c then g else g.set p ⟨c.id, s⟩

/-- Translation of the goal branch's painting pass (App.tsx lines 709-717):
mark each path position as a Path cell (keeping its id) unless it is
goal-tagged. -/
def paintPath (g : Grid) (ps : List Pos) : Grid :=
  ps.foldl (paintStep (fun c => c.state.isGoal) pathState) g

/-- Translation of the A* live-redraw clear (App.tsx lines 724-728): unset
`isPath` on every cell, in place. -/
def clearPath (g : Grid) : Grid :=
  ⟨g.entries.map (fun e => (e.1, ⟨e.2.id, { e.2.state with isPath := false }⟩))⟩

/-- Translation of the A* live-redraw painting pass (App.tsx lines 730-742):
mark each position of `getOptimalPath()` as Path unless goal- or
start-tagged. -/
def paintAStar (g : Grid) (ps : List Pos) : Grid :=
  ps.foldl (paintStep (fun c => c.state.isGoal || c.state.isStart) pathState) g

/-- Translation of the frontier retag pass for non-A* strategies (App.tsx
lines 768-783): mark each queued position as Queued unless goal-, start-,
visited-, or wall-tagged. -/
def paintQueued (g : Grid) (queue : List Pos) : Grid :=
  queue.foldl
    (paintStep (fun c => c.state.isGoal || c.state.isStart || c.state.isVisited || c.state.isWall)
      queuedState) g

/-- Translation of the neighbour expansion loop (App.tsx lines 755-766): for
each neighbour, when its cell is unvisited and not a wall and
`processNeighbour` returns true (short-circuit order as in the source), push
it and record its predecessor as the current position. -/
def relaxAll (strat : Strat) (g : Grid) (cur : Pos) :
    List Pos → List Pos → List Nat → OMap Nat Pos → AStarState →
      List Pos × OMap Nat Pos × AStarState
  | [], queue, _, pm, ast => (queue, pm, ast)
  | n :: rest, queue, visited, pm, ast =>
      let nCell := gridCell g n
      if visitedHas visited nCell.id then
        relaxAll strat g cur rest queue visited pm ast
      else if nCell.state.isWall then
        relaxAll strat g cur rest queue visited pm ast
      else
        let r := processNeighbour strat ast cur n
        if r.1 then
          relaxAll strat g cur rest (queue ++ [n]) visited (pm.set nCell.id cur) r.2
        else
          relaxAll strat g cur rest queue visited pm r.2

/-- Result of one generator resumption: `cont` is `yield false` after a node
expansion, `foundRes` carries the reconstructed path of the goal branch's
`return`, `yieldTrue` is the `yield true` after the `while` loop exits. -/
inductive StepRes
  | cont
  | foundRes (path : List Pos)
  | yieldTrue
deriving DecidableEq, Repr

/-- Non-goal expansion of one loop iteration (App.tsx lines 723-786): the A*
live-path redraw or the visited retag, the neighbour expansion, and for
non-A* the frontier retag, assembled into the next suspended state. -/
def expandState (cfg : SearchCfg) (st : EngineState) (cur : Pos) (queue' : List Pos) : EngineState :=
  let cell := gridCell st.grid cur
  let visited' := st.visited ++ [cell.id]
  let g1 :=
    if cfg.strat = .astar then
      paintAStar (clearPath st.grid) (getOptimalPath st.astar)
    else st.grid
  let g2 :=
    if cfg.strat = .astar then g1
    else g1.set cur ⟨cell.id, visitedState⟩
  let nbrs := getNeighbours cur st.grid
  let rel := relaxAll cfg.strat g2 cur nbrs queue' visited' st.parentMap st.astar
  let g3 :=
    if cfg.strat = .astar then g2
    else paintQueued g2 rel.1
  { grid := g3
    queue := rel.1
    visited := visited'
    parentMap := rel.2.1
    astar := rel.2.2 }

/-- Goal branch of one loop iteration (App.tsx lines 694-720): reconstruct
through the engine's id-keyed predecessor map and paint the path. -/
def foundState (st : EngineState) (cur : Pos) (queue' : List Pos) : EngineState :=
  let path := pathWalk st.grid st.parentMap (st.parentMap.size + 1) cur
  { st with
      grid := paintPath st.grid path
      queue := queue'
      visited := st.visited ++ [(gridCell st.grid cur).id] }

/-- Body of one `next()` call on the `search` generator (App.tsx lines
679-789), with the `continue` skips (wall, start, already visited) modelled
by structural recursion on fuel; `resumeRun` passes the queue length, which
matches the skips exactly (each skip removes one queue element). -/
def resumeAux (cfg : SearchCfg) : Nat → EngineState → StepRes × EngineState
  | 0, st => (.yieldTrue, st)
  | fuel + 1, st =>
      match getNextNode cfg.strat st.astar cfg.goal st.queue with
      | none => (.yieldTrue, st)
      | some (cur, queue') =>
          let cell := gridCell st.grid cur
          if cell.state.isWall || cell.state.isStart then
            resumeAux cfg fuel { st with queue := queue' }
          else if visitedHas st.visited cell.id then
            resumeAux cfg fuel { st with queue := queue' }
          else if cell.state.isGoal then
            (.foundRes (pathWalk st.grid st.parentMap (st.parentMap.size + 1) cur),
              foundState st cur queue')
          else
            (.cont, expandState cfg st cur queue')

/-- One `next()` call on a suspended (or fresh) `search` generator body. -/
def resumeRun (cfg : SearchCfg) (st : EngineState) : StepRes × EngineState :=
  resumeAux cfg st.queue.length st

/-- Run the generator to completion: iterate `resumeRun` while it yields
`cont`, returning the first non-`cont` result, or `none` when fuel runs out
(the engine claims are stated with fuel large enough that this is
unreachable). -/
def runUntil (cfg : SearchCfg) : Nat → EngineState → Option (StepRes × EngineState)
  | 0, _ => none
  | fuel + 1, st =>
      match resumeRun cfg st with
      | (.cont, st') => runUntil cfg fuel st'
      | r => some r

/-- Iterated resumption at fixed step count (for invariants over every step
of a run; past the goal branch the source generator has returned and is
never resumed, so claims quantify over the steps of the still-running
prefix). -/
def stepN (cfg : SearchCfg) : Nat → EngineState → EngineState
  | 0, st => st
  | n + 1, st => stepN cfg n (resumeRun cfg st).2

/-- Suspension phases of the `search` generator object, as observed through
`searchGeneratorRef.next()`: `running` after a `yield false`, `yieldedTrue`
after the trailing `yield true` (the next resume ends the body), `finished`
after the body has returned. -/
inductive Gen
  | fresh
  | running (st : EngineState)
  | yieldedTrue (st : EngineState)
  | finished (st : EngineState)
deriving DecidableEq, Repr

/-- Engine state captured in a generator phase (the grid signal after the
generator's last `setGrid`); `fresh` has not run, so the ambient grid `g0`
stands in. -/
def genState (g0 : Grid) (ast0 : AStarState) : Gen → EngineState
  | .fresh => ⟨g0, [], [], OMap.empty, ast0⟩
  | .running st => st
  | .yieldedTrue st => st
  | .finished st => st

/-- One `searchGeneratorRef.next()` call: a fresh generator first executes
the initialization prefix, then every resumption runs the loop body; a
resumption that executes `return` (goal found) reports `done := true`; the
trailing `yield true` reports `done := false`, and only the following
resumption (which falls off the body) reports `done := true`.  A finished
generator's `next()` is a no-op returning `done := true`. -/
def genNext (cfg : SearchCfg) (g0 : Grid) (ast0 : AStarState) : Gen → Bool × Gen
  | .fresh =>
      let st0 := engineInit g0 cfg ast0
      match resumeRun cfg st0 with
      | (.cont, st') => (false, .running st')
      | (.foundRes _, st') => (true, .finished st')
      | (.yieldTrue, st') => (false, .yieldedTrue st')
  | .running st =>
      match resumeRun cfg st with
      | (.cont, st') => (false, .running st')
      | (.foundRes _, st') => (true, .finished st')
      | (.yieldTrue, st') => (false, .yieldedTrue st')
  | .yieldedTrue st => (true, .finished st)
  | .finished st => (true, .finished st)

/-- State of the `searchWrapper` closure's environment: the generator ref,
the `canStep` signal, the grid signal, and the module-level `aStarStrategy`
singleton's state (which persists across runs). -/
structure WState where
  ref : Option Gen
  canStep : Bool
  grid : Grid
  astPersist : AStarState
deriving DecidableEq, Repr

/-- Translation of `searchWrapper` (App.tsx lines 805-817): create the
generator if the ref is empty, call `next()`, set `canStep := !done`, and
clear the ref when done. -/
def searchWrapper (cfg : SearchCfg) (w : WState) : WState :=
  let gen := w.ref.getD .fresh
  let r := genNext cfg w.grid w.astPersist gen
  let st := genState w.grid w.astPersist r.2
  { ref := if r.1 then none else some r.2
    canStep := !r.1
    grid := st.grid
    astPersist := st.astar }

/-- Wall-free `rows × cols` grid with a start cell at `s` and a goal cell at
`g`, as the painting UI produces it: default cells everywhere, the start and
goal cells retagged with their ids preserved (App.tsx line 541). -/
def setupGrid (rows cols : Nat) (s g : Pos) : Grid :=
  ((initialGrid rows cols).set s ⟨(gridCell (initialGrid rows cols) s).id, startState⟩).set
    g ⟨(gridCell (initialGrid rows cols) g).id, goalState⟩

/-- Position in range of a `rows × cols` grid. -/
def inRange (rows cols : Nat) (p : Pos) : Prop :=
  0 ≤ p.1 ∧ p.1 < rows ∧ 0 ≤ p.2 ∧ p.2 < cols

instance (rows cols : Nat) (p : Pos) : Decidable (inRange rows cols p) := by
  unfold inRange; infer_instance

/-! ## Basic lemmas about the ordered-map model -/

theorem OMap.find?_mk_cons {α β : Type} [DecidableEq α] (e : α × β) (l : List (α × β)) (q : α) :
    (OMap.mk (e :: l)).find? q = if e.1 = q then some e.2 else (OMap.mk l).find? q := by
  by_cases h : e.1 = q
  · simp [OMap.find?, List.find?_cons_of_pos, h]
  · simp [OMap.find?, List.find?_cons_of_neg, h]

theorem OMap.find?_set {α β : Type} [DecidableEq α] (m : OMap α β) (k : α) (v : β) (q : α) :
    (m.set k v).find? q = if q = k then some v else m.find? q := by
  obtain ⟨l⟩ := m
  show (OMap.mk (OMap.setAux k v l)).find? q = if q = k then some v else (OMap.mk l).find? q
  induction l with
  | nil =>
      by_cases h : q = k
      · simp [OMap.setAux, OMap.find?_mk_cons, OMap.find?, h]
      · have hkq : ¬ k = q := fun hh => h hh.symm
        simp [OMap.setAux, OMap.find?_mk_cons, OMap.find?, h, hkq]
  | cons e rest ih =>
      by_cases he : e.1 = k
      · by_cases hq : q = k
        · subst hq
          simp [OMap.setAux, he, OMap.find?_mk_cons]
        · have hkq : ¬ k = q := fun hh => hq hh.symm
          have heq : ¬ e.1 = q := fun hh => hq ((he.symm.trans hh).symm ▸ rfl)
          simp only [OMap.setAux, he, if_pos, OMap.find?_mk_cons, if_neg hkq, if_neg heq, if_neg hq]
      · by_cases hx : e.1 = q
        · have hqk : ¬ q = k := fun h => he (hx.trans h)
          simp [OMap.setAux, he, OMap.find?_mk_cons, hx, hqk]
        · simp [OMap.setAux, he, OMap.find?_mk_cons, hx, ih]

theorem OMap.mem_entries_set {α β : Type} [DecidableEq α] (m : OMap α β) (k : α) (v : β)
    (e : α × β) (he : e ∈ (m.set k v).entries) : e ∈ m.entries ∨ e = (k, v) := by
  obtain ⟨l⟩ := m
  induction l with
  | nil => simpa [OMap.set, OMap.setAux] using he
  | cons f rest ih =>
      by_cases hf : f.1 = k
      · simp only [OMap.set, OMap.setAux, hf, if_pos] at he
        rcases List.mem_cons.mp he with h | h
        · exact Or.inr h
        · exact Or.inl (List.mem_cons_of_mem _ h)
      · simp only [OMap.set, OMap.setAux, hf, if_neg, not_false_iff] at he
        rcases List.mem_cons.mp he with h | h
        · exact Or.inl (h ▸ List.mem_cons_self _ _)
        · rcases ih (by simpa [OMap.set] using h) with h' | h'
          · exact Or.inl (List.mem_cons_of_mem _ h')
          · exact Or.inr h'

theorem OMap.find?_some_mem {α β : Type} [DecidableEq α] (m : OMap α β) (k : α) (v : β)
    (h : m.find? k = some v) : (k, v) ∈ m.entries := by
  obtain ⟨l⟩ := m
  induction l with
  | nil => simp [OMap.find?] at h
  | cons e rest ih =>
      rw [OMap.find?_mk_cons] at h
      by_cases he : e.1 = k
      · rw [if_pos he] at h
        have hv : e.2 = v := by injection h
        have : e = (k, v) := Prod.ext he hv
        simp [this]
      · rw [if_neg he] at h
        exact List.mem_cons_of_mem _ (ih h)

theorem OMap.setAux_ne_nil {α β : Type} [DecidableEq α] (k : α) (v : β) (l : List (α × β)) :
    OMap.setAux k v l ≠ [] := by
  cases l with
  | nil => simp [OMap.setAux]
  | cons e rest =>
      by_cases he : e.1 = k <;> simp [OMap.setAux, he]

theorem OMap.lastKey?_set {α β : Type} [DecidableEq α] (m : OMap α β) (k : α) (v : β) :
    (m.set k v).lastKey? = if m.hasKey k then m.lastKey? else some k := by
  obtain ⟨l⟩ := m
  induction l with
  | nil =>
      have h1 : ((OMap.mk [] : OMap α β).set k v).lastKey? = some k := rfl
      have h2 : (OMap.mk [] : OMap α β).hasKey k = false := rfl
      rw [h1, h2]
      simp
  | cons e rest ih =>
      by_cases he : e.1 = k
      · have hk : (OMap.mk (e :: rest)).hasKey k = true := by
          simp [OMap.hasKey, OMap.find?_mk_cons, he]
        rw [hk, if_pos rfl]
        cases rest with
        | nil =>
            have h1 : ((OMap.mk [e] : OMap α β).set k v).lastKey? = some k := by
              simp [OMap.set, OMap.setAux, he, OMap.lastKey?]
            rw [h1]
            simp [OMap.lastKey?, he]
        | cons f rest' =>
            have h1 : ((OMap.mk (e :: f :: rest') : OMap α β).set k v) =
                OMap.mk ((k, v) :: f :: rest') := by
              simp [OMap.set, OMap.setAux, he]
            rw [h1]
            simp [OMap.lastKey?]
      · have hk : (OMap.mk (e :: rest)).hasKey k = (OMap.mk rest).hasKey k := by
          simp [OMap.hasKey, OMap.find?_mk_cons, he]
        have hset : (OMap.mk (e :: rest) : OMap α β).set k v =
            OMap.mk (e :: OMap.setAux k v rest) := by
          simp [OMap.set, OMap.setAux, he]
        rw [hset, hk]
        have hne := OMap.setAux_ne_nil k v rest
        have hcons : (OMap.mk (e :: OMap.setAux k v rest) : OMap α β).lastKey? =
            (OMap.mk (OMap.setAux k v rest) : OMap α β).lastKey? := by
          cases hsa : OMap.setAux k v rest with
          | nil => exact absurd hsa hne
          | cons f rest' => simp [OMap.lastKey?, hsa]
        rw [hcons]
        rw [show (OMap.mk (OMap.setAux k v rest) : OMap α β) = (OMap.mk rest : OMap α β).set k v from rfl]
        rw [ih]
        by_cases hr : (OMap.mk rest : OMap α β).hasKey k = true
        · rw [if_pos hr, if_pos hr]
          cases rest with
          | nil => simp [OMap.hasKey, OMap.find?] at hr
          | cons f rest' => simp [OMap.lastKey?]
        · rw [if_neg hr, if_neg hr]

theorem gridCell_set (g : Grid) (k : Pos) (c : Cell) (p : Pos) :
    gridCell (g.set k c) p = if p = k then c else gridCell g p := by
  unfold gridCell
  rw [OMap.find?_set]
  split <;> rfl

/-- Heuristic plus recorded cost used by the A* frontier scan: the value
`f = g + h` computed at App.tsx lines 68-70, with `g` defaulting to 0. -/
def fval (ast : AStarState) (goal : Pos) (q : Pos) : Nat :=
  (ast.gScore.find? q).getD 0 + manhattanDistance q goal

/-! ## C4: the A* relaxation -/

/-- C4: A*'s relax computes `tentativeG = g(current) + 1` (uniform edge
cost 1, with `g` read as the recorded score, defaulting to 0 when absent
exactly as the source's `|| 0`); when the neighbour has no recorded `g` or
`tentativeG` is strictly smaller than it, it records the new `g` and the
neighbour's predecessor and returns true; otherwise it records nothing and
returns false. -/
theorem C4_astar_relax (ast : AStarState) (cur nbr : Pos) :
    (((ast.gScore.find? nbr = none) ∨
        (∃ g, ast.gScore.find? nbr = some g ∧ (ast.gScore.find? cur).getD 0 + 1 < g)) →
      processNeighbour .astar ast cur nbr =
        (true, ⟨ast.gScore.set nbr ((ast.gScore.find? cur).getD 0 + 1),
                ast.parentMap.set nbr cur⟩) ∧
      (processNeighbour .astar ast cur nbr).2.gScore.find? nbr =
        some ((ast.gScore.find? cur).getD 0 + 1) ∧
      (processNeighbour .astar ast cur nbr).2.parentMap.find? nbr = some cur) ∧
    ((∃ g, ast.gScore.find? nbr = some g ∧ ¬ (ast.gScore.find? cur).getD 0 + 1 < g) →
      processNeighbour .astar ast cur nbr = (false, ast)) := by
  constructor
  · intro h
    have heq : processNeighbour .astar ast cur nbr =
        (true, ⟨ast.gScore.set nbr ((ast.gScore.find? cur).getD 0 + 1),
                ast.parentMap.set nbr cur⟩) := by
      rcases h with h | ⟨g, hg, hlt⟩
      · simp [processNeighbour, h]
      · simp [processNeighbour, hg, hlt]
    refine ⟨heq, ?_, ?_⟩
    · rw [heq]
      simp [OMap.find?_set]
    · rw [heq]
      simp [OMap.find?_set]
  · rintro ⟨g, hg, hge⟩
    simp [processNeighbour, hg, hge]

/-- Witness for C4 at a concrete strategy state: the improving and the
non-improving branch each evaluated on explicit maps. -/
theorem C4_astar_relax_witness :
    processNeighbour .astar ⟨OMap.mk [((0, 0), 0)], OMap.empty⟩ (0, 0) (0, 1) =
      (true, ⟨OMap.mk [((0, 0), 0), ((0, 1), 1)], OMap.mk [((0, 1), (0, 0))]⟩) ∧
    processNeighbour .astar ⟨OMap.mk [((0, 0), 0), ((0, 1), 1)], OMap.mk [((0, 1), (0, 0))]⟩
        (0, 1) (0, 0) = (false, ⟨OMap.mk [((0, 0), 0), ((0, 1), 1)], OMap.mk [((0, 1), (0, 0))]⟩) := by
  constructor
  · have h := (C4_astar_relax ⟨OMap.mk [((0, 0), 0)], OMap.empty⟩ (0, 0) (0, 1)).1
      (Or.inl (by decide))
    exact h.1.trans (by decide)
  · exact (C4_astar_relax ⟨OMap.mk [((0, 0), 0), ((0, 1), 1)], OMap.mk [((0, 1), (0, 0))]⟩
      (0, 1) (0, 0)).2 ⟨0, by decide, by decide⟩

/-! ## C7: engine initialization -/

theorem getNeighbours_not_self (p : Pos) (grid : Grid) : p ∉ getNeighbours p grid := by
  intro h
  have hm := (List.mem_filter.mp h).1
  rcases List.mem_cons.mp hm with he | hm
  · have h1 : p.1 = p.1 - 1 := congrArg Prod.fst he
    omega
  rcases List.mem_cons.mp hm with he | hm
  · have h1 : p.1 = p.1 + 1 := congrArg Prod.fst he
    omega
  rcases List.mem_cons.mp hm with he | hm
  · have h1 : p.2 = p.2 - 1 := congrArg Prod.snd he
    omega
  rcases List.mem_cons.mp hm with he | hm
  · have h1 : p.2 = p.2 + 1 := congrArg Prod.snd he
    omega
  exact List.not_mem_nil p hm

theorem foldl_set_const_find (key : Pos → Nat) (c : Pos) :
    ∀ (l : List Pos) (m : OMap Nat Pos) (k : Nat),
      (k ∈ l.map key ∨ m.find? k = some c) →
      (l.foldl (fun m n => m.set (key n) c) m).find? k = some c := by
  intro l
  induction l with
  | nil =>
      intro m k h
      rcases h with h | h
      · simp at h
      · simpa using h
  | cons n rest ih =>
      intro m k h
      show (rest.foldl (fun m n => m.set (key n) c) (m.set (key n) c)).find? k = some c
      apply ih
      rcases h with h | h
      · rw [List.map_cons] at h
        rcases List.mem_cons.mp h with h' | h'
        · right
          rw [OMap.find?_set, if_pos h']
        · left
          exact h'
      · right
        rw [OMap.find?_set]
        split
        · rfl
        · exact h

/-- C7: engine initialization seeds the frontier with exactly the start's
in-range neighbours in neighbour order (and the start itself is never among
them), marks the start cell's id visited, records each seeded neighbour's
predecessor as the start, and runs the strategy's initialize (which clears
and reseeds the A* maps for A*, and is a no-op for BFS/DFS). -/
theorem C7_engine_init (grid : Grid) (cfg : SearchCfg) (ast0 : AStarState)
    (c : Cell) (hc : grid.find? cfg.start = some c) :
    (engineInit grid cfg ast0).queue = getNeighbours cfg.start grid ∧
    cfg.start ∉ getNeighbours cfg.start grid ∧
    (engineInit grid cfg ast0).visited = [c.id] ∧
    (∀ n ∈ getNeighbours cfg.start grid,
      (engineInit grid cfg ast0).parentMap.find? ((gridCell grid n).id) = some cfg.start) ∧
    (cfg.strat = .astar → (engineInit grid cfg ast0).astar = aStarInit cfg.start) ∧
    (cfg.strat ≠ .astar → (engineInit grid cfg ast0).astar = ast0) := by
  refine ⟨rfl, getNeighbours_not_self _ _, ?_, ?_, ?_, ?_⟩
  · show [(gridCell grid cfg.start).id] = [c.id]
    simp [gridCell, hc]
  · intro n hn
    exact foldl_set_const_find (fun n => (gridCell grid n).id) cfg.start _ OMap.empty _
      (Or.inl (List.mem_map_of_mem _ hn))
  · intro h
    simp [engineInit, h]
  · intro h
    cases hs : cfg.strat <;> simp [engineInit, hs] <;> simp [hs] at h

/-! ## C3: the A* frontier selection -/

theorem get_cons_one_add {γ : Type} (q : γ) (rest : List γ) (j : Nat) (hj : j < rest.length)
    (h : 1 + j < (q :: rest).length) : (q :: rest).get ⟨1 + j, h⟩ = rest.get ⟨j, hj⟩ := by
  have he : (⟨1 + j, h⟩ : Fin (q :: rest).length) = ⟨j + 1, by simp only [List.length_cons]; omega⟩ := by
    apply Fin.ext
    simp [Nat.add_comm]
  rw [he]
  simp

theorem selectAux_spec (gs : OMap Pos Nat) (goal : Pos) :
    ∀ (l : List Pos) (i bf bi : Nat),
      ∃ rf ri, selectAux gs goal l i (some (bf, bi)) = some (rf, ri) ∧
        rf ≤ bf ∧
        (∀ j (hj : j < l.length),
          rf ≤ (gs.find? (l.get ⟨j, hj⟩)).getD 0 + manhattanDistance (l.get ⟨j, hj⟩) goal) ∧
        ((rf = bf ∧ ri = bi) ∨
          ∃ j, ∃ (hj : j < l.length), ri = i + j ∧
            rf = (gs.find? (l.get ⟨j, hj⟩)).getD 0 + manhattanDistance (l.get ⟨j, hj⟩) goal ∧
            rf < bf ∧
            ∀ t (ht : t < l.length), t < j →
              rf < (gs.find? (l.get ⟨t, ht⟩)).getD 0 + manhattanDistance (l.get ⟨t, ht⟩) goal) := by
  intro l
  induction l with
  | nil =>
      intro i bf bi
      exact ⟨bf, bi, rfl, le_refl _, by intro j hj; simp at hj, Or.inl ⟨rfl, rfl⟩⟩
  | cons q rest ih =>
      intro i bf bi
      by_cases hf : (gs.find? q).getD 0 + manhattanDistance q goal < bf
      · obtain ⟨rf, ri, heq, hle, hall, hcase⟩ := ih (i + 1) ((gs.find? q).getD 0 + manhattanDistance q goal) i
        refine ⟨rf, ri, ?_, ?_, ?_, ?_⟩
        · simpa [selectAux, hf] using heq
        · exact le_of_lt (lt_of_le_of_lt hle hf)
        · intro j hj
          cases j with
          | zero => simpa using hle
          | succ j' => simpa using hall j' (by simpa using hj)
        · rcases hcase with ⟨hrf, hri⟩ | ⟨j, hj, hri, hrf, hlt, hstrict⟩
          · refine Or.inr ⟨0, by simp, by omega, by simpa using hrf, hrf ▸ hf, ?_⟩
            intro t ht hlt0
            omega
          · refine Or.inr ⟨j + 1, by simpa using hj, by omega, by simpa using hrf,
              lt_trans hlt hf, ?_⟩
            intro t ht htlt
            cases t with
            | zero => simpa using lt_of_lt_of_le hlt (le_refl _)
            | succ t' => simpa using hstrict t' (by simpa using ht) (by omega)
      · obtain ⟨rf, ri, heq, hle, hall, hcase⟩ := ih (i + 1) bf bi
        refine ⟨rf, ri, ?_, hle, ?_, ?_⟩
        · simpa [selectAux, hf] using heq
        · intro j hj
          cases j with
          | zero =>
              have : bf ≤ (gs.find? q).getD 0 + manhattanDistance q goal := le_of_not_lt hf
              simpa using le_trans hle this
          | succ j' => simpa using hall j' (by simpa using hj)
        · rcases hcase with ⟨hrf, hri⟩ | ⟨j, hj, hri, hrf, hlt, hstrict⟩
          · exact Or.inl ⟨hrf, hri⟩
          · refine Or.inr ⟨j + 1, by simpa using hj, by omega, by simpa using hrf, hlt, ?_⟩
            intro t ht htlt
            cases t with
            | zero =>
                have : bf ≤ (gs.find? q).getD 0 + manhattanDistance q goal := le_of_not_lt hf
                simpa using lt_of_lt_of_le hlt this
            | succ t' => simpa using hstrict t' (by simpa using ht) (by omega)

/-- C3: A*'s selectNext, on a non-empty frontier, removes and returns the
element with minimum `f = g(node) + manhattanDistance(node, goal)` (with `g`
defaulting to 0 when unrecorded), ties broken in favour of the lowest index;
on the empty frontier it returns None. -/
theorem C3_astar_select (ast : AStarState) (goal : Pos) :
    getNextNode .astar ast goal [] = none ∧
    ∀ (queue : List Pos), queue ≠ [] →
      ∃ i, ∃ (hi : i < queue.length),
        getNextNode .astar ast goal queue = some (queue.get ⟨i, hi⟩, queue.eraseIdx i) ∧
        (∀ j (hj : j < queue.length),
          fval ast goal (queue.get ⟨i, hi⟩) ≤ fval ast goal (queue.get ⟨j, hj⟩)) ∧
        (∀ j (hj : j < queue.length), j < i →
          fval ast goal (queue.get ⟨i, hi⟩) < fval ast goal (queue.get ⟨j, hj⟩)) := by
  constructor
  · rfl
  · intro queue hne
    match queue with
    | q :: rest =>
      have hsel : selectAux ast.gScore goal (q :: rest) 0 none =
          selectAux ast.gScore goal rest 1
            (some ((ast.gScore.find? q).getD 0 + manhattanDistance q goal, 0)) := by
        simp [selectAux]
      obtain ⟨rf, ri, heq, hle, hall, hcase⟩ :=
        selectAux_spec ast.gScore goal rest 1 ((ast.gScore.find? q).getD 0 + manhattanDistance q goal) 0
      have hidx : selectIdx ast.gScore goal (q :: rest) = some ri := by
        rw [selectIdx, hsel, heq]
        rfl
      rcases hcase with ⟨hrf, hri⟩ | ⟨j, hj, hri, hrf, hlt, hstrict⟩
      · subst hri
        refine ⟨0, by simp, ?_, ?_, ?_⟩
        · show getNextNode .astar ast goal (q :: rest) = _
          simp [getNextNode, hidx]
        · intro j hj
          cases j with
          | zero => simp [fval]
          | succ j' =>
              have := hall j' (by simpa using hj)
              simpa [fval, hrf] using this
        · intro j hj hlt0
          omega
      · subst hri
        refine ⟨1 + j, by simp only [List.length_cons]; omega, ?_, ?_, ?_⟩
        · show getNextNode .astar ast goal (q :: rest) = _
          have hget : (q :: rest).get? (1 + j) = some (rest.get ⟨j, hj⟩) := by
            rw [Nat.add_comm 1 j, List.get?_cons_succ, List.get?_eq_get hj]
          have hgetidx : (q :: rest).get ⟨1 + j, by simp only [List.length_cons]; omega⟩ =
              rest.get ⟨j, hj⟩ := get_cons_one_add q rest j hj _
          simp only [getNextNode, hidx, hget, hgetidx]
        · intro t ht
          have hmain : fval ast goal ((q :: rest).get ⟨1 + j, by simp only [List.length_cons]; omega⟩) = rf := by
            rw [get_cons_one_add q rest j hj]
            simpa [fval] using hrf.symm
          rw [hmain]
          cases t with
          | zero => exact le_of_lt (by simpa [fval] using hlt)
          | succ t' => simpa [fval] using hall t' (by simpa using ht)
        · intro t ht htlt
          have hmain : fval ast goal ((q :: rest).get ⟨1 + j, by simp only [List.length_cons]; omega⟩) = rf := by
            rw [get_cons_one_add q rest j hj]
            simpa [fval] using hrf.symm
          rw [hmain]
          cases t with
          | zero => simpa [fval] using hlt
          | succ t' =>
              have : t' < j := by omega
              simpa [fval] using hstrict t' (by simpa using ht) this

/-- Witness queue for the A* selection claim. -/
def queueW : List Pos := [((0 : Int), (3 : Int)), ((1 : Int), (1 : Int))]

/-- Witness strategy state for the A* selection claim. -/
def astW : AStarState := ⟨OMap.empty, OMap.empty⟩

/-- Witness for C3 on a concrete two-element frontier (the nearer node,
index 1, is selected and spliced out). -/
theorem C3_astar_select_witness :
    ∃ i, ∃ (hi : i < queueW.length),
      getNextNode .astar astW ((0 : Int), (0 : Int)) queueW =
        some (queueW.get ⟨i, hi⟩, queueW.eraseIdx i) ∧
      (∀ j (hj : j < queueW.length),
        fval astW ((0 : Int), (0 : Int)) (queueW.get ⟨i, hi⟩) ≤
          fval astW ((0 : Int), (0 : Int)) (queueW.get ⟨j, hj⟩)) ∧
      (∀ j (hj : j < queueW.length), j < i →
        fval astW ((0 : Int), (0 : Int)) (queueW.get ⟨i, hi⟩) <
          fval astW ((0 : Int), (0 : Int)) (queueW.get ⟨j, hj⟩)) :=
  (C3_astar_select astW ((0 : Int), (0 : Int))).2 queueW (by decide)

/-! ## Concrete search scenarios used by several claims -/

/-- Fresh strategy singleton state (both maps empty). -/
def emptyAst : AStarState := ⟨OMap.empty, OMap.empty⟩

/-- A* run on the wall-free 3 × 2 grid, start (1,0), goal (0,1). -/
def astRunCfg : SearchCfg := ⟨((1 : Int), (0 : Int)), ((0 : Int), (1 : Int)), .astar⟩

def astRunGrid : Grid := setupGrid 3 2 ((1 : Int), (0 : Int)) ((0 : Int), (1 : Int))

def astRunInit : EngineState := engineInit astRunGrid astRunCfg emptyAst

/-- BFS run on the wall-free 2 × 2 grid, start (0,0), goal (1,1). -/
def bfsRunCfg : SearchCfg := ⟨((0 : Int), (0 : Int)), ((1 : Int), (1 : Int)), .bfs⟩

def bfsRunGrid : Grid := setupGrid 2 2 ((0 : Int), (0 : Int)) ((1 : Int), (1 : Int))

def bfsRunInit : EngineState := engineInit bfsRunGrid bfsRunCfg emptyAst

/-- BFS run on the wall-free 1 × 3 line, start (0,0), goal (0,2), driven
through `searchWrapper`. -/
def bfsLineCfg : SearchCfg := ⟨((0 : Int), (0 : Int)), ((0 : Int), (2 : Int)), .bfs⟩

def bfsLineW0 : WState := ⟨none, true, setupGrid 1 3 ((0 : Int), (0 : Int)) ((0 : Int), (2 : Int)), emptyAst⟩

/-- Iterated `searchWrapper` calls (the driver firing n times). -/
def wrapN (cfg : SearchCfg) : Nat → WState → WState
  | 0, w => w
  | n + 1, w => wrapN cfg n (searchWrapper cfg w)

/-! ## C6: the A* backward walk -/

/-- Claim-side description of `reconstructPath` in the spec's words: the walk
begins at a given key (the map's last-inserted key at the call site) and
returns the sequence of parent positions reached by following parent links
until a key with no entry; stated with the same fuel bound as the source
model's walk. -/
def specReconstructWalk (m : OMap Pos Pos) : Nat → Option Pos → List Pos
  | _, none => []
  | 0, some _ => []
  | fuel + 1, some k =>
      match m.find? k with
      | none => []
      | some p => p :: specReconstructWalk m fuel (some p)

theorem walkAux_eq_specReconstructWalk (m : OMap Pos Pos) :
    ∀ (fuel : Nat) (k : Pos), walkAux m fuel k = specReconstructWalk m fuel (some k) := by
  intro fuel
  induction fuel with
  | zero => intro k; rfl
  | succ f ih =>
      intro k
      show walkAux m (f + 1) k = specReconstructWalk m (f + 1) (some k)
      unfold walkAux specReconstructWalk
      cases m.find? k with
      | none => rfl
      | some p => simpa using ih p

/-- C6: A*'s reconstructPath begins its backward walk at the last-inserted
key of the strategy's own predecessor map (`set` keeps a present key's
insertion position and appends an absent one, so `lastKey?` is the
last-inserted key) and returns the parent positions reached by following
parent links until a key with no entry — not the walk from the goal's own
predecessor: in the concrete A* run the goal has a recorded predecessor,
yet the walk begins at the unrelated last-inserted key (2,1). -/
theorem C6_reconstruct_from_last_inserted :
    (∀ ast : AStarState,
      getOptimalPath ast =
        specReconstructWalk ast.parentMap (ast.parentMap.size + 1) ast.parentMap.lastKey?) ∧
    (∀ (m : OMap Pos Pos) (k v : Pos),
      (m.set k v).lastKey? = if m.hasKey k then m.lastKey? else some k) ∧
    ((stepN astRunCfg 2 astRunInit).astar.parentMap.lastKey? = some ((2 : Int), (1 : Int)) ∧
     (stepN astRunCfg 2 astRunInit).astar.parentMap.find? astRunCfg.goal ≠ none ∧
     (stepN astRunCfg 2 astRunInit).astar.parentMap.lastKey? ≠ some astRunCfg.goal) := by
  refine ⟨?_, ?_, ?_, ?_, ?_⟩
  · intro ast
    unfold getOptimalPath
    cases h : ast.parentMap.lastKey? with
    | none => rfl
    | some k => exact walkAux_eq_specReconstructWalk ast.parentMap _ k
  · intro m k v
    exact OMap.lastKey?_set m k v
  · decide
  · decide
  · decide

/-! ## Step-shape lemmas for the engine -/

theorem getNextNode_length (strat : Strat) (ast : AStarState) (goal : Pos)
    (queue : List Pos) (cur : Pos) (queue' : List Pos)
    (h : getNextNode strat ast goal queue = some (cur, queue')) :
    queue'.length + 1 = queue.length := by
  cases strat with
  | bfs =>
      cases queue with
      | nil => simp [getNextNode] at h
      | cons a l =>
          obtain ⟨rfl, rfl⟩ : a = cur ∧ l = queue' := by
            simpa [getNextNode] using h
          simp
  | dfs =>
      cases hq : queue.getLast? with
      | none => simp [getNextNode, hq] at h
      | some x =>
          obtain ⟨rfl, rfl⟩ : x = cur ∧ queue.dropLast = queue' := by
            simpa [getNextNode, hq] using h
          have hne : queue ≠ [] := by
            intro hnil
            rw [hnil] at hq
            simp at hq
          rw [List.length_dropLast]
          have : 0 < queue.length := List.length_pos.mpr hne
          omega
  | astar =>
      cases hi : selectIdx ast.gScore goal queue with
      | none => simp [getNextNode, hi] at h
      | some i =>
          cases hg : queue.get? i with
          | none =>
              have hg' : queue[i]? = none := by
                rw [← List.get?_eq_getElem?]
                exact hg
              simp [getNextNode, hi, hg, hg'] at h
          | some x =>
              have hg' : queue[i]? = some x := by
                rw [← List.get?_eq_getElem?]
                exact hg
              obtain ⟨rfl, rfl⟩ : x = cur ∧ queue.eraseIdx i = queue' := by
                simpa [getNextNode, hi, hg, hg'] using h
              have hilt : i < queue.length := by
                rcases List.get?_eq_some.mp hg with ⟨hlt, -⟩
                exact hlt
              exact List.length_eraseIdx_add_one hilt

theorem getNextNode_total (strat : Strat) (ast : AStarState) (goal : Pos)
    (queue : List Pos) (hne : queue ≠ []) :
    ∃ cur queue', getNextNode strat ast goal queue = some (cur, queue') := by
  cases strat with
  | bfs =>
      cases queue with
      | nil => exact absurd rfl hne
      | cons a l => exact ⟨a, l, rfl⟩
  | dfs =>
      cases hq : queue.getLast? with
      | none => exact absurd (List.getLast?_eq_none_iff.mp hq) hne
      | some x => exact ⟨x, queue.dropLast, by simp [getNextNode, hq]⟩
  | astar =>
      match queue, hne with
      | q :: rest, _ =>
        have hsel : selectAux ast.gScore goal (q :: rest) 0 none =
            selectAux ast.gScore goal rest 1
              (some ((ast.gScore.find? q).getD 0 + manhattanDistance q goal, 0)) := by
          simp [selectAux]
        obtain ⟨rf, ri, heq, -, -, hcase⟩ :=
          selectAux_spec ast.gScore goal rest 1 ((ast.gScore.find? q).getD 0 + manhattanDistance q goal) 0
        have hidx : selectIdx ast.gScore goal (q :: rest) = some ri := by
          rw [selectIdx, hsel, heq]
          rfl
        have hri : ri < (q :: rest).length := by
          rcases hcase with ⟨-, rfl⟩ | ⟨j, hj, rfl, -⟩
          · simp
          · simp only [List.length_cons]
            omega
        obtain ⟨x, hx⟩ : ∃ x, (q :: rest).get? ri = some x :=
          ⟨_, List.get?_eq_get hri⟩
        have hx' : (q :: rest)[ri]? = some x := by
          rw [← List.get?_eq_getElem?]
          exact hx
        exact ⟨x, (q :: rest).eraseIdx ri, by simp [getNextNode, hidx, hx, hx']⟩

theorem resumeRun_empty (cfg : SearchCfg) (st : EngineState) (h : st.queue = []) :
    resumeRun cfg st = (.yieldTrue, st) := by
  show resumeAux cfg st.queue.length st = _
  rw [h]
  rfl

theorem resumeRun_skip (cfg : SearchCfg) (st : EngineState) (cur : Pos) (queue' : List Pos)
    (hpop : getNextNode cfg.strat st.astar cfg.goal st.queue = some (cur, queue'))
    (hskip : ((gridCell st.grid cur).state.isWall || (gridCell st.grid cur).state.isStart) = true ∨
      (((gridCell st.grid cur).state.isWall || (gridCell st.grid cur).state.isStart) = false ∧
        visitedHas st.visited (gridCell st.grid cur).id = true)) :
    resumeRun cfg st = resumeRun cfg { st with queue := queue' } := by
  have hlen := getNextNode_length _ _ _ _ _ _ hpop
  show resumeAux cfg st.queue.length st = resumeAux cfg queue'.length _
  rw [← hlen]
  rcases hskip with hs | ⟨hs1, hs2⟩
  · simp only [resumeAux, hpop, hs]
    rfl
  · simp only [resumeAux, hpop, hs1, hs2]
    rfl

theorem resumeRun_expand (cfg : SearchCfg) (st : EngineState) (cur : Pos) (queue' : List Pos)
    (hpop : getNextNode cfg.strat st.astar cfg.goal st.queue = some (cur, queue'))
    (hnw : ((gridCell st.grid cur).state.isWall || (gridCell st.grid cur).state.isStart) = false)
    (hnv : visitedHas st.visited (gridCell st.grid cur).id = false)
    (hng : (gridCell st.grid cur).state.isGoal = false) :
    resumeRun cfg st = (.cont, expandState cfg st cur queue') := by
  have hlen := getNextNode_length _ _ _ _ _ _ hpop
  show resumeAux cfg st.queue.length st = _
  rw [← hlen]
  simp only [resumeAux, hpop, hnw, hnv, hng]
  rfl

/-! ## C5: what happens when the goal is popped -/

theorem getNextNode_some_ne_nil (strat : Strat) (ast : AStarState) (goal : Pos)
    (queue : List Pos) (cur : Pos) (queue' : List Pos)
    (h : getNextNode strat ast goal queue = some (cur, queue')) : queue ≠ [] := by
  intro hq
  subst hq
  cases strat <;> simp [getNextNode, selectIdx, selectAux] at h

theorem resumeRun_found (cfg : SearchCfg) (st : EngineState) (cur : Pos) (queue' : List Pos)
    (hpop : getNextNode cfg.strat st.astar cfg.goal st.queue = some (cur, queue'))
    (hnw : ((gridCell st.grid cur).state.isWall || (gridCell st.grid cur).state.isStart) = false)
    (hnv : visitedHas st.visited (gridCell st.grid cur).id = false)
    (hg : (gridCell st.grid cur).state.isGoal = true) :
    resumeRun cfg st =
      (.foundRes (pathWalk st.grid st.parentMap (st.parentMap.size + 1) cur),
        foundState st cur queue') := by
  have hlen := getNextNode_length _ _ _ _ _ _ hpop
  show resumeAux cfg st.queue.length st = _
  rw [← hlen]
  simp only [resumeAux, hpop, hnw, hnv, hg]
  rfl

/-- Goal branch of one engine step, for any strategy: popping a goal-tagged,
unvisited, non-wall, non-start cell runs the standard id-keyed backward walk
from the popped position, paints exactly those positions as Path (goal guard
only), marks the goal visited, and reports Found — the strategy-local A*
state is neither consulted nor modified. -/
theorem goal_pop_standard_reconstruction (cfg : SearchCfg) (st : EngineState)
    (cur : Pos) (queue' : List Pos)
    (hpop : getNextNode cfg.strat st.astar cfg.goal st.queue = some (cur, queue'))
    (hnw : ((gridCell st.grid cur).state.isWall || (gridCell st.grid cur).state.isStart) = false)
    (hnv : visitedHas st.visited (gridCell st.grid cur).id = false)
    (hg : (gridCell st.grid cur).state.isGoal = true) :
    resumeRun cfg st =
      (.foundRes (pathWalk st.grid st.parentMap (st.parentMap.size + 1) cur),
        { st with
            grid := paintPath st.grid (pathWalk st.grid st.parentMap (st.parentMap.size + 1) cur)
            queue := queue'
            visited := st.visited ++ [(gridCell st.grid cur).id] }) := by
  rw [resumeRun_found cfg st cur queue' hpop hnw hnv hg]
  simp [foundState]

/-- Counterexample for C5: in the concrete A* run, the step that pops the
goal returns Found via the standard engine reconstruction; the position
(1,1) is in `reconstructPath()`'s output and is neither Start nor Goal, yet
it is not tagged Path in the resulting grid — so the engine did not mark
`reconstructPath()`'s positions instead of the standard reconstruction. -/
theorem C5_goal_pop_counterexample :
    (resumeRun astRunCfg (stepN astRunCfg 2 astRunInit)).1 =
      .foundRes [((0 : Int), (1 : Int)), ((0 : Int), (0 : Int))] ∧
    ((1 : Int), (1 : Int)) ∈ getOptimalPath (stepN astRunCfg 2 astRunInit).astar ∧
    ((1 : Int), (1 : Int)) ≠ astRunCfg.start ∧
    ((1 : Int), (1 : Int)) ≠ astRunCfg.goal ∧
    (gridCell (resumeRun astRunCfg (stepN astRunCfg 2 astRunInit)).2.grid
      ((1 : Int), (1 : Int))).state.isPath = false := by
  refine ⟨by decide, by decide, by decide, by decide, by decide⟩

/-- Witness for the amended C5 theorem: the goal-pop step of the concrete A*
run instantiates the standard-reconstruction characterization. -/
theorem goal_pop_standard_reconstruction_witness :
    resumeRun astRunCfg (stepN astRunCfg 2 astRunInit) =
      (.foundRes (pathWalk (stepN astRunCfg 2 astRunInit).grid
          (stepN astRunCfg 2 astRunInit).parentMap
          ((stepN astRunCfg 2 astRunInit).parentMap.size + 1) ((0 : Int), (1 : Int))),
        { (stepN astRunCfg 2 astRunInit) with
            grid := paintPath (stepN astRunCfg 2 astRunInit).grid
              (pathWalk (stepN astRunCfg 2 astRunInit).grid
                (stepN astRunCfg 2 astRunInit).parentMap
                ((stepN astRunCfg 2 astRunInit).parentMap.size + 1) ((0 : Int), (1 : Int)))
            queue := [((2 : Int), (0 : Int)), ((2 : Int), (1 : Int))]
            visited := (stepN astRunCfg 2 astRunInit).visited ++
              [(gridCell (stepN astRunCfg 2 astRunInit).grid ((0 : Int), (1 : Int))).id] }) :=
  goal_pop_standard_reconstruction astRunCfg (stepN astRunCfg 2 astRunInit)
    ((0 : Int), (1 : Int)) [((2 : Int), (0 : Int)), ((2 : Int), (1 : Int))]
    (by decide) (by decide) (by decide) (by decide)

/-! ## C9: the engine predecessor map -/

theorem relaxAll_congr (strat : Strat) (g g' : Grid) (cur : Pos) :
    ∀ (nbrs : List Pos) (queue : List Pos) (visited : List Nat) (pm : OMap Nat Pos)
      (ast : AStarState),
      (∀ n ∈ nbrs, gridCell g n = gridCell g' n) →
      relaxAll strat g cur nbrs queue visited pm ast =
        relaxAll strat g' cur nbrs queue visited pm ast := by
  intro nbrs
  induction nbrs with
  | nil => intro _ _ _ _ _; rfl
  | cons n rest ih =>
      intro queue visited pm ast hgg
      have hn : gridCell g n = gridCell g' n := hgg n (List.mem_cons_self _ _)
      have hrest : ∀ m ∈ rest, gridCell g m = gridCell g' m :=
        fun m hm => hgg m (List.mem_cons_of_mem _ hm)
      show relaxAll strat g cur (n :: rest) queue visited pm ast = _
      rw [relaxAll, relaxAll]
      rw [hn]
      by_cases hv : visitedHas visited (gridCell g' n).id
      · simp only [hv, if_pos]
        exact ih _ _ _ _ hrest
      · by_cases hw : (gridCell g' n).state.isWall
        · simp only [hv, hw, if_pos, if_neg, not_false_iff]
          exact ih _ _ _ _ hrest
        · simp only [hv, hw, if_neg, not_false_iff]
          by_cases hr : (processNeighbour strat ast cur n).1
          · simp only [hr, if_pos]
            exact ih _ _ _ _ hrest
          · simp only [hr, if_neg, Bool.not_eq_true, if_false]
            exact ih _ _ _ _ hrest

theorem relaxAll_parent_find (strat : Strat) (hstrat : strat = .bfs ∨ strat = .dfs)
    (g : Grid) (cur : Pos) :
    ∀ (nbrs : List Pos) (queue : List Pos) (visited : List Nat) (pm : OMap Nat Pos)
      (ast : AStarState) (i : Nat),
      (relaxAll strat g cur nbrs queue visited pm ast).2.1.find? i =
        if nbrs.any (fun n =>
            (gridCell g n).id == i && !(visitedHas visited (gridCell g n).id) &&
              !((gridCell g n).state.isWall)) then some cur
        else pm.find? i := by
  have hproc : ∀ (a : AStarState) (c n : Pos), processNeighbour strat a c n = (true, a) := by
    intro a c n
    rcases hstrat with h | h <;> subst h <;> rfl
  intro nbrs
  induction nbrs with
  | nil => intro _ _ _ _ _; simp [relaxAll]
  | cons n rest ih =>
      intro queue visited pm ast i
      show (relaxAll strat g cur (n :: rest) queue visited pm ast).2.1.find? i = _
      simp only [relaxAll]
      by_cases hv : visitedHas visited (gridCell g n).id
      · rw [if_pos hv, ih queue visited pm ast i]
        have hhead : ((gridCell g n).id == i && !(visitedHas visited (gridCell g n).id) &&
            !((gridCell g n).state.isWall)) = false := by
          rw [hv]
          simp
        rw [List.any_cons, hhead]
        simp only [Bool.false_or]
      · rw [if_neg hv]
        by_cases hw : (gridCell g n).state.isWall
        · rw [if_pos hw, ih queue visited pm ast i]
          have hhead : ((gridCell g n).id == i && !(visitedHas visited (gridCell g n).id) &&
              !((gridCell g n).state.isWall)) = false := by
            rw [hw]
            simp
          rw [List.any_cons, hhead]
          simp only [Bool.false_or]
        · rw [if_neg hw, hproc, if_pos rfl,
            ih (queue ++ [n]) visited (pm.set (gridCell g n).id cur) ast i]
          by_cases hrest : rest.any (fun n =>
              (gridCell g n).id == i && !(visitedHas visited (gridCell g n).id) &&
                !((gridCell g n).state.isWall))
          · simp [List.any_cons, hrest]
          · simp only [hrest, if_neg, Bool.not_eq_true, if_false]
            rw [OMap.find?_set]
            by_cases hid : i = (gridCell g n).id
            · have hbeq : ((gridCell g n).id == i) = true := by
                simp [hid]
              simp [List.any_cons, hbeq, hv, hw, hid]
            · have hbeq : ((gridCell g n).id == i) = false := by
                simp
                intro h
                exact absurd h.symm hid
              simp [List.any_cons, hbeq, hrest, hid]

/-- Amended C9: one expansion step under BFS/DFS sets the predecessor of
every neighbour that is unvisited (after the current cell was marked
visited) and not a wall to the current position — overwriting any previously
recorded predecessor — and leaves every other entry unchanged; the map
therefore records the most recent discoverer, not the first. -/
theorem C9_parent_map_last_discoverer (cfg : SearchCfg)
    (hstrat : cfg.strat = .bfs ∨ cfg.strat = .dfs)
    (st : EngineState) (cur : Pos) (queue' : List Pos)
    (hpop : getNextNode cfg.strat st.astar cfg.goal st.queue = some (cur, queue'))
    (hnw : ((gridCell st.grid cur).state.isWall || (gridCell st.grid cur).state.isStart) = false)
    (hnv : visitedHas st.visited (gridCell st.grid cur).id = false)
    (hng : (gridCell st.grid cur).state.isGoal = false) (i : Nat) :
    (resumeRun cfg st).2.parentMap.find? i =
      if (getNeighbours cur st.grid).any (fun n =>
          (gridCell st.grid n).id == i &&
            !(visitedHas (st.visited ++ [(gridCell st.grid cur).id]) (gridCell st.grid n).id) &&
            !((gridCell st.grid n).state.isWall)) then some cur
      else st.parentMap.find? i := by
  rw [resumeRun_expand cfg st cur queue' hpop hnw hnv hng]
  have hna : cfg.strat ≠ .astar := by
    rcases hstrat with h | h <;> simp [h]
  show (expandState cfg st cur queue').parentMap.find? i = _
  unfold expandState
  simp only [if_neg hna]
  have hcong : relaxAll cfg.strat (st.grid.set cur ⟨(gridCell st.grid cur).id, visitedState⟩)
      cur (getNeighbours cur st.grid) queue' (st.visited ++ [(gridCell st.grid cur).id])
      st.parentMap st.astar =
      relaxAll cfg.strat st.grid cur (getNeighbours cur st.grid) queue'
        (st.visited ++ [(gridCell st.grid cur).id]) st.parentMap st.astar := by
    apply relaxAll_congr
    intro n hn
    have hne : ¬ n = cur := by
      intro h
      exact getNeighbours_not_self cur st.grid (h ▸ hn)
    rw [gridCell_set, if_neg hne]
  rw [hcong]
  rw [relaxAll_parent_find cfg.strat hstrat st.grid cur]

/-- Witness for the amended C9 theorem: the second step of the concrete
2 × 2 BFS run overwrites the goal cell's recorded predecessor. -/
theorem C9_parent_map_last_discoverer_witness :
    (resumeRun bfsRunCfg (stepN bfsRunCfg 1 bfsRunInit)).2.parentMap.find? 4 =
      if (getNeighbours ((0 : Int), (1 : Int)) (stepN bfsRunCfg 1 bfsRunInit).grid).any (fun n =>
          (gridCell (stepN bfsRunCfg 1 bfsRunInit).grid n).id == 4 &&
            !(visitedHas ((stepN bfsRunCfg 1 bfsRunInit).visited ++
                [(gridCell (stepN bfsRunCfg 1 bfsRunInit).grid ((0 : Int), (1 : Int))).id])
              (gridCell (stepN bfsRunCfg 1 bfsRunInit).grid n).id) &&
            !((gridCell (stepN bfsRunCfg 1 bfsRunInit).grid n).state.isWall)) then
        some ((0 : Int), (1 : Int))
      else (stepN bfsRunCfg 1 bfsRunInit).parentMap.find? 4 :=
  C9_parent_map_last_discoverer bfsRunCfg (Or.inl rfl) (stepN bfsRunCfg 1 bfsRunInit)
    ((0 : Int), (1 : Int)) [((1 : Int), (1 : Int))] (by decide) (by decide) (by decide)
    (by decide) 4

/-- Counterexample for C9: in the 2 × 2 BFS run the goal cell (id 4) gets
predecessor (1,0) at the first expansion, which the second expansion
replaces by (0,1) before the goal cell is ever expanded — the map does not
keep the first discoverer. -/
theorem C9_counterexample :
    (gridCell bfsRunGrid ((1 : Int), (1 : Int))).id = 4 ∧
    (stepN bfsRunCfg 1 bfsRunInit).parentMap.find? 4 = some ((1 : Int), (0 : Int)) ∧
    (stepN bfsRunCfg 2 bfsRunInit).parentMap.find? 4 = some ((0 : Int), (1 : Int)) ∧
    visitedHas (stepN bfsRunCfg 2 bfsRunInit).visited 4 = false := by
  refine ⟨by decide, by decide, by decide, by decide⟩

/-! ## C8: stepping after a terminal result -/

/-- Counterexample for C8: driving the 1 × 3 BFS run to its terminal Found
result (two wrapper calls) leaves `canStep = false` and a cleared generator
ref; one further `searchWrapper` call is not a no-op — it reports a
steppable state again and mutates the grid (it has started a fresh run). -/
theorem C8_counterexample :
    (wrapN bfsLineCfg 2 bfsLineW0).canStep = false ∧
    (wrapN bfsLineCfg 2 bfsLineW0).ref = none ∧
    (searchWrapper bfsLineCfg (wrapN bfsLineCfg 2 bfsLineW0)).canStep = true ∧
    (searchWrapper bfsLineCfg (wrapN bfsLineCfg 2 bfsLineW0)).grid ≠
      (wrapN bfsLineCfg 2 bfsLineW0).grid := by
  refine ⟨by decide, by decide, by decide, by decide⟩

/-- Amended C8: after a terminal result the wrapper has `canStep = false`
and a cleared generator ref (the timer-driven driver, which fires only while
`canStep`, therefore stops); the done generator itself is a no-op on further
`next()` calls — but the wrapper, having cleared the ref, would start a new
run on a further direct call rather than return the terminal result. -/
theorem C8_terminal_wrapper :
    (∀ (cfg : SearchCfg) (g0 : Grid) (ast0 : AStarState) (st : EngineState),
      genNext cfg g0 ast0 (.finished st) = (true, .finished st)) ∧
    (∀ (cfg : SearchCfg) (w : WState),
      ((searchWrapper cfg w).canStep = false ↔ (searchWrapper cfg w).ref = none)) := by
  constructor
  · intro cfg g0 ast0 st
    rfl
  · intro cfg w
    show ((!(genNext cfg w.grid w.astPersist (w.ref.getD .fresh)).1) = false ↔
      (if (genNext cfg w.grid w.astPersist (w.ref.getD .fresh)).1 then none
        else some (genNext cfg w.grid w.astPersist (w.ref.getD .fresh)).2) = none)
    cases h : (genNext cfg w.grid w.astPersist (w.ref.getD .fresh)).1 <;> simp [h]

/-! ## C10: termination of the A* backward walk -/

/-- Predecessor map produced by raw strategy operations alone (initialize,
then two relaxations between unexpanded cells): the second relaxation closes
a two-cycle. -/
def cycleAst : AStarState :=
  (processNeighbour .astar
    (processNeighbour .astar (aStarInit ((0 : Int), (0 : Int)))
      ((5 : Int), (5 : Int)) ((6 : Int), (5 : Int))).2
    ((6 : Int), (5 : Int)) ((5 : Int), (5 : Int))).2

/-- Counterexample for C10 as stated: a predecessor map reachable through
A*'s initialize and relax operations alone contains a parent cycle
(6,5) ↦ (5,5) ↦ (6,5) — both relaxations were accepted because a missing
g-score is treated as 0 on the read side — so the backward walk never
reaches a key with no entry (one more unit of fuel keeps extending it). -/
theorem C10_counterexample :
    cycleAst.parentMap.find? ((6 : Int), (5 : Int)) = some ((5 : Int), (5 : Int)) ∧
    cycleAst.parentMap.find? ((5 : Int), (5 : Int)) = some ((6 : Int), (5 : Int)) ∧
    walkAux cycleAst.parentMap (cycleAst.parentMap.size + 1) ((6 : Int), (5 : Int)) ≠
      walkAux cycleAst.parentMap (cycleAst.parentMap.size + 2) ((6 : Int), (5 : Int)) := by
  refine ⟨by decide, by decide, by decide⟩

/-- Witness for C7 on the concrete 2 × 2 grid. -/
theorem C7_engine_init_witness :
    (engineInit bfsRunGrid bfsRunCfg emptyAst).queue = getNeighbours bfsRunCfg.start bfsRunGrid ∧
    bfsRunCfg.start ∉ getNeighbours bfsRunCfg.start bfsRunGrid ∧
    (engineInit bfsRunGrid bfsRunCfg emptyAst).visited = [(⟨1, startState⟩ : Cell).id] ∧
    (∀ n ∈ getNeighbours bfsRunCfg.start bfsRunGrid,
      (engineInit bfsRunGrid bfsRunCfg emptyAst).parentMap.find? ((gridCell bfsRunGrid n).id) =
        some bfsRunCfg.start) ∧
    (bfsRunCfg.strat = .astar →
      (engineInit bfsRunGrid bfsRunCfg emptyAst).astar = aStarInit bfsRunCfg.start) ∧
    (bfsRunCfg.strat ≠ .astar → (engineInit bfsRunGrid bfsRunCfg emptyAst).astar = emptyAst) :=
  C7_engine_init bfsRunGrid bfsRunCfg emptyAst ⟨1, startState⟩ (by decide)

/-! ## Generic lemmas about the painting passes -/

theorem paintStep_cases (cond : Cell → Bool) (s : CellState) (g : Grid) (p q : Pos) :
    gridCell (paintStep cond s g p) q = gridCell g q ∨
      gridCell (paintStep cond s g p) q = ⟨(gridCell g q).id, s⟩ := by
  unfold paintStep
  by_cases hc : cond (gridCell g p)
  · rw [if_pos hc]
    exact Or.inl rfl
  · rw [if_neg hc, gridCell_set]
    by_cases hq : q = p
    · rw [if_pos hq, hq]
      exact Or.inr rfl
    · rw [if_neg hq]
      exact Or.inl rfl

theorem paintStep_untouched (cond : Cell → Bool) (s : CellState) (g : Grid) (p q : Pos)
    (h : q ≠ p) : gridCell (paintStep cond s g p) q = gridCell g q := by
  unfold paintStep
  by_cases hc : cond (gridCell g p)
  · rw [if_pos hc]
  · rw [if_neg hc, gridCell_set, if_neg h]

theorem paintFold_cases (cond : Cell → Bool) (s : CellState) :
    ∀ (ps : List Pos) (g : Grid) (q : Pos),
      gridCell (ps.foldl (paintStep cond s) g) q = gridCell g q ∨
        gridCell (ps.foldl (paintStep cond s) g) q = ⟨(gridCell g q).id, s⟩ := by
  intro ps
  induction ps with
  | nil => intro g q; exact Or.inl rfl
  | cons p rest ih =>
      intro g q
      rw [List.foldl_cons]
      rcases ih (paintStep cond s g p) q with h | h <;>
        rcases paintStep_cases cond s g p q with h' | h'
      · exact Or.inl (h.trans h')
      · exact Or.inr (h.trans h')
      · rw [h, h']
        exact Or.inr rfl
      · rw [h, h']
        exact Or.inr rfl

theorem paintFold_id (cond : Cell → Bool) (s : CellState) (ps : List Pos) (g : Grid) (q : Pos) :
    (gridCell (ps.foldl (paintStep cond s) g) q).id = (gridCell g q).id := by
  rcases paintFold_cases cond s ps g q with h | h <;> rw [h]

theorem paintFold_untouched (cond : Cell → Bool) (s : CellState) :
    ∀ (ps : List Pos) (g : Grid) (q : Pos), q ∉ ps →
      gridCell (ps.foldl (paintStep cond s) g) q = gridCell g q := by
  intro ps
  induction ps with
  | nil => intro g q _; rfl
  | cons p rest ih =>
      intro g q hq
      rw [List.foldl_cons]
      have h1 : q ≠ p := fun h => hq (h ▸ List.mem_cons_self _ _)
      have h2 : q ∉ rest := fun h => hq (List.mem_cons_of_mem _ h)
      rw [ih _ _ h2, paintStep_untouched _ _ _ _ _ h1]

theorem paintFold_guarded (cond : Cell → Bool) (s : CellState) :
    ∀ (ps : List Pos) (g : Grid) (q : Pos), (q ∈ ps → cond (gridCell g q) = true) →
      gridCell (ps.foldl (paintStep cond s) g) q = gridCell g q := by
  intro ps
  induction ps with
  | nil => intro g q _; rfl
  | cons p rest ih =>
      intro g q hq
      rw [List.foldl_cons]
      by_cases hqp : q = p
      · subst hqp
        have hc : cond (gridCell g q) = true := hq (List.mem_cons_self _ _)
        have hstep : paintStep cond s g q = g := by
          unfold paintStep
          rw [if_pos hc]
        rw [hstep]
        exact ih g q (fun _ => hc)
      · have hstep : gridCell (paintStep cond s g p) q = gridCell g q :=
          paintStep_untouched _ _ _ _ _ hqp
        rw [ih (paintStep cond s g p) q (fun hm => hstep ▸ hq (List.mem_cons_of_mem _ hm)), hstep]

theorem clearPath_cell (g : Grid) (p : Pos) :
    gridCell (clearPath g) p =
      ⟨(gridCell g p).id, { (gridCell g p).state with isPath := false }⟩ := by
  obtain ⟨l⟩ := g
  induction l with
  | nil => rfl
  | cons e rest ih =>
      have hmap : clearPath (OMap.mk (e :: rest)) =
          OMap.mk ((e.1, (⟨e.2.id, { e.2.state with isPath := false }⟩ : Cell)) ::
            (clearPath (OMap.mk rest)).entries) := by
        show OMap.mk (List.map _ (e :: rest)) = _
        rw [List.map_cons]
        rfl
      rw [hmap]
      by_cases he : e.1 = p
      · simp [gridCell, OMap.find?_mk_cons, he]
      · have h1 : gridCell (OMap.mk ((e.1, (⟨e.2.id, { e.2.state with isPath := false }⟩ : Cell)) ::
            (clearPath (OMap.mk rest)).entries)) p = gridCell (clearPath (OMap.mk rest)) p := by
          simp [gridCell, OMap.find?_mk_cons, he]
        have h2 : gridCell (OMap.mk (e :: rest)) p = gridCell (OMap.mk rest) p := by
          simp [gridCell, OMap.find?_mk_cons, he]
        rw [h1, h2]
        exact ih

/-! ## Factory states and reserved tags -/

/-- Reserved tags: a cell the search process must never overwrite. -/
def reservedTag (s : CellState) : Bool := s.isWall || s.isStart || s.isGoal

/-- States producible by `CellFactory`: every cell of an app-built grid has
exactly one of these states. -/
def factoryStates : List CellState :=
  [defaultState, startState, goalState, wallState, visitedState, queuedState, pathState]

theorem factory_clear {s : CellState} (h : s ∈ factoryStates) :
    { s with isPath := false } ∈ factoryStates := by
  fin_cases h <;> simp [factoryStates, defaultState, startState, goalState, wallState,
    visitedState, queuedState, pathState]

theorem factory_reserved_noPath {s : CellState} (h : s ∈ factoryStates)
    (hr : reservedTag s = true) : s.isPath = false := by
  fin_cases h <;> simp_all [reservedTag, factoryStates, defaultState, startState, goalState,
    wallState, visitedState, queuedState, pathState]

theorem cellState_eta_noPath {s : CellState} (h : s.isPath = false) :
    { s with isPath := false } = s := by
  cases s
  simp_all

theorem reservedTag_paintStates :
    reservedTag pathState = false ∧ reservedTag visitedState = false ∧
      reservedTag queuedState = false := by
  decide

/-! ## Membership in the backward walks -/

theorem pathWalk_mem (g : Grid) (pm : OMap Nat Pos) :
    ∀ (fuel : Nat) (c x : Pos), x ∈ pathWalk g pm fuel c →
      (pm.find? (gridCell g x).id).isSome = true ∧ (x = c ∨ ∃ k, pm.find? k = some x) := by
  intro fuel
  induction fuel with
  | zero => intro c x hx; simp [pathWalk] at hx
  | succ f ih =>
      intro c x hx
      rw [pathWalk] at hx
      cases hfind : pm.find? (gridCell g c).id with
      | none => rw [hfind] at hx; simp at hx
      | some par =>
          rw [hfind] at hx
          rcases List.mem_cons.mp hx with rfl | hx'
          · exact ⟨by rw [hfind]; rfl, Or.inl rfl⟩
          · obtain ⟨h1, h2⟩ := ih par x hx'
            refine ⟨h1, Or.inr ?_⟩
            rcases h2 with rfl | ⟨k, hk⟩
            · exact ⟨(gridCell g c).id, hfind⟩
            · exact ⟨k, hk⟩

theorem walkAux_mem (m : OMap Pos Pos) :
    ∀ (fuel : Nat) (k x : Pos), x ∈ walkAux m fuel k → ∃ kk, m.find? kk = some x := by
  intro fuel
  induction fuel with
  | zero => intro k x hx; simp [walkAux] at hx
  | succ f ih =>
      intro k x hx
      rw [walkAux] at hx
      cases hfind : m.find? k with
      | none => rw [hfind] at hx; simp at hx
      | some p =>
          rw [hfind] at hx
          rcases List.mem_cons.mp hx with rfl | hx'
          · exact ⟨k, hfind⟩
          · exact ih p x hx'

/-! ## Entry provenance through the relaxation loop -/

theorem processNeighbour_ast_mem (strat : Strat) (a : AStarState) (cur n : Pos)
    (e : Pos × Pos) (he : e ∈ (processNeighbour strat a cur n).2.parentMap.entries) :
    e ∈ a.parentMap.entries ∨ e = (n, cur) := by
  cases strat with
  | bfs => exact Or.inl he
  | dfs => exact Or.inl he
  | astar =>
      simp only [processNeighbour] at he
      split at he
      · exact OMap.mem_entries_set _ _ _ _ he
      · split at he
        · exact OMap.mem_entries_set _ _ _ _ he
        · exact Or.inl he

theorem relaxAll_pm_mem (strat : Strat) (g : Grid) (cur : Pos) :
    ∀ (nbrs queue : List Pos) (visited : List Nat) (pm : OMap Nat Pos) (ast : AStarState)
      (e : Nat × Pos), e ∈ (relaxAll strat g cur nbrs queue visited pm ast).2.1.entries →
      e ∈ pm.entries ∨ (e.2 = cur ∧ visitedHas visited e.1 = false) := by
  intro nbrs
  induction nbrs with
  | nil => intro _ _ _ _ _ he; exact Or.inl he
  | cons n rest ih =>
      intro queue visited pm ast e he
      rw [relaxAll] at he
      by_cases hv : visitedHas visited (gridCell g n).id
      · rw [if_pos hv] at he
        exact ih _ _ _ _ _ he
      · rw [if_neg hv] at he
        by_cases hw : (gridCell g n).state.isWall
        · rw [if_pos hw] at he
          exact ih _ _ _ _ _ he
        · rw [if_neg hw] at he
          by_cases hr : (processNeighbour strat ast cur n).1
          · rw [if_pos hr] at he
            rcases ih _ _ _ _ _ he with h | h
            · rcases OMap.mem_entries_set _ _ _ _ h with h' | h'
              · exact Or.inl h'
              · refine Or.inr ⟨by rw [h'], ?_⟩
                rw [h']
                simpa using hv
            · exact Or.inr h
          · rw [if_neg hr] at he
            exact ih _ _ _ _ _ he

theorem relaxAll_ast_mem (strat : Strat) (g : Grid) (cur : Pos) :
    ∀ (nbrs queue : List Pos) (visited : List Nat) (pm : OMap Nat Pos) (ast : AStarState)
      (e : Pos × Pos), e ∈ (relaxAll strat g cur nbrs queue visited pm ast).2.2.parentMap.entries →
      e ∈ ast.parentMap.entries ∨
        (e.2 = cur ∧ visitedHas visited (gridCell g e.1).id = false) := by
  intro nbrs
  induction nbrs with
  | nil => intro _ _ _ _ _ he; exact Or.inl he
  | cons n rest ih =>
      intro queue visited pm ast e he
      rw [relaxAll] at he
      by_cases hv : visitedHas visited (gridCell g n).id
      · rw [if_pos hv] at he
        exact ih _ _ _ _ _ he
      · rw [if_neg hv] at he
        by_cases hw : (gridCell g n).state.isWall
        · rw [if_pos hw] at he
          exact ih _ _ _ _ _ he
        · rw [if_neg hw] at he
          by_cases hr : (processNeighbour strat ast cur n).1
          · rw [if_pos hr] at he
            rcases ih _ _ _ _ _ he with h | h
            · rcases processNeighbour_ast_mem strat ast cur n e h with h' | h'
              · exact Or.inl h'
              · refine Or.inr ⟨by rw [h'], ?_⟩
                rw [h']
                simpa using hv
            · exact Or.inr h
          · rw [if_neg hr] at he
            have : (processNeighbour strat ast cur n).2 = ast := by
              cases strat with
              | bfs => rfl
              | dfs => rfl
              | astar =>
                  simp only [processNeighbour] at hr ⊢
                  cases hfind : ast.gScore.find? n with
                  | none => simp [hfind] at hr
                  | some gsc =>
                      simp only [hfind] at hr ⊢
                      by_cases hlt : (ast.gScore.find? cur).getD 0 + 1 < gsc
                      · simp [hlt] at hr
                      · simp [hlt]
            rw [this] at he
            exact ih _ _ _ _ _ he

/-! ## Reachability through generator steps -/

/-- Iterated `next()` calls on the generator. -/
def genNextN (cfg : SearchCfg) (g0 : Grid) (ast0 : AStarState) : Nat → Gen → Gen
  | 0, gen => gen
  | n + 1, gen => genNextN cfg g0 ast0 n (genNext cfg g0 ast0 gen).2

theorem getOptimalPath_mem (ast : AStarState) (x : Pos) (hx : x ∈ getOptimalPath ast) :
    ∃ kk, ast.parentMap.find? kk = some x := by
  unfold getOptimalPath at hx
  cases h : ast.parentMap.lastKey? with
  | none => rw [h] at hx; simp at hx
  | some k =>
      rw [h] at hx
      exact walkAux_mem _ _ _ _ hx

theorem reserved_cur_false {s : CellState} (hnw : (s.isWall || s.isStart) = false)
    (hng : s.isGoal = false) : reservedTag s = false := by
  unfold reservedTag
  rcases Bool.or_eq_false_iff.mp hnw with ⟨h1, h2⟩
  rw [h1, h2, hng]
  rfl

theorem reserved_implies_queued_guard {s : CellState} (h : reservedTag s = true) :
    (s.isGoal || s.isStart || s.isVisited || s.isWall) = true := by
  unfold reservedTag at h
  rcases Bool.or_eq_true_iff.mp h with h' | h'
  · rcases Bool.or_eq_true_iff.mp h' with h'' | h''
    · simp [h'']
    · simp [h'']
  · simp [h']

theorem reserved_not_guard_wall {s : CellState} (h : reservedTag s = true)
    (hg : (s.isGoal || s.isStart) = false) : s.isWall = true := by
  unfold reservedTag at h
  rcases Bool.or_eq_false_iff.mp hg with ⟨h1, h2⟩
  rcases Bool.or_eq_true_iff.mp h with h' | h'
  · rcases Bool.or_eq_true_iff.mp h' with h'' | h''
    · exact h''
    · exact absurd h'' (by simp [h2])
  · exact absurd h' (by simp [h1])

theorem reservedTag_clear (s : CellState) :
    reservedTag { s with isPath := false } = reservedTag s := rfl

theorem paintPath_eq_fold (g : Grid) (ps : List Pos) :
    paintPath g ps = ps.foldl (paintStep (fun c => c.state.isGoal) pathState) g := rfl

theorem paintAStar_eq_fold (g : Grid) (ps : List Pos) :
    paintAStar g ps =
      ps.foldl (paintStep (fun c => c.state.isGoal || c.state.isStart) pathState) g := rfl

theorem paintQueued_eq_fold (g : Grid) (ps : List Pos) :
    paintQueued g ps =
      ps.foldl
        (paintStep (fun c => c.state.isGoal || c.state.isStart || c.state.isVisited || c.state.isWall)
          queuedState) g := rfl

/-! ## C2: preservation of reserved cells -/

theorem visitedHas_true_iff (v : List Nat) (i : Nat) : visitedHas v i = true ↔ i ∈ v := by
  simp [visitedHas]

/-- Run invariant for the reserved-cell claim: every cell state is a factory
state; every engine-predecessor value is the start argument or a
reserved-free position; no engine-predecessor key is the start cell's id;
the start cell's id is visited; and, for A* runs, every strategy-local
predecessor value is reserved-free. -/
def reservedOK (cfg : SearchCfg) (st : EngineState) : Prop :=
  (∀ p : Pos, (gridCell st.grid p).state ∈ factoryStates) ∧
  (∀ e ∈ st.parentMap.entries,
    e.2 = cfg.start ∨ reservedTag (gridCell st.grid e.2).state = false) ∧
  (∀ e ∈ st.parentMap.entries, e.1 ≠ (gridCell st.grid cfg.start).id) ∧
  ((gridCell st.grid cfg.start).id ∈ st.visited) ∧
  (cfg.strat = .astar → ∀ e ∈ st.astar.parentMap.entries,
    reservedTag (gridCell st.grid e.2).state = false)

theorem resumeRun_reserved (cfg : SearchCfg) :
    ∀ (n : Nat) (st : EngineState), st.queue.length ≤ n → reservedOK cfg st →
      reservedOK cfg (resumeRun cfg st).2 ∧
      (∀ p, reservedTag (gridCell st.grid p).state = true →
        gridCell (resumeRun cfg st).2.grid p = gridCell st.grid p) := by
  intro n
  induction n with
  | zero =>
      intro st hlen hinv
      have hq : st.queue = [] := List.length_eq_zero.mp (Nat.le_zero.mp hlen)
      rw [resumeRun_empty cfg st hq]
      exact ⟨hinv, fun p _ => rfl⟩
  | succ n ih =>
      intro st hlen hinv
      cases hq : st.queue with
      | nil =>
          rw [resumeRun_empty cfg st hq]
          exact ⟨hinv, fun p _ => rfl⟩
      | cons a l =>
          obtain ⟨cur, queue', hpop⟩ :=
            getNextNode_total cfg.strat st.astar cfg.goal st.queue (by rw [hq]; simp)
          have hlen' : queue'.length ≤ n := by
            have h1 := getNextNode_length _ _ _ _ _ _ hpop
            omega
          obtain ⟨hEX, hV1, hV0, hVIS, hV2⟩ := hinv
          by_cases hskip1 :
              ((gridCell st.grid cur).state.isWall || (gridCell st.grid cur).state.isStart) = true
          · rw [resumeRun_skip cfg st cur queue' hpop (Or.inl hskip1)]
            exact ih { st with queue := queue' } hlen' ⟨hEX, hV1, hV0, hVIS, hV2⟩
          · have hnw : ((gridCell st.grid cur).state.isWall ||
                (gridCell st.grid cur).state.isStart) = false := by
              simpa using hskip1
            by_cases hskip2 : visitedHas st.visited (gridCell st.grid cur).id = true
            · rw [resumeRun_skip cfg st cur queue' hpop (Or.inr ⟨hnw, hskip2⟩)]
              exact ih { st with queue := queue' } hlen' ⟨hEX, hV1, hV0, hVIS, hV2⟩
            · have hnv : visitedHas st.visited (gridCell st.grid cur).id = false := by
                simpa using hskip2
              by_cases hgoal : (gridCell st.grid cur).state.isGoal = true
              · -- goal branch
                rw [resumeRun_found cfg st cur queue' hpop hnw hnv hgoal]
                have hpres : ∀ p, reservedTag (gridCell st.grid p).state = true →
                    gridCell (paintPath st.grid
                      (pathWalk st.grid st.parentMap (st.parentMap.size + 1) cur)) p =
                      gridCell st.grid p := by
                  intro p hr
                  by_cases hpg : (gridCell st.grid p).state.isGoal = true
                  · exact paintFold_guarded _ _ _ st.grid p (fun _ => hpg)
                  · have hnotin : p ∉ pathWalk st.grid st.parentMap (st.parentMap.size + 1) cur := by
                      intro hmem
                      obtain ⟨hsome, hcase⟩ := pathWalk_mem st.grid st.parentMap _ cur p hmem
                      rcases hcase with rfl | ⟨k, hk⟩
                      · exact hpg hgoal
                      · have hent := OMap.find?_some_mem _ _ _ hk
                        rcases hV1 _ hent with hstart | hfree
                        · obtain ⟨v', hv'⟩ := Option.isSome_iff_exists.mp hsome
                          have hent' := OMap.find?_some_mem _ _ _ hv'
                          have hstart' : p = cfg.start := hstart
                          exact hV0 _ hent' (by rw [hstart'])
                        · rw [hr] at hfree
                          exact absurd hfree (by simp)
                    exact paintFold_untouched _ _ _ st.grid p hnotin
                refine ⟨⟨?_, ?_, ?_, ?_, ?_⟩, ?_⟩
                · intro p
                  show (gridCell (paintPath st.grid _) p).state ∈ factoryStates
                  rcases paintFold_cases (fun c => c.state.isGoal) pathState
                      (pathWalk st.grid st.parentMap (st.parentMap.size + 1) cur) st.grid p with h | h
                  · rw [show paintPath st.grid (pathWalk st.grid st.parentMap (st.parentMap.size + 1) cur) =
                      (pathWalk st.grid st.parentMap (st.parentMap.size + 1) cur).foldl
                        (paintStep (fun c => c.state.isGoal) pathState) st.grid from rfl, h]
                    exact hEX p
                  · rw [show paintPath st.grid (pathWalk st.grid st.parentMap (st.parentMap.size + 1) cur) =
                      (pathWalk st.grid st.parentMap (st.parentMap.size + 1) cur).foldl
                        (paintStep (fun c => c.state.isGoal) pathState) st.grid from rfl, h]
                    simp [factoryStates]
                · intro e he
                  rcases hV1 e he with hstart | hfree
                  · exact Or.inl hstart
                  · refine Or.inr ?_
                    rcases paintFold_cases (fun c => c.state.isGoal) pathState
                        (pathWalk st.grid st.parentMap (st.parentMap.size + 1) cur) st.grid e.2 with h | h
                    · show reservedTag (gridCell (paintPath st.grid _) e.2).state = false
                      rw [show paintPath st.grid (pathWalk st.grid st.parentMap (st.parentMap.size + 1) cur) =
                        (pathWalk st.grid st.parentMap (st.parentMap.size + 1) cur).foldl
                          (paintStep (fun c => c.state.isGoal) pathState) st.grid from rfl, h]
                      exact hfree
                    · show reservedTag (gridCell (paintPath st.grid _) e.2).state = false
                      rw [show paintPath st.grid (pathWalk st.grid st.parentMap (st.parentMap.size + 1) cur) =
                        (pathWalk st.grid st.parentMap (st.parentMap.size + 1) cur).foldl
                          (paintStep (fun c => c.state.isGoal) pathState) st.grid from rfl, h]
                      rfl
                · intro e he
                  have hid : (gridCell (paintPath st.grid
                      (pathWalk st.grid st.parentMap (st.parentMap.size + 1) cur)) cfg.start).id =
                      (gridCell st.grid cfg.start).id :=
                    paintFold_id _ _ _ st.grid cfg.start
                  show e.1 ≠ (gridCell (paintPath st.grid _) cfg.start).id
                  rw [hid]
                  exact hV0 e he
                · have hid : (gridCell (paintPath st.grid
                      (pathWalk st.grid st.parentMap (st.parentMap.size + 1) cur)) cfg.start).id =
                      (gridCell st.grid cfg.start).id :=
                    paintFold_id _ _ _ st.grid cfg.start
                  show (gridCell (paintPath st.grid _) cfg.start).id ∈ st.visited ++ _
                  rw [hid]
                  exact List.mem_append_left _ hVIS
                · intro hstrat e he
                  have hfree := hV2 hstrat e he
                  rcases paintFold_cases (fun c => c.state.isGoal) pathState
                      (pathWalk st.grid st.parentMap (st.parentMap.size + 1) cur) st.grid e.2 with h | h
                  · show reservedTag (gridCell (paintPath st.grid _) e.2).state = false
                    rw [show paintPath st.grid (pathWalk st.grid st.parentMap (st.parentMap.size + 1) cur) =
                      (pathWalk st.grid st.parentMap (st.parentMap.size + 1) cur).foldl
                        (paintStep (fun c => c.state.isGoal) pathState) st.grid from rfl, h]
                    exact hfree
                  · show reservedTag (gridCell (paintPath st.grid _) e.2).state = false
                    rw [show paintPath st.grid (pathWalk st.grid st.parentMap (st.parentMap.size + 1) cur) =
                      (pathWalk st.grid st.parentMap (st.parentMap.size + 1) cur).foldl
                        (paintStep (fun c => c.state.isGoal) pathState) st.grid from rfl, h]
                    rfl
                · exact hpres
              · have hng : (gridCell st.grid cur).state.isGoal = false := by
                  simpa using hgoal
                rw [resumeRun_expand cfg st cur queue' hpop hnw hnv hng]
                have hcurfree : reservedTag (gridCell st.grid cur).state = false :=
                  reserved_cur_false hnw hng
                by_cases hstrat : cfg.strat = .astar
                · have hgrid : (expandState cfg st cur queue').grid =
                      paintAStar (clearPath st.grid) (getOptimalPath st.astar) := by
                    simp [expandState, hstrat]
                  have hvis : (expandState cfg st cur queue').visited =
                      st.visited ++ [(gridCell st.grid cur).id] := rfl
                  have hpm : (expandState cfg st cur queue').parentMap =
                      (relaxAll cfg.strat (paintAStar (clearPath st.grid) (getOptimalPath st.astar))
                        cur (getNeighbours cur st.grid) queue'
                        (st.visited ++ [(gridCell st.grid cur).id]) st.parentMap st.astar).2.1 := by
                    simp [expandState, hstrat]
                  have hast : (expandState cfg st cur queue').astar =
                      (relaxAll cfg.strat (paintAStar (clearPath st.grid) (getOptimalPath st.astar))
                        cur (getNeighbours cur st.grid) queue'
                        (st.visited ++ [(gridCell st.grid cur).id]) st.parentMap st.astar).2.2 := by
                    simp [expandState, hstrat]
                  have hmono : ∀ q, reservedTag (gridCell st.grid q).state = false →
                      reservedTag (gridCell (paintAStar (clearPath st.grid)
                        (getOptimalPath st.astar)) q).state = false := by
                    intro q hfq
                    have hclear : reservedTag (gridCell (clearPath st.grid) q).state = false := by
                      rw [clearPath_cell]
                      show reservedTag { (gridCell st.grid q).state with isPath := false } = false
                      rw [reservedTag_clear]
                      exact hfq
                    rcases paintFold_cases (fun c => c.state.isGoal || c.state.isStart) pathState
                        (getOptimalPath st.astar) (clearPath st.grid) q with h | h
                    · rw [paintAStar_eq_fold, h]
                      exact hclear
                    · rw [paintAStar_eq_fold, h]
                      rfl
                  have hidp : ∀ q, (gridCell (paintAStar (clearPath st.grid)
                      (getOptimalPath st.astar)) q).id = (gridCell st.grid q).id := by
                    intro q
                    rw [paintAStar_eq_fold, paintFold_id, clearPath_cell]
                  have hpres : ∀ p, reservedTag (gridCell st.grid p).state = true →
                      gridCell (paintAStar (clearPath st.grid) (getOptimalPath st.astar)) p =
                        gridCell st.grid p := by
                    intro p hr
                    have hclear : gridCell (clearPath st.grid) p = gridCell st.grid p := by
                      rw [clearPath_cell]
                      rw [cellState_eta_noPath (factory_reserved_noPath (hEX p) hr)]
                    by_cases hpg : ((gridCell st.grid p).state.isGoal ||
                        (gridCell st.grid p).state.isStart) = true
                    · have hguard : p ∈ getOptimalPath st.astar →
                          ((gridCell (clearPath st.grid) p).state.isGoal ||
                            (gridCell (clearPath st.grid) p).state.isStart) = true := by
                        intro _
                        rw [hclear]
                        exact hpg
                      rw [paintAStar_eq_fold, paintFold_guarded _ _ _ _ p hguard, hclear]
                    · have hnotin : p ∉ getOptimalPath st.astar := by
                        intro hmem
                        obtain ⟨kk, hk⟩ := getOptimalPath_mem st.astar p hmem
                        have hfree := hV2 hstrat _ (OMap.find?_some_mem _ _ _ hk)
                        exact absurd (hr.symm.trans hfree) (by decide)
                      rw [paintAStar_eq_fold, paintFold_untouched _ _ _ _ p hnotin, hclear]
                  refine ⟨⟨?_, ?_, ?_, ?_, ?_⟩, ?_⟩
                  · intro p
                    show (gridCell (expandState cfg st cur queue').grid p).state ∈ factoryStates
                    rw [hgrid]
                    rcases paintFold_cases (fun c => c.state.isGoal || c.state.isStart) pathState
                        (getOptimalPath st.astar) (clearPath st.grid) p with h | h
                    · rw [paintAStar_eq_fold, h, clearPath_cell]
                      exact factory_clear (hEX p)
                    · rw [paintAStar_eq_fold, h]
                      show pathState ∈ factoryStates
                      decide
                  · intro e he
                    rw [hpm] at he
                    show e.2 = cfg.start ∨
                      reservedTag (gridCell (expandState cfg st cur queue').grid e.2).state = false
                    rw [hgrid]
                    rcases relaxAll_pm_mem _ _ _ _ _ _ _ _ _ he with hold | ⟨hecur, _⟩
                    · rcases hV1 e hold with hstart | hfree
                      · exact Or.inl hstart
                      · exact Or.inr (hmono _ hfree)
                    · exact Or.inr (hecur ▸ hmono _ hcurfree)
                  · intro e he
                    rw [hpm] at he
                    show e.1 ≠ (gridCell (expandState cfg st cur queue').grid cfg.start).id
                    rw [hgrid, hidp]
                    rcases relaxAll_pm_mem _ _ _ _ _ _ _ _ _ he with hold | ⟨_, hnvis⟩
                    · exact hV0 e hold
                    · intro heq
                      have hmem : (gridCell st.grid cfg.start).id ∈
                          st.visited ++ [(gridCell st.grid cur).id] :=
                        List.mem_append_left _ hVIS
                      have htrue := (visitedHas_true_iff _ _).mpr (heq ▸ hmem)
                      exact absurd (htrue.symm.trans hnvis) (by decide)
                  · show (gridCell (expandState cfg st cur queue').grid cfg.start).id ∈
                      (expandState cfg st cur queue').visited
                    rw [hgrid, hidp, hvis]
                    exact List.mem_append_left _ hVIS
                  · intro hs e he
                    rw [hast] at he
                    show reservedTag (gridCell (expandState cfg st cur queue').grid e.2).state = false
                    rw [hgrid]
                    rcases relaxAll_ast_mem _ _ _ _ _ _ _ _ _ he with hold | ⟨hecur, _⟩
                    · exact hmono _ (hV2 hs e hold)
                    · exact hecur ▸ hmono _ hcurfree
                  · intro p hr
                    show gridCell (expandState cfg st cur queue').grid p = gridCell st.grid p
                    rw [hgrid]
                    exact hpres p hr
                · have hgrid : (expandState cfg st cur queue').grid =
                      paintQueued (st.grid.set cur ⟨(gridCell st.grid cur).id, visitedState⟩)
                        (relaxAll cfg.strat
                          (st.grid.set cur ⟨(gridCell st.grid cur).id, visitedState⟩) cur
                          (getNeighbours cur st.grid) queue'
                          (st.visited ++ [(gridCell st.grid cur).id]) st.parentMap st.astar).1 := by
                    simp [expandState, hstrat]
                  have hvis : (expandState cfg st cur queue').visited =
                      st.visited ++ [(gridCell st.grid cur).id] := rfl
                  have hpm : (expandState cfg st cur queue').parentMap =
                      (relaxAll cfg.strat
                        (st.grid.set cur ⟨(gridCell st.grid cur).id, visitedState⟩) cur
                        (getNeighbours cur st.grid) queue'
                        (st.visited ++ [(gridCell st.grid cur).id]) st.parentMap st.astar).2.1 := by
                    simp [expandState, hstrat]
                  have hast : (expandState cfg st cur queue').astar =
                      (relaxAll cfg.strat
                        (st.grid.set cur ⟨(gridCell st.grid cur).id, visitedState⟩) cur
                        (getNeighbours cur st.grid) queue'
                        (st.visited ++ [(gridCell st.grid cur).id]) st.parentMap st.astar).2.2 := by
                    simp [expandState, hstrat]
                  have hsetmono : ∀ q, reservedTag (gridCell st.grid q).state = false →
                      reservedTag (gridCell (st.grid.set cur
                        ⟨(gridCell st.grid cur).id, visitedState⟩) q).state = false := by
                    intro q hfq
                    rw [gridCell_set]
                    by_cases hqc : q = cur
                    · rw [if_pos hqc]
                      rfl
                    · rw [if_neg hqc]
                      exact hfq
                  have hmono : ∀ q, reservedTag (gridCell st.grid q).state = false →
                      reservedTag (gridCell (expandState cfg st cur queue').grid q).state = false := by
                    intro q hfq
                    rw [hgrid]
                    rcases paintFold_cases
                        (fun c => c.state.isGoal || c.state.isStart || c.state.isVisited ||
                          c.state.isWall) queuedState _
                        (st.grid.set cur ⟨(gridCell st.grid cur).id, visitedState⟩) q with h | h
                    · rw [paintQueued_eq_fold, h]
                      exact hsetmono q hfq
                    · rw [paintQueued_eq_fold, h]
                      rfl
                  have hidp : ∀ q, (gridCell (expandState cfg st cur queue').grid q).id =
                      (gridCell st.grid q).id := by
                    intro q
                    rw [hgrid, paintQueued_eq_fold, paintFold_id, gridCell_set]
                    by_cases hqc : q = cur
                    · rw [if_pos hqc, hqc]
                    · rw [if_neg hqc]
                  have hpres : ∀ p, reservedTag (gridCell st.grid p).state = true →
                      gridCell (expandState cfg st cur queue').grid p = gridCell st.grid p := by
                    intro p hr
                    have hpc : ¬ p = cur := by
                      intro h
                      exact absurd ((h ▸ hr).symm.trans hcurfree) (by decide)
                    have hset : gridCell (st.grid.set cur
                        ⟨(gridCell st.grid cur).id, visitedState⟩) p = gridCell st.grid p := by
                      rw [gridCell_set, if_neg hpc]
                    rw [hgrid, paintQueued_eq_fold]
                    rw [paintFold_guarded _ _ _ _ p (fun _ => by
                      rw [hset]
                      exact reserved_implies_queued_guard hr), hset]
                  refine ⟨⟨?_, ?_, ?_, ?_, ?_⟩, ?_⟩
                  · intro p
                    show (gridCell (expandState cfg st cur queue').grid p).state ∈ factoryStates
                    rw [hgrid]
                    rcases paintFold_cases
                        (fun c => c.state.isGoal || c.state.isStart || c.state.isVisited ||
                          c.state.isWall) queuedState _
                        (st.grid.set cur ⟨(gridCell st.grid cur).id, visitedState⟩) p with h | h
                    · rw [paintQueued_eq_fold, h, gridCell_set]
                      by_cases hqc : p = cur
                      · rw [if_pos hqc]
                        show visitedState ∈ factoryStates
                        decide
                      · rw [if_neg hqc]
                        exact hEX p
                    · rw [paintQueued_eq_fold, h]
                      show queuedState ∈ factoryStates
                      decide
                  · intro e he
                    rw [hpm] at he
                    show e.2 = cfg.start ∨
                      reservedTag (gridCell (expandState cfg st cur queue').grid e.2).state = false
                    rcases relaxAll_pm_mem _ _ _ _ _ _ _ _ _ he with hold | ⟨hecur, _⟩
                    · rcases hV1 e hold with hstart | hfree
                      · exact Or.inl hstart
                      · exact Or.inr (hmono _ hfree)
                    · exact Or.inr (hecur ▸ hmono _ hcurfree)
                  · intro e he
                    rw [hpm] at he
                    show e.1 ≠ (gridCell (expandState cfg st cur queue').grid cfg.start).id
                    rw [hidp]
                    rcases relaxAll_pm_mem _ _ _ _ _ _ _ _ _ he with hold | ⟨_, hnvis⟩
                    · exact hV0 e hold
                    · intro heq
                      have hmem : (gridCell st.grid cfg.start).id ∈
                          st.visited ++ [(gridCell st.grid cur).id] :=
                        List.mem_append_left _ hVIS
                      have htrue := (visitedHas_true_iff _ _).mpr (heq ▸ hmem)
                      exact absurd (htrue.symm.trans hnvis) (by decide)
                  · show (gridCell (expandState cfg st cur queue').grid cfg.start).id ∈
                      (expandState cfg st cur queue').visited
                    rw [hidp, hvis]
                    exact List.mem_append_left _ hVIS
                  · intro hs
                    exact absurd hs hstrat
                  · exact hpres

theorem gridCell_state_factory (g0 : Grid)
    (hex : ∀ e ∈ g0.entries, e.2.state ∈ factoryStates) (p : Pos) :
    (gridCell g0 p).state ∈ factoryStates := by
  cases hf : g0.find? p with
  | none =>
      show ((g0.find? p).getD ⟨0, defaultState⟩).state ∈ factoryStates
      rw [hf]
      show defaultState ∈ factoryStates
      decide
  | some c =>
      have := hex (p, c) (OMap.find?_some_mem _ _ _ hf)
      show ((g0.find? p).getD ⟨0, defaultState⟩).state ∈ factoryStates
      rw [hf]
      exact this

theorem foldl_set_const_values (key : Pos → Nat) (c : Pos) :
    ∀ (l : List Pos) (m : OMap Nat Pos),
      (∀ e ∈ m.entries, e.2 = c) →
      ∀ e ∈ (l.foldl (fun m n => m.set (key n) c) m).entries, e.2 = c := by
  intro l
  induction l with
  | nil => intro m hm e he; exact hm e he
  | cons n rest ih =>
      intro m hm e he
      refine ih (m.set (key n) c) ?_ e he
      intro e' he'
      rcases OMap.mem_entries_set _ _ _ _ he' with h | h
      · exact hm e' h
      · rw [h]

theorem foldl_set_const_keys (key : Pos → Nat) (c : Pos) :
    ∀ (l : List Pos) (m : OMap Nat Pos) (e : Nat × Pos),
      e ∈ (l.foldl (fun m n => m.set (key n) c) m).entries →
      e.1 ∈ l.map key ∨ e ∈ m.entries := by
  intro l
  induction l with
  | nil => intro m e he; exact Or.inr he
  | cons n rest ih =>
      intro m e he
      rcases ih (m.set (key n) c) e he with h | h
      · exact Or.inl (List.mem_cons_of_mem _ h)
      · rcases OMap.mem_entries_set _ _ _ _ h with h' | h'
        · exact Or.inr h'
        · rw [h']
          exact Or.inl (List.mem_cons_self _ _)

theorem engineInit_reservedOK (g0 : Grid) (cfg : SearchCfg) (ast0 : AStarState)
    (hex : ∀ e ∈ g0.entries, e.2.state ∈ factoryStates)
    (hinj : ∀ e ∈ g0.entries, ∀ e' ∈ g0.entries, e.2.id = e'.2.id → e.1 = e'.1)
    (hsk : g0.hasKey cfg.start = true) :
    reservedOK cfg (engineInit g0 cfg ast0) := by
  refine ⟨gridCell_state_factory g0 hex, ?_, ?_, ?_, ?_⟩
  · intro e he
    exact Or.inl (foldl_set_const_values (fun n => (gridCell g0 n).id) cfg.start _ OMap.empty
      (by intro e' he'; simp [OMap.empty] at he') e he)
  · intro e he
    rcases foldl_set_const_keys (fun n => (gridCell g0 n).id) cfg.start _ OMap.empty e he with h | h
    · rcases List.mem_map.mp h with ⟨n, hn, hkey⟩
      intro heq
      obtain ⟨cs, hcs⟩ := Option.isSome_iff_exists.mp hsk
      have hnk : g0.hasKey n = true := by
        have := (List.mem_filter.mp hn).2
        simpa using this
      obtain ⟨cn, hcn⟩ := Option.isSome_iff_exists.mp hnk
      have hcells : (gridCell g0 n).id = (gridCell g0 cfg.start).id := by
        rw [hkey, heq]
        rfl
      have hgn : gridCell g0 n = cn := by
        show ((g0.find? n).getD _) = cn
        rw [hcn]
        rfl
      have hgs : gridCell g0 cfg.start = cs := by
        show ((g0.find? cfg.start).getD _) = cs
        rw [hcs]
        rfl
      have hns : n = cfg.start :=
        hinj (n, cn) (OMap.find?_some_mem _ _ _ hcn) (cfg.start, cs)
          (OMap.find?_some_mem _ _ _ hcs) (by rw [← hgn, ← hgs, hcells])
      exact getNeighbours_not_self cfg.start g0 (hns ▸ hn)
    · simp [OMap.empty] at h
  · show (gridCell g0 cfg.start).id ∈ [(gridCell g0 cfg.start).id]
    exact List.mem_singleton.mpr rfl
  · intro hstrat e he
    have : (engineInit g0 cfg ast0).astar = aStarInit cfg.start := by
      simp [engineInit, hstrat]
    rw [this] at he
    simp [aStarInit, OMap.empty] at he

/-- Generator-level invariant: reserved cells still as in the initial grid,
and (once the body has started) the engine run invariant. -/
def reservedGen (cfg : SearchCfg) (g0 : Grid) (ast0 : AStarState) (gen : Gen) : Prop :=
  (∀ p, reservedTag (gridCell g0 p).state = true →
    gridCell (genState g0 ast0 gen).grid p = gridCell g0 p) ∧
  (gen = .fresh ∨ reservedOK cfg (genState g0 ast0 gen))

theorem genNext_state_fresh (cfg : SearchCfg) (g0 : Grid) (ast0 : AStarState) :
    genState g0 ast0 (genNext cfg g0 ast0 .fresh).2 =
      (resumeRun cfg (engineInit g0 cfg ast0)).2 := by
  show genState g0 ast0 (match resumeRun cfg (engineInit g0 cfg ast0) with
    | (.cont, st') => ((false : Bool), Gen.running st')
    | (.foundRes _, st') => ((true : Bool), Gen.finished st')
    | (.yieldTrue, st') => ((false : Bool), Gen.yieldedTrue st')).2 = _
  cases hres : resumeRun cfg (engineInit g0 cfg ast0) with
  | mk r st' => cases r <;> rfl

theorem genNext_state_running (cfg : SearchCfg) (g0 : Grid) (ast0 : AStarState)
    (st : EngineState) :
    genState g0 ast0 (genNext cfg g0 ast0 (.running st)).2 = (resumeRun cfg st).2 := by
  show genState g0 ast0 (match resumeRun cfg st with
    | (.cont, st') => ((false : Bool), Gen.running st')
    | (.foundRes _, st') => ((true : Bool), Gen.finished st')
    | (.yieldTrue, st') => ((false : Bool), Gen.yieldedTrue st')).2 = _
  cases hres : resumeRun cfg st with
  | mk r st' => cases r <;> rfl

theorem genNext_reservedGen (cfg : SearchCfg) (g0 : Grid) (ast0 : AStarState)
    (hex : ∀ e ∈ g0.entries, e.2.state ∈ factoryStates)
    (hinj : ∀ e ∈ g0.entries, ∀ e' ∈ g0.entries, e.2.id = e'.2.id → e.1 = e'.1)
    (hsk : g0.hasKey cfg.start = true) (gen : Gen)
    (h : reservedGen cfg g0 ast0 gen) :
    reservedGen cfg g0 ast0 (genNext cfg g0 ast0 gen).2 := by
  obtain ⟨hstable, hok⟩ := h
  cases gen with
  | fresh =>
      have hinit : reservedOK cfg (engineInit g0 cfg ast0) :=
        engineInit_reservedOK g0 cfg ast0 hex hinj hsk
      obtain ⟨hok', hpres⟩ := resumeRun_reserved cfg (engineInit g0 cfg ast0).queue.length
        (engineInit g0 cfg ast0) (le_refl _) hinit
      have hstate := genNext_state_fresh cfg g0 ast0
      constructor
      · intro p hp
        rw [hstate]
        exact hpres p hp
      · exact Or.inr (hstate ▸ hok')
  | running st =>
      have hokst : reservedOK cfg st := by
        rcases hok with h | h
        · cases h
        · exact h
      obtain ⟨hok', hpres⟩ := resumeRun_reserved cfg st.queue.length st (le_refl _) hokst
      have hstable' : ∀ p, reservedTag (gridCell g0 p).state = true →
          gridCell st.grid p = gridCell g0 p := hstable
      have hstate := genNext_state_running cfg g0 ast0 st
      constructor
      · intro p hp
        rw [hstate]
        have hin : reservedTag (gridCell st.grid p).state = true := by
          rw [hstable' p hp]
          exact hp
        rw [hpres p hin]
        exact hstable' p hp
      · exact Or.inr (hstate ▸ hok')
  | yieldedTrue st =>
      have hokst : reservedOK cfg st := by
        rcases hok with h | h
        · cases h
        · exact h
      exact ⟨hstable, Or.inr hokst⟩
  | finished st =>
      have hokst : reservedOK cfg st := by
        rcases hok with h | h
        · cases h
        · exact h
      exact ⟨hstable, Or.inr hokst⟩

theorem genNextN_reservedGen (cfg : SearchCfg) (g0 : Grid) (ast0 : AStarState)
    (hex : ∀ e ∈ g0.entries, e.2.state ∈ factoryStates)
    (hinj : ∀ e ∈ g0.entries, ∀ e' ∈ g0.entries, e.2.id = e'.2.id → e.1 = e'.1)
    (hsk : g0.hasKey cfg.start = true) :
    ∀ (n : Nat) (gen : Gen), reservedGen cfg g0 ast0 gen →
      reservedGen cfg g0 ast0 (genNextN cfg g0 ast0 n gen) := by
  intro n
  induction n with
  | zero => intro gen h; exact h
  | succ n ih =>
      intro gen h
      exact ih _ (genNext_reservedGen cfg g0 ast0 hex hinj hsk gen h)

/-- C2: throughout every run (any strategy, any app-built grid: factory cell
states, injective ids, start placed), no engine step changes a cell tagged
Wall, Start, or Goal — after any number of generator steps each such cell
still holds its original cell value. -/
theorem C2_reserved_cells (g0 : Grid) (cfg : SearchCfg) (ast0 : AStarState)
    (hex : ∀ e ∈ g0.entries, e.2.state ∈ factoryStates)
    (hinj : ∀ e ∈ g0.entries, ∀ e' ∈ g0.entries, e.2.id = e'.2.id → e.1 = e'.1)
    (hsk : g0.hasKey cfg.start = true) (n : Nat) (p : Pos)
    (hres : reservedTag (gridCell g0 p).state = true) :
    gridCell (genState g0 ast0 (genNextN cfg g0 ast0 n .fresh)).grid p = gridCell g0 p := by
  have h0 : reservedGen cfg g0 ast0 .fresh := ⟨fun p _ => rfl, Or.inl rfl⟩
  exact (genNextN_reservedGen cfg g0 ast0 hex hinj hsk n .fresh h0).1 p hres

/-- Grid for the C2 witness: 2 × 2 with a wall painted at (0,1). -/
def walledGrid : Grid :=
  (setupGrid 2 2 ((0 : Int), (0 : Int)) ((1 : Int), (1 : Int))).set ((0 : Int), (1 : Int))
    ⟨2, wallState⟩

/-- Witness for C2: three steps of a BFS run on a grid with a wall leave the
wall, start, and goal cells untouched. -/
theorem C2_reserved_cells_witness :
    gridCell (genState walledGrid emptyAst
        (genNextN bfsRunCfg walledGrid emptyAst 3 .fresh)).grid ((0 : Int), (1 : Int)) =
      gridCell walledGrid ((0 : Int), (1 : Int)) ∧
    gridCell (genState walledGrid emptyAst
        (genNextN bfsRunCfg walledGrid emptyAst 3 .fresh)).grid ((0 : Int), (0 : Int)) =
      gridCell walledGrid ((0 : Int), (0 : Int)) ∧
    gridCell (genState walledGrid emptyAst
        (genNextN bfsRunCfg walledGrid emptyAst 3 .fresh)).grid ((1 : Int), (1 : Int)) =
      gridCell walledGrid ((1 : Int), (1 : Int)) :=
  ⟨C2_reserved_cells walledGrid bfsRunCfg emptyAst (by decide) (by decide) (by decide) 3
      ((0 : Int), (1 : Int)) (by decide),
   C2_reserved_cells walledGrid bfsRunCfg emptyAst (by decide) (by decide) (by decide) 3
      ((0 : Int), (0 : Int)) (by decide),
   C2_reserved_cells walledGrid bfsRunCfg emptyAst (by decide) (by decide) (by decide) 3
      ((1 : Int), (1 : Int)) (by decide)⟩

/-! ## C10: acyclicity of engine-built A* predecessor maps -/

theorem foundState_grid_id (st : EngineState) (cur : Pos) (queue' : List Pos) (q : Pos) :
    (gridCell (foundState st cur queue').grid q).id = (gridCell st.grid q).id := by
  show (gridCell (paintPath st.grid _) q).id = _
  rw [paintPath_eq_fold, paintFold_id]

theorem expandState_grid_id (cfg : SearchCfg) (st : EngineState) (cur : Pos)
    (queue' : List Pos) (q : Pos) :
    (gridCell (expandState cfg st cur queue').grid q).id = (gridCell st.grid q).id := by
  by_cases hstrat : cfg.strat = .astar
  · have hgrid : (expandState cfg st cur queue').grid =
        paintAStar (clearPath st.grid) (getOptimalPath st.astar) := by
      simp [expandState, hstrat]
    rw [hgrid, paintAStar_eq_fold, paintFold_id, clearPath_cell]
  · have hgrid : (expandState cfg st cur queue').grid =
        paintQueued (st.grid.set cur ⟨(gridCell st.grid cur).id, visitedState⟩)
          (relaxAll cfg.strat
            (st.grid.set cur ⟨(gridCell st.grid cur).id, visitedState⟩) cur
            (getNeighbours cur st.grid) queue'
            (st.visited ++ [(gridCell st.grid cur).id]) st.parentMap st.astar).1 := by
      simp [expandState, hstrat]
    rw [hgrid, paintQueued_eq_fold, paintFold_id, gridCell_set]
    by_cases hqc : q = cur
    · rw [if_pos hqc, hqc]
    · rw [if_neg hqc]

/-- Expansion-order invariant of the strategy-local A* predecessor map:
every recorded parent is an already-expanded cell, and whenever the child is
also expanded it was expanded strictly after its parent. -/
def walkInv (st : EngineState) : Prop :=
  ∀ e ∈ st.astar.parentMap.entries,
    (gridCell st.grid e.2).id ∈ st.visited ∧
    ((gridCell st.grid e.1).id ∈ st.visited →
      List.indexOf (gridCell st.grid e.2).id st.visited <
        List.indexOf (gridCell st.grid e.1).id st.visited)

theorem walkInv_append (v : List Nat) (x : Nat) (hx : x ∉ v) (i j : Nat) (hj : j ∈ v)
    (hij : i ∈ v → List.indexOf j v < List.indexOf i v) :
    i ∈ v ++ [x] → List.indexOf j (v ++ [x]) < List.indexOf i (v ++ [x]) := by
  intro hi
  rw [List.indexOf_append_of_mem hj]
  rcases List.mem_append.mp hi with h | h
  · rw [List.indexOf_append_of_mem h]
    exact hij h
  · have hix : i = x := List.mem_singleton.mp h
    have hnotv : i ∉ v := hix ▸ hx
    rw [List.indexOf_append_of_not_mem hnotv]
    have hlt : List.indexOf j v < v.length := List.indexOf_lt_length.mpr hj
    omega

theorem resumeRun_walkInv (cfg : SearchCfg) :
    ∀ (n : Nat) (st : EngineState), st.queue.length ≤ n → walkInv st →
      walkInv (resumeRun cfg st).2 := by
  intro n
  induction n with
  | zero =>
      intro st hlen hinv
      have hq : st.queue = [] := List.length_eq_zero.mp (Nat.le_zero.mp hlen)
      rw [resumeRun_empty cfg st hq]
      exact hinv
  | succ n ih =>
      intro st hlen hinv
      cases hq : st.queue with
      | nil =>
          rw [resumeRun_empty cfg st hq]
          exact hinv
      | cons a l =>
          obtain ⟨cur, queue', hpop⟩ :=
            getNextNode_total cfg.strat st.astar cfg.goal st.queue (by rw [hq]; simp)
          have hlen' : queue'.length ≤ n := by
            have h1 := getNextNode_length _ _ _ _ _ _ hpop
            omega
          by_cases hskip1 :
              ((gridCell st.grid cur).state.isWall || (gridCell st.grid cur).state.isStart) = true
          · rw [resumeRun_skip cfg st cur queue' hpop (Or.inl hskip1)]
            exact ih { st with queue := queue' } hlen' hinv
          · have hnw : ((gridCell st.grid cur).state.isWall ||
                (gridCell st.grid cur).state.isStart) = false := by
              simpa using hskip1
            by_cases hskip2 : visitedHas st.visited (gridCell st.grid cur).id = true
            · rw [resumeRun_skip cfg st cur queue' hpop (Or.inr ⟨hnw, hskip2⟩)]
              exact ih { st with queue := queue' } hlen' hinv
            · have hnv : visitedHas st.visited (gridCell st.grid cur).id = false := by
                simpa using hskip2
              have hcurnot : (gridCell st.grid cur).id ∉ st.visited := by
                intro h
                exact absurd (((visitedHas_true_iff _ _).mpr h).symm.trans hnv) (by decide)
              by_cases hgoal : (gridCell st.grid cur).state.isGoal = true
              · rw [resumeRun_found cfg st cur queue' hpop hnw hnv hgoal]
                intro e he
                obtain ⟨h1, h2⟩ := hinv e he
                constructor
                · rw [foundState_grid_id]
                  exact List.mem_append_left _ h1
                · rw [foundState_grid_id, foundState_grid_id]
                  show (gridCell st.grid e.1).id ∈ st.visited ++ [(gridCell st.grid cur).id] → _
                  exact walkInv_append st.visited (gridCell st.grid cur).id hcurnot _ _ h1 h2
              · have hng : (gridCell st.grid cur).state.isGoal = false := by
                  simpa using hgoal
                rw [resumeRun_expand cfg st cur queue' hpop hnw hnv hng]
                intro e he
                have hgX : ∀ (gX : Grid), (∀ q, (gridCell gX q).id = (gridCell st.grid q).id) →
                    e ∈ (relaxAll cfg.strat gX cur (getNeighbours cur st.grid) queue'
                      (st.visited ++ [(gridCell st.grid cur).id]) st.parentMap st.astar).2.2.parentMap.entries →
                    (gridCell (expandState cfg st cur queue').grid e.2).id ∈
                      (expandState cfg st cur queue').visited ∧
                    ((gridCell (expandState cfg st cur queue').grid e.1).id ∈
                        (expandState cfg st cur queue').visited →
                      List.indexOf (gridCell (expandState cfg st cur queue').grid e.2).id
                          (expandState cfg st cur queue').visited <
                        List.indexOf (gridCell (expandState cfg st cur queue').grid e.1).id
                          (expandState cfg st cur queue').visited) := by
                  intro gX hidX heX
                  have hvis : (expandState cfg st cur queue').visited =
                      st.visited ++ [(gridCell st.grid cur).id] := rfl
                  rcases relaxAll_ast_mem _ _ _ _ _ _ _ _ _ heX with hold | ⟨hecur, hnvis⟩
                  · obtain ⟨h1, h2⟩ := hinv e hold
                    constructor
                    · rw [expandState_grid_id, hvis]
                      exact List.mem_append_left _ h1
                    · rw [expandState_grid_id, expandState_grid_id, hvis]
                      exact walkInv_append st.visited (gridCell st.grid cur).id hcurnot _ _ h1 h2
                  · constructor
                    · rw [expandState_grid_id, hvis, hecur]
                      exact List.mem_append_right _ (List.mem_singleton.mpr rfl)
                    · intro hmem
                      rw [expandState_grid_id, hvis] at hmem
                      rw [hidX] at hnvis
                      have := (visitedHas_true_iff
                        (st.visited ++ [(gridCell st.grid cur).id]) _).mpr hmem
                      exact absurd (this.symm.trans hnvis) (by decide)
                by_cases hstrat : cfg.strat = .astar
                · have hast : (expandState cfg st cur queue').astar =
                      (relaxAll cfg.strat (paintAStar (clearPath st.grid) (getOptimalPath st.astar))
                        cur (getNeighbours cur st.grid) queue'
                        (st.visited ++ [(gridCell st.grid cur).id]) st.parentMap st.astar).2.2 := by
                    simp [expandState, hstrat]
                  rw [hast] at he
                  refine hgX (paintAStar (clearPath st.grid) (getOptimalPath st.astar)) ?_ he
                  intro q
                  rw [paintAStar_eq_fold, paintFold_id, clearPath_cell]
                · have hast : (expandState cfg st cur queue').astar =
                      (relaxAll cfg.strat
                        (st.grid.set cur ⟨(gridCell st.grid cur).id, visitedState⟩) cur
                        (getNeighbours cur st.grid) queue'
                        (st.visited ++ [(gridCell st.grid cur).id]) st.parentMap st.astar).2.2 := by
                    simp [expandState, hstrat]
                  rw [hast] at he
                  refine hgX (st.grid.set cur ⟨(gridCell st.grid cur).id, visitedState⟩) ?_ he
                  intro q
                  rw [gridCell_set]
                  by_cases hqc : q = cur
                  · rw [if_pos hqc, hqc]
                  · rw [if_neg hqc]

theorem genNext_walkInv (cfg : SearchCfg) (g0 : Grid) (ast0 : AStarState) (gen : Gen)
    (hgen : gen ≠ .fresh) (h : walkInv (genState g0 ast0 gen)) :
    walkInv (genState g0 ast0 (genNext cfg g0 ast0 gen).2) := by
  cases gen with
  | fresh => exact absurd rfl hgen
  | running st =>
      have hstate := genNext_state_running cfg g0 ast0 st
      rw [hstate]
      exact resumeRun_walkInv cfg st.queue.length st (le_refl _) h
  | yieldedTrue st => exact h
  | finished st => exact h

theorem genNext_ne_fresh (cfg : SearchCfg) (g0 : Grid) (ast0 : AStarState) (gen : Gen) :
    (genNext cfg g0 ast0 gen).2 ≠ .fresh := by
  cases gen with
  | fresh =>
      show (match resumeRun cfg (engineInit g0 cfg ast0) with
        | (.cont, st') => ((false : Bool), Gen.running st')
        | (.foundRes _, st') => ((true : Bool), Gen.finished st')
        | (.yieldTrue, st') => ((false : Bool), Gen.yieldedTrue st')).2 ≠ .fresh
      cases hres : resumeRun cfg (engineInit g0 cfg ast0) with
      | mk r st' => cases r <;> simp
  | running st =>
      show (match resumeRun cfg st with
        | (.cont, st') => ((false : Bool), Gen.running st')
        | (.foundRes _, st') => ((true : Bool), Gen.finished st')
        | (.yieldTrue, st') => ((false : Bool), Gen.yieldedTrue st')).2 ≠ .fresh
      cases hres : resumeRun cfg st with
      | mk r st' => cases r <;> simp
  | yieldedTrue st => simp [genNext]
  | finished st => simp [genNext]

theorem genNextN_walkInv (cfg : SearchCfg) (g0 : Grid) (ast0 : AStarState) :
    ∀ (n : Nat) (gen : Gen), gen ≠ .fresh → walkInv (genState g0 ast0 gen) →
      walkInv (genState g0 ast0 (genNextN cfg g0 ast0 n gen)) := by
  intro n
  induction n with
  | zero => intro gen _ h; exact h
  | succ n ih =>
      intro gen hgen h
      exact ih _ (genNext_ne_fresh cfg g0 ast0 gen)
        (genNext_walkInv cfg g0 ast0 gen hgen h)

theorem walkAux_stable_aux (m : OMap Pos Pos) (μ : Pos → Nat)
    (hdec : ∀ k v, m.find? k = some v → ∀ w, m.find? v = some w → μ w < μ v) :
    ∀ (B : Nat) (k : Pos), (∀ v, m.find? k = some v → μ v < B) →
      ∀ f, B + 1 ≤ f → walkAux m f k = walkAux m (B + 1) k := by
  intro B
  induction B with
  | zero =>
      intro k hk f hf
      cases hfind : m.find? k with
      | none =>
          obtain ⟨f', rfl⟩ : ∃ f', f = f' + 1 := ⟨f - 1, by omega⟩
          show walkAux m (f' + 1) k = walkAux m (0 + 1) k
          rw [walkAux, walkAux, hfind]
      | some v => exact absurd (hk v hfind) (by omega)
  | succ B ih =>
      intro k hk f hf
      obtain ⟨f', rfl⟩ : ∃ f', f = f' + 1 := ⟨f - 1, by omega⟩
      show walkAux m (f' + 1) k = walkAux m (B + 1 + 1) k
      rw [walkAux, walkAux]
      cases hfind : m.find? k with
      | none => rfl
      | some v =>
          have hv : ∀ w, m.find? v = some w → μ w < B := by
            intro w hw
            have h1 := hdec k v hfind w hw
            have h2 := hk v hfind
            omega
          show v :: walkAux m f' v = v :: walkAux m (B + 1) v
          rw [ih v hv f' (by omega)]

/-- Amended C10: for every state reachable through the engine's A* search
(where relax is invoked only from a newly expanded cell onto unvisited
neighbours), the recorded parent links are acyclic — the backward walk from
any key stabilizes once the fuel reaches the number of expanded cells plus
one, i.e. it reaches a key with no entry after finitely many steps. -/
theorem C10_engine_walk_terminates (grid0 : Grid) (cfg : SearchCfg) (ast0 : AStarState)
    (hstrat : cfg.strat = .astar) (n : Nat) (k : Pos) (f : Nat)
    (hf : (genState grid0 ast0 (genNextN cfg grid0 ast0 n
        (.running (engineInit grid0 cfg ast0)))).visited.length + 1 ≤ f) :
    walkAux (genState grid0 ast0 (genNextN cfg grid0 ast0 n
        (.running (engineInit grid0 cfg ast0)))).astar.parentMap f k =
      walkAux (genState grid0 ast0 (genNextN cfg grid0 ast0 n
        (.running (engineInit grid0 cfg ast0)))).astar.parentMap
        ((genState grid0 ast0 (genNextN cfg grid0 ast0 n
          (.running (engineInit grid0 cfg ast0)))).visited.length + 1) k := by
  have hinit : walkInv (genState grid0 ast0 (.running (engineInit grid0 cfg ast0))) := by
    intro e he
    have : (engineInit grid0 cfg ast0).astar = aStarInit cfg.start := by
      simp [engineInit, hstrat]
    rw [show (genState grid0 ast0 (.running (engineInit grid0 cfg ast0))).astar =
      (engineInit grid0 cfg ast0).astar from rfl, this] at he
    simp [aStarInit, OMap.empty] at he
  have hinv := genNextN_walkInv cfg grid0 ast0 n (.running (engineInit grid0 cfg ast0))
    (by intro h; cases h) hinit
  set st := genState grid0 ast0 (genNextN cfg grid0 ast0 n
    (.running (engineInit grid0 cfg ast0))) with hst
  have hdec : ∀ k' v, st.astar.parentMap.find? k' = some v →
      ∀ w, st.astar.parentMap.find? v = some w →
        List.indexOf (gridCell st.grid w).id st.visited <
          List.indexOf (gridCell st.grid v).id st.visited := by
    intro k' v hkv w hvw
    obtain ⟨h1, -⟩ := hinv _ (OMap.find?_some_mem _ _ _ hkv)
    obtain ⟨-, h2⟩ := hinv _ (OMap.find?_some_mem _ _ _ hvw)
    exact h2 h1
  have hval : ∀ v, st.astar.parentMap.find? k = some v →
      List.indexOf (gridCell st.grid v).id st.visited < st.visited.length := by
    intro v hv
    obtain ⟨h1, -⟩ := hinv _ (OMap.find?_some_mem _ _ _ hv)
    exact List.indexOf_lt_length.mpr h1
  exact walkAux_stable_aux st.astar.parentMap
    (fun p => List.indexOf (gridCell st.grid p).id st.visited) hdec st.visited.length k hval f hf

/-- Witness for the amended C10 theorem on the concrete 3 × 2 A* run after
two steps. -/
theorem C10_engine_walk_terminates_witness :
    walkAux (genState astRunGrid emptyAst (genNextN astRunCfg astRunGrid emptyAst 2
        (.running (engineInit astRunGrid astRunCfg emptyAst)))).astar.parentMap 10
        ((0 : Int), (1 : Int)) =
      walkAux (genState astRunGrid emptyAst (genNextN astRunCfg astRunGrid emptyAst 2
        (.running (engineInit astRunGrid astRunCfg emptyAst)))).astar.parentMap
        ((genState astRunGrid emptyAst (genNextN astRunCfg astRunGrid emptyAst 2
          (.running (engineInit astRunGrid astRunCfg emptyAst)))).visited.length + 1)
        ((0 : Int), (1 : Int)) :=
  C10_engine_walk_terminates astRunGrid astRunCfg emptyAst rfl 2 ((0 : Int), (1 : Int)) 10
    (by decide)
/-! ## C1: BFS on a wall-free grid — grid characterization -/

theorem posEq (a b : Pos) (h1 : a.1 = b.1) (h2 : a.2 = b.2) : a = b := by
  obtain ⟨a1, a2⟩ := a
  obtain ⟨b1, b2⟩ := b
  cases h1
  cases h2
  rfl

theorem OMap.find?_mk_append {α β : Type} [DecidableEq α] (l1 l2 : List (α × β)) (k : α) :
    (OMap.mk (l1 ++ l2)).find? k = ((OMap.mk l1).find? k).or ((OMap.mk l2).find? k) := by
  show (List.find? (fun e => decide (e.1 = k)) (l1 ++ l2)).map (fun x => x.2) = _
  rw [List.find?_append]
  show _ = ((List.find? (fun e => decide (e.1 = k)) l1).map (fun x => x.2)).or
      ((List.find? (fun e => decide (e.1 = k)) l2).map (fun x => x.2))
  cases List.find? (fun e => decide (e.1 = k)) l1 with
  | none => rfl
  | some e => rfl

theorem rowBlockAux_find? (r cols : Nat) (p : Pos) :
    ∀ n : Nat, (OMap.mk ((List.range n).map (fun c => ((Int.ofNat r, Int.ofNat c),
        (⟨idOf cols (Int.ofNat r, Int.ofNat c), defaultState⟩ : Cell))))).find? p =
      if p.1 = Int.ofNat r ∧ 0 ≤ p.2 ∧ p.2 < Int.ofNat n
      then some ⟨idOf cols p, defaultState⟩ else none := by
  intro n
  induction n with
  | zero =>
      have hc : ¬ (p.1 = Int.ofNat r ∧ 0 ≤ p.2 ∧ p.2 < Int.ofNat 0) := by
        rintro ⟨h1, h2, h3⟩
        have h3' : p.2 < ((0 : Nat) : Int) := h3
        omega
      rw [if_neg hc]
      rfl
  | succ n ih =>
      rw [List.range_succ, List.map_append, OMap.find?_mk_append, ih]
      by_cases hc : p.1 = Int.ofNat r ∧ 0 ≤ p.2 ∧ p.2 < Int.ofNat n
      · rw [if_pos hc]
        obtain ⟨h1, h2, h3⟩ := hc
        have h3' : p.2 < ((n : Nat) : Int) := h3
        rw [if_pos ⟨h1, h2, show p.2 < (((n + 1 : Nat)) : Int) by omega⟩]
        rfl
      · rw [if_neg hc, Option.none_or]
        simp only [List.map_cons, List.map_nil]
        rw [OMap.find?_mk_cons]
        by_cases hp : ((Int.ofNat r, Int.ofNat n) : Pos) = p
        · rw [if_pos hp]
          subst hp
          rw [if_pos ⟨rfl, show (0:Int) ≤ ((n : Nat) : Int) by omega,
            show ((n : Nat) : Int) < (((n + 1 : Nat)) : Int) by omega⟩]
        · rw [if_neg hp]
          have hcond : ¬ (p.1 = Int.ofNat r ∧ 0 ≤ p.2 ∧ p.2 < Int.ofNat (n + 1)) := by
            rintro ⟨h1, h2, h3⟩
            have h4 : ¬ p.2 < ((n : Nat) : Int) := fun h4 => hc ⟨h1, h2, h4⟩
            have h1' : p.1 = ((r : Nat) : Int) := h1
            have h3' : p.2 < (((n + 1 : Nat)) : Int) := h3
            exact hp (posEq (Int.ofNat r, Int.ofNat n) p
              (show ((r : Nat) : Int) = p.1 by omega)
              (show ((n : Nat) : Int) = p.2 by omega))
          rw [if_neg hcond]
          rfl

theorem initialGrid_find? (rows cols : Nat) (p : Pos) :
    (initialGrid rows cols).find? p =
      if inRange rows cols p then some ⟨idOf cols p, defaultState⟩ else none := by
  induction rows with
  | zero =>
      have hc : ¬ inRange 0 cols p := by
        rintro ⟨h1, h2, h3, h4⟩
        omega
      rw [if_neg hc]
      rfl
  | succ rows ih =>
      show (OMap.mk ((List.range (rows + 1)).flatMap _)).find? p = _
      rw [List.range_succ, List.flatMap_append, OMap.find?_mk_append]
      have hleft : (OMap.mk ((List.range rows).flatMap (fun r =>
          (List.range cols).map (fun c => ((Int.ofNat r, Int.ofNat c),
            (⟨idOf cols (Int.ofNat r, Int.ofNat c), defaultState⟩ : Cell)))))).find? p =
          if inRange rows cols p then some ⟨idOf cols p, defaultState⟩ else none := ih
      rw [hleft]
      have hright : (OMap.mk (([rows] : List Nat).flatMap (fun r =>
          (List.range cols).map (fun c => ((Int.ofNat r, Int.ofNat c),
            (⟨idOf cols (Int.ofNat r, Int.ofNat c), defaultState⟩ : Cell)))))).find? p =
          if p.1 = Int.ofNat rows ∧ 0 ≤ p.2 ∧ p.2 < Int.ofNat cols
          then some ⟨idOf cols p, defaultState⟩ else none := by
        simp only [List.flatMap_cons, List.flatMap_nil, List.append_nil]
        exact rowBlockAux_find? rows cols p cols
      rw [hright]
      by_cases hin : inRange rows cols p
      · obtain ⟨h1, h2, h3, h4⟩ := hin
        rw [if_pos (show inRange rows cols p from ⟨h1, h2, h3, h4⟩),
          if_pos (show inRange (rows + 1) cols p from ⟨h1, by omega, h3, h4⟩)]
        rfl
      · rw [if_neg hin]
        by_cases hlast : p.1 = Int.ofNat rows ∧ 0 ≤ p.2 ∧ p.2 < Int.ofNat cols
        · obtain ⟨h1, h2, h3⟩ := hlast
          have h1' : p.1 = (rows : Int) := h1
          rw [if_pos ⟨h1, h2, h3⟩, if_pos (show inRange (rows + 1) cols p from
            ⟨by omega, by omega, h2, h3⟩)]
          rfl
        · have hcond : ¬ inRange (rows + 1) cols p := by
            rintro ⟨h1, h2, h3, h4⟩
            by_cases hr : p.1 < (rows : Int)
            · exact hin ⟨h1, hr, h3, h4⟩
            · exact hlast ⟨show p.1 = (rows : Int) by omega, h3, h4⟩
          rw [if_neg hlast, if_neg hcond]
          rfl

theorem setupGrid_find? (rows cols : Nat) (S G p : Pos) (hS : inRange rows cols S)
    (hG : inRange rows cols G) :
    (setupGrid rows cols S G).find? p =
      if p = G then some ⟨idOf cols G, goalState⟩
      else if p = S then some ⟨idOf cols S, startState⟩
      else (initialGrid rows cols).find? p := by
  have hgcell : gridCell (initialGrid rows cols) G = ⟨idOf cols G, defaultState⟩ := by
    unfold gridCell
    rw [initialGrid_find?, if_pos hG]
    rfl
  have hscell : gridCell (initialGrid rows cols) S = ⟨idOf cols S, defaultState⟩ := by
    unfold gridCell
    rw [initialGrid_find?, if_pos hS]
    rfl
  unfold setupGrid
  rw [OMap.find?_set]
  by_cases hpg : p = G
  · rw [if_pos hpg, if_pos hpg, hgcell]
  · rw [if_neg hpg, if_neg hpg, OMap.find?_set]
    by_cases hps : p = S
    · rw [if_pos hps, if_pos hps, hscell]
    · rw [if_neg hps, if_neg hps]

theorem idOf_inj (rows cols : Nat) (p q : Pos) (hp : inRange rows cols p)
    (hq : inRange rows cols q) (h : idOf cols p = idOf cols q) : p = q := by
  obtain ⟨hp1, hp2, hp3, hp4⟩ := hp
  obtain ⟨hq1, hq2, hq3, hq4⟩ := hq
  have hcols : 0 < cols := by omega
  have hb : p.2.toNat < cols := by omega
  have hd : q.2.toNat < cols := by omega
  have h' : p.1.toNat * cols + p.2.toNat = q.1.toNat * cols + q.2.toNat := by
    have h2 : p.1.toNat * cols + p.2.toNat + 1 = q.1.toNat * cols + q.2.toNat + 1 := h
    omega
  have hmod : p.2.toNat = q.2.toNat := by
    have h2 := congrArg (fun x => x % cols) h'
    have e1 : (p.1.toNat * cols + p.2.toNat) % cols = p.2.toNat % cols := by
      rw [Nat.add_comm, Nat.mul_comm]
      exact Nat.add_mul_mod_self_left _ _ _
    have e2 : (q.1.toNat * cols + q.2.toNat) % cols = q.2.toNat % cols := by
      rw [Nat.add_comm, Nat.mul_comm]
      exact Nat.add_mul_mod_self_left _ _ _
    simp only [] at h2
    rw [e1, e2, Nat.mod_eq_of_lt hb, Nat.mod_eq_of_lt hd] at h2
    exact h2
  have hdiv : p.1.toNat = q.1.toNat := by
    have h2 : p.1.toNat * cols = q.1.toNat * cols := by omega
    exact Nat.eq_of_mul_eq_mul_right hcols h2
  exact posEq p q (by omega) (by omega)

theorem OMap.hasKey_set {α β : Type} [DecidableEq α] (m : OMap α β) (k : α) (v : β) (q : α) :
    (m.set k v).hasKey q = (m.hasKey q || decide (q = k)) := by
  unfold OMap.hasKey
  rw [OMap.find?_set]
  by_cases h : q = k
  · rw [if_pos h]
    simp [h]
  · rw [if_neg h]
    simp [h]

/-! ### Manhattan-distance geometry on the wall-free grid -/

theorem manhattan_self (p : Pos) : manhattanDistance p p = 0 := by
  unfold manhattanDistance
  omega

theorem manhattan_eq_zero (S p : Pos) (h : manhattanDistance S p = 0) : p = S := by
  unfold manhattanDistance at h
  exact posEq p S (by omega) (by omega)

theorem mem_candidates_iff (q p : Pos) :
    p ∈ [((q.1 - 1 : Int), q.2), (q.1 + 1, q.2), (q.1, q.2 - 1), (q.1, q.2 + 1)] ↔
      manhattanDistance q p = 1 := by
  constructor
  · intro h
    show (q.1 - p.1).natAbs + (q.2 - p.2).natAbs = 1
    rcases List.mem_cons.mp h with he | h
    · have h1 := congrArg Prod.fst he
      have h2 := congrArg Prod.snd he
      have h1' : p.1 = q.1 - 1 := h1
      have h2' : p.2 = q.2 := h2
      omega
    rcases List.mem_cons.mp h with he | h
    · have h1 := congrArg Prod.fst he
      have h2 := congrArg Prod.snd he
      have h1' : p.1 = q.1 + 1 := h1
      have h2' : p.2 = q.2 := h2
      omega
    rcases List.mem_cons.mp h with he | h
    · have h1 := congrArg Prod.fst he
      have h2 := congrArg Prod.snd he
      have h1' : p.1 = q.1 := h1
      have h2' : p.2 = q.2 - 1 := h2
      omega
    rcases List.mem_cons.mp h with he | h
    · have h1 := congrArg Prod.fst he
      have h2 := congrArg Prod.snd he
      have h1' : p.1 = q.1 := h1
      have h2' : p.2 = q.2 + 1 := h2
      omega
    · exact absurd h (List.not_mem_nil p)
  · intro h
    have h' : (q.1 - p.1).natAbs + (q.2 - p.2).natAbs = 1 := h
    have hcase : (p.1 = q.1 - 1 ∧ p.2 = q.2) ∨ (p.1 = q.1 + 1 ∧ p.2 = q.2) ∨
        (p.1 = q.1 ∧ p.2 = q.2 - 1) ∨ (p.1 = q.1 ∧ p.2 = q.2 + 1) := by omega
    rcases hcase with ⟨h1, h2⟩ | ⟨h1, h2⟩ | ⟨h1, h2⟩ | ⟨h1, h2⟩
    · have hpe : p = ((q.1 - 1 : Int), q.2) := posEq _ _ h1 h2
      rw [hpe]
      simp
    · have hpe : p = ((q.1 + 1 : Int), q.2) := posEq _ _ h1 h2
      rw [hpe]
      simp
    · have hpe : p = (q.1, q.2 - 1) := posEq _ _ h1 h2
      rw [hpe]
      simp
    · have hpe : p = (q.1, q.2 + 1) := posEq _ _ h1 h2
      rw [hpe]
      simp

theorem manhattan_adjacent (S q p : Pos) (h : manhattanDistance q p = 1) :
    manhattanDistance S p = manhattanDistance S q + 1 ∨
      manhattanDistance S q = manhattanDistance S p + 1 := by
  have h' : (q.1 - p.1).natAbs + (q.2 - p.2).natAbs = 1 := h
  show (S.1 - p.1).natAbs + (S.2 - p.2).natAbs = (S.1 - q.1).natAbs + (S.2 - q.2).natAbs + 1 ∨
    (S.1 - q.1).natAbs + (S.2 - q.2).natAbs = (S.1 - p.1).natAbs + (S.2 - p.2).natAbs + 1
  omega

theorem manhattan_symm (p q : Pos) : manhattanDistance p q = manhattanDistance q p := by
  show (p.1 - q.1).natAbs + (p.2 - q.2).natAbs = (q.1 - p.1).natAbs + (q.2 - p.2).natAbs
  omega

theorem step_toward (rows cols : Nat) (S p : Pos) (hS : inRange rows cols S)
    (hp : inRange rows cols p) (hne : p ≠ S) :
    ∃ q : Pos, inRange rows cols q ∧ manhattanDistance p q = 1 ∧
      manhattanDistance S q + 1 = manhattanDistance S p := by
  obtain ⟨hS1, hS2, hS3, hS4⟩ := hS
  obtain ⟨hp1, hp2, hp3, hp4⟩ := hp
  by_cases h1 : S.1 < p.1
  · exact ⟨(p.1 - 1, p.2),
      ⟨show (0:Int) ≤ p.1 - 1 by omega, show p.1 - 1 < (rows:Int) by omega, hp3, hp4⟩,
      show (p.1 - (p.1 - 1)).natAbs + (p.2 - p.2).natAbs = 1 by omega,
      show (S.1 - (p.1 - 1)).natAbs + (S.2 - p.2).natAbs + 1 =
        (S.1 - p.1).natAbs + (S.2 - p.2).natAbs by omega⟩
  · by_cases h2 : p.1 < S.1
    · exact ⟨(p.1 + 1, p.2),
        ⟨show (0:Int) ≤ p.1 + 1 by omega, show p.1 + 1 < (rows:Int) by omega, hp3, hp4⟩,
        show (p.1 - (p.1 + 1)).natAbs + (p.2 - p.2).natAbs = 1 by omega,
        show (S.1 - (p.1 + 1)).natAbs + (S.2 - p.2).natAbs + 1 =
          (S.1 - p.1).natAbs + (S.2 - p.2).natAbs by omega⟩
    · have hx : p.1 = S.1 := by omega
      have hy : p.2 ≠ S.2 := by
        intro hy
        exact hne (posEq p S hx hy)
      by_cases h3 : S.2 < p.2
      · exact ⟨(p.1, p.2 - 1),
          ⟨hp1, hp2, show (0:Int) ≤ p.2 - 1 by omega, show p.2 - 1 < (cols:Int) by omega⟩,
          show (p.1 - p.1).natAbs + (p.2 - (p.2 - 1)).natAbs = 1 by omega,
          show (S.1 - p.1).natAbs + (S.2 - (p.2 - 1)).natAbs + 1 =
            (S.1 - p.1).natAbs + (S.2 - p.2).natAbs by omega⟩
      · exact ⟨(p.1, p.2 + 1),
          ⟨hp1, hp2, show (0:Int) ≤ p.2 + 1 by omega, show p.2 + 1 < (cols:Int) by omega⟩,
          show (p.1 - p.1).natAbs + (p.2 - (p.2 + 1)).natAbs = 1 by omega,
          show (S.1 - p.1).natAbs + (S.2 - (p.2 + 1)).natAbs + 1 =
            (S.1 - p.1).natAbs + (S.2 - p.2).natAbs by omega⟩

theorem exists_at_dist (rows cols : Nat) (S : Pos) :
    ∀ (n : Nat) (p : Pos), inRange rows cols S → inRange rows cols p →
      manhattanDistance S p = n → ∀ m : Nat, m ≤ n →
      ∃ q, inRange rows cols q ∧ manhattanDistance S q = m := by
  intro n
  induction n with
  | zero =>
      intro p _ hp hd m hm
      exact ⟨p, hp, by omega⟩
  | succ n ih =>
      intro p hS hp hd m hm
      by_cases hmn : m = n + 1
      · exact ⟨p, hp, by omega⟩
      · have hne : p ≠ S := by
          intro he
          rw [he, manhattan_self] at hd
          omega
        obtain ⟨q, hq, hadj, hstep⟩ := step_toward rows cols S p hS hp hne
        exact ih q hS hq (by omega) m (by omega)

/-! ### Grid shape invariant carried through a BFS run -/

/-- Facts about the wall-free grid held by every state of a BFS run over
`setupGrid`: ids are `idOf`, keys are the in-range positions, the start/goal
tags sit exactly at the start/goal, and no cell is a wall. -/
def gridOK (rows cols : Nat) (S G : Pos) (g : Grid) : Prop :=
  (∀ p, inRange rows cols p → (gridCell g p).id = idOf cols p) ∧
  (∀ p, g.hasKey p = true ↔ inRange rows cols p) ∧
  (∀ p, (gridCell g p).state.isStart = true ↔ p = S) ∧
  (∀ p, (gridCell g p).state.isGoal = true ↔ p = G) ∧
  (∀ p, (gridCell g p).state.isWall = false)

theorem setupGrid_cell (rows cols : Nat) (S G : Pos) (hS : inRange rows cols S)
    (hG : inRange rows cols G) (p : Pos) :
    gridCell (setupGrid rows cols S G) p =
      if p = G then ⟨idOf cols G, goalState⟩
      else if p = S then ⟨idOf cols S, startState⟩
      else if inRange rows cols p then ⟨idOf cols p, defaultState⟩
      else ⟨0, defaultState⟩ := by
  unfold gridCell
  rw [setupGrid_find? rows cols S G p hS hG]
  by_cases hpg : p = G
  · rw [if_pos hpg, if_pos hpg]
    rfl
  · rw [if_neg hpg, if_neg hpg]
    by_cases hps : p = S
    · rw [if_pos hps, if_pos hps]
      rfl
    · rw [if_neg hps, if_neg hps, initialGrid_find?]
      by_cases hin : inRange rows cols p
      · rw [if_pos hin, if_pos hin]
        rfl
      · rw [if_neg hin, if_neg hin]
        rfl

theorem setupGrid_gridOK (rows cols : Nat) (S G : Pos) (hS : inRange rows cols S)
    (hG : inRange rows cols G) (hne : S ≠ G) :
    gridOK rows cols S G (setupGrid rows cols S G) := by
  have hcell := setupGrid_cell rows cols S G hS hG
  refine ⟨?_, ?_, ?_, ?_, ?_⟩
  · intro p hp
    rw [hcell p]
    by_cases hpg : p = G
    · rw [if_pos hpg, hpg]
    · rw [if_neg hpg]
      by_cases hps : p = S
      · rw [if_pos hps, hps]
      · rw [if_neg hps, if_pos hp]
  · intro p
    unfold OMap.hasKey
    rw [setupGrid_find? rows cols S G p hS hG]
    by_cases hpg : p = G
    · rw [if_pos hpg]
      constructor
      · intro _
        rw [hpg]
        exact hG
      · intro _
        rfl
    · rw [if_neg hpg]
      by_cases hps : p = S
      · rw [if_pos hps]
        constructor
        · intro _
          rw [hps]
          exact hS
        · intro _
          rfl
      · rw [if_neg hps, initialGrid_find?]
        by_cases hin : inRange rows cols p
        · rw [if_pos hin]
          exact ⟨fun _ => hin, fun _ => rfl⟩
        · rw [if_neg hin]
          exact ⟨fun h => absurd h (by decide), fun h => absurd h hin⟩
  · intro p
    rw [hcell p]
    by_cases hpg : p = G
    · rw [if_pos hpg]
      constructor
      · intro h
        have h' : goalState.isStart = true := h
        exact absurd h' (by decide)
      · intro h
        exact absurd (h.symm.trans hpg) hne
    · rw [if_neg hpg]
      by_cases hps : p = S
      · rw [if_pos hps]
        exact ⟨fun _ => hps, fun _ => rfl⟩
      · rw [if_neg hps]
        by_cases hin : inRange rows cols p
        · rw [if_pos hin]
          constructor
          · intro h
            have h' : defaultState.isStart = true := h
            exact absurd h' (by decide)
          · intro h
            exact absurd h hps
        · rw [if_neg hin]
          constructor
          · intro h
            have h' : defaultState.isStart = true := h
            exact absurd h' (by decide)
          · intro h
            exact absurd h hps
  · intro p
    rw [hcell p]
    by_cases hpg : p = G
    · rw [if_pos hpg]
      exact ⟨fun _ => hpg, fun _ => rfl⟩
    · rw [if_neg hpg]
      by_cases hps : p = S
      · rw [if_pos hps]
        constructor
        · intro h
          have h' : startState.isGoal = true := h
          exact absurd h' (by decide)
        · intro h
          exact absurd h hpg
      · rw [if_neg hps]
        by_cases hin : inRange rows cols p
        · rw [if_pos hin]
          constructor
          · intro h
            have h' : defaultState.isGoal = true := h
            exact absurd h' (by decide)
          · intro h
            exact absurd h hpg
        · rw [if_neg hin]
          constructor
          · intro h
            have h' : defaultState.isGoal = true := h
            exact absurd h' (by decide)
          · intro h
            exact absurd h hpg
  · intro p
    rw [hcell p]
    by_cases hpg : p = G
    · rw [if_pos hpg]
      rfl
    · rw [if_neg hpg]
      by_cases hps : p = S
      · rw [if_pos hps]
        rfl
      · rw [if_neg hps]
        by_cases hin : inRange rows cols p
        · rw [if_pos hin]
          rfl
        · rw [if_neg hin]
          rfl

/-- BFS neighbour expansion in closed form: the queue gains exactly the
unvisited non-wall neighbours in order, the engine predecessor map records
`cur` for each of them, and the A* state is untouched. -/
theorem relaxAll_bfs (g : Grid) (cur : Pos) :
    ∀ (nbrs queue : List Pos) (visited : List Nat) (pm : OMap Nat Pos) (ast : AStarState),
      relaxAll .bfs g cur nbrs queue visited pm ast =
        (queue ++ nbrs.filter (fun n => !(visitedHas visited (gridCell g n).id) &&
            !((gridCell g n).state.isWall)),
          (nbrs.filter (fun n => !(visitedHas visited (gridCell g n).id) &&
            !((gridCell g n).state.isWall))).foldl
              (fun m n => m.set (gridCell g n).id cur) pm,
          ast) := by
  have hproc : ∀ (a : AStarState) (c n' : Pos),
      processNeighbour .bfs a c n' = (true, a) := fun _ _ _ => rfl
  intro nbrs
  induction nbrs with
  | nil =>
      intro queue visited pm ast
      simp [relaxAll]
  | cons n rest ih =>
      intro queue visited pm ast
      simp only [relaxAll]
      by_cases hv : visitedHas visited (gridCell g n).id
      · rw [if_pos hv, ih]
        have hf : (!(visitedHas visited (gridCell g n).id) &&
            !((gridCell g n).state.isWall)) = false := by
          rw [hv]
          rfl
        rw [List.filter_cons]
        simp only [hf]
        rfl
      · rw [if_neg hv]
        by_cases hw : (gridCell g n).state.isWall
        · rw [if_pos hw, ih]
          have hf : (!(visitedHas visited (gridCell g n).id) &&
              !((gridCell g n).state.isWall)) = false := by
            rw [hw]
            simp
          rw [List.filter_cons]
          simp only [hf]
          rfl
        · rw [if_neg hw, hproc, if_pos rfl, ih]
          have ht : (!(visitedHas visited (gridCell g n).id) &&
              !((gridCell g n).state.isWall)) = true := by
            simp only [Bool.not_eq_true] at hv hw
            rw [hv, hw]
            rfl
          rw [List.filter_cons]
          simp only [ht, if_true, List.foldl_cons, List.append_assoc, List.singleton_append]

theorem pathWalk_succ (g : Grid) (pm : OMap Nat Pos) (f : Nat) (cur : Pos) :
    pathWalk g pm (f + 1) cur =
      match pm.find? (gridCell g cur).id with
      | none => []
      | some par => cur :: pathWalk g pm f par := rfl

/-- Under the BFS predecessor-map invariant, the reconstructed backward walk
from a discovered cell at distance `n` from the start has length exactly `n`
whenever the fuel exceeds `n`. -/
theorem pathWalk_length (rows cols : Nat) (S : Pos) (g : Grid) (pm : OMap Nat Pos)
    (hid : ∀ p, inRange rows cols p → (gridCell g p).id = idOf cols p)
    (hE1 : pm.find? (idOf cols S) = none)
    (hE : ∀ k q, pm.find? k = some q → ∃ p, inRange rows cols p ∧ idOf cols p = k ∧
      inRange rows cols q ∧ manhattanDistance S p = manhattanDistance S q + 1 ∧
      (q = S ∨ (pm.find? (idOf cols q)).isSome = true)) :
    ∀ (n : Nat) (cur : Pos) (fuel : Nat), inRange rows cols cur →
      manhattanDistance S cur = n → n < fuel →
      (pathWalk g pm fuel cur).length =
        if (pm.find? (idOf cols cur)).isSome = true then n else 0 := by
  intro n
  induction n with
  | zero =>
      intro cur fuel hcur hd hf
      have hcS : cur = S := manhattan_eq_zero S cur hd
      subst hcS
      cases fuel with
      | zero => omega
      | succ f =>
          have hnone : pm.find? (gridCell g cur).id = none := by
            rw [hid cur hcur]
            exact hE1
          rw [pathWalk_succ, hnone, hE1]
          simp
  | succ n ih =>
      intro cur fuel hcur hd hf
      cases fuel with
      | zero => omega
      | succ f =>
          cases hfind : pm.find? (idOf cols cur) with
          | none =>
              have hnone : pm.find? (gridCell g cur).id = none := by
                rw [hid cur hcur]
                exact hfind
              rw [pathWalk_succ, hnone]
              simp
          | some q =>
              have hsome : pm.find? (gridCell g cur).id = some q := by
                rw [hid cur hcur]
                exact hfind
              rw [pathWalk_succ, hsome]
              obtain ⟨p, hpin, hpid, hqin, hdq, hqS⟩ := hE (idOf cols cur) q hfind
              have hpc : p = cur := idOf_inj rows cols p cur hpin hcur hpid
              rw [hpc] at hdq
              have hdqn : manhattanDistance S q = n := by omega
              rcases hqS with hq | hq
              · have hn0 : n = 0 := by
                  rw [hq, manhattan_self] at hdqn
                  omega
                cases f with
                | zero => omega
                | succ f2 =>
                    have hnone2 : pm.find? (gridCell g q).id = none := by
                      rw [hid q hqin, hq]
                      exact hE1
                    show (cur :: pathWalk g pm (f2 + 1) q).length =
                      if (some q).isSome = true then n + 1 else 0
                    rw [pathWalk_succ, hnone2]
                    simp [hn0]
              · have hlen := ih q f hqin hdqn (by omega)
                rw [if_pos hq] at hlen
                show (cur :: pathWalk g pm f q).length =
                  if (some q).isSome = true then n + 1 else 0
                rw [List.length_cons, hlen]
                simp

theorem mem_keys_of_find?_isSome {α β : Type} [DecidableEq α] (m : OMap α β) (k : α)
    (h : (m.find? k).isSome = true) : k ∈ m.entries.map Prod.fst := by
  cases hf : m.find? k with
  | none =>
      rw [hf, Option.isSome_none] at h
      exact absurd h (by decide)
  | some v => exact List.mem_map_of_mem Prod.fst (OMap.find?_some_mem m k v hf)

/-- The backward chain from a discovered cell at distance `n` passes through
`n` distinct recorded keys, so the predecessor map has at least `n` entries. -/
theorem chain_size (rows cols : Nat) (S : Pos) (pm : OMap Nat Pos)
    (hE : ∀ k q, pm.find? k = some q → ∃ p, inRange rows cols p ∧ idOf cols p = k ∧
      inRange rows cols q ∧ manhattanDistance S p = manhattanDistance S q + 1 ∧
      (q = S ∨ (pm.find? (idOf cols q)).isSome = true)) :
    ∀ (n : Nat) (cur : Pos), inRange rows cols cur → manhattanDistance S cur = n →
      (pm.find? (idOf cols cur)).isSome = true →
      ∃ keys : List Nat, keys.Nodup ∧ (∀ k ∈ keys, k ∈ pm.entries.map Prod.fst) ∧
        keys.length = n ∧
        ∀ k ∈ keys, ∃ p, inRange rows cols p ∧ idOf cols p = k ∧
          1 ≤ manhattanDistance S p ∧ manhattanDistance S p ≤ n := by
  intro n
  induction n with
  | zero =>
      intro cur hcur hd hs
      exact ⟨[], List.nodup_nil, fun k hk => absurd hk (List.not_mem_nil k),
        rfl, fun k hk => absurd hk (List.not_mem_nil k)⟩
  | succ n ih =>
      intro cur hcur hd hs
      cases hfind : pm.find? (idOf cols cur) with
      | none => rw [hfind] at hs; exact absurd hs (by decide)
      | some q =>
          obtain ⟨p, hpin, hpid, hqin, hdq, hqS⟩ := hE (idOf cols cur) q hfind
          have hpc : p = cur := idOf_inj rows cols p cur hpin hcur hpid
          rw [hpc] at hdq
          have hdqn : manhattanDistance S q = n := by omega
          have hmem : idOf cols cur ∈ pm.entries.map Prod.fst :=
            mem_keys_of_find?_isSome pm _ hs
          rcases hqS with hq | hq
          · have hn0 : n = 0 := by
              rw [hq, manhattan_self] at hdqn
              omega
            refine ⟨[idOf cols cur], List.nodup_singleton _, ?_, by simp [hn0], ?_⟩
            · intro k hk
              rw [List.mem_singleton.mp hk]
              exact hmem
            · intro k hk
              rw [List.mem_singleton.mp hk]
              exact ⟨cur, hcur, rfl, by omega, by omega⟩
          · obtain ⟨keys, hnd, hsub, hlen, hprop⟩ := ih q hqin hdqn hq
            have hnotin : idOf cols cur ∉ keys := by
              intro hin
              obtain ⟨p', hp'in, hp'id, hp'lo, hp'hi⟩ := hprop _ hin
              have : p' = cur := idOf_inj rows cols p' cur hp'in hcur hp'id
              subst this
              omega
            refine ⟨idOf cols cur :: keys, List.nodup_cons.mpr ⟨hnotin, hnd⟩, ?_, by
              rw [List.length_cons, hlen], ?_⟩
            · intro k hk
              rcases List.mem_cons.mp hk with h | h
              · rw [h]
                exact hmem
              · exact hsub k h
            · intro k hk
              rcases List.mem_cons.mp hk with h | h
              · rw [h]
                exact ⟨cur, hcur, rfl, by omega, by omega⟩
              · obtain ⟨p', hp'in, hp'id, hp'lo, hp'hi⟩ := hprop k h
                exact ⟨p', hp'in, hp'id, hp'lo, by omega⟩

theorem chain_size_le (rows cols : Nat) (S : Pos) (pm : OMap Nat Pos)
    (hE : ∀ k q, pm.find? k = some q → ∃ p, inRange rows cols p ∧ idOf cols p = k ∧
      inRange rows cols q ∧ manhattanDistance S p = manhattanDistance S q + 1 ∧
      (q = S ∨ (pm.find? (idOf cols q)).isSome = true))
    (n : Nat) (cur : Pos) (hcur : inRange rows cols cur)
    (hd : manhattanDistance S cur = n)
    (hs : (pm.find? (idOf cols cur)).isSome = true) : n ≤ pm.size := by
  obtain ⟨keys, hnd, hsub, hlen, _⟩ := chain_size rows cols S pm hE n cur hcur hd hs
  have hle : keys.length ≤ (pm.entries.map Prod.fst).length :=
    (List.subperm_of_subset hnd hsub).length_le
  rw [List.length_map] at hle
  have hsz : pm.size = pm.entries.length := rfl
  omega

theorem mem_getNeighbours (g : Grid) (p n : Pos) :
    n ∈ getNeighbours p g ↔ manhattanDistance p n = 1 ∧ g.hasKey n = true := by
  unfold getNeighbours
  rw [List.mem_filter]
  constructor
  · intro ⟨hm, hk⟩
    exact ⟨(mem_candidates_iff p n).mp hm, hk⟩
  · intro ⟨hd, hk⟩
    exact ⟨(mem_candidates_iff p n).mpr hd, hk⟩

theorem foldl_set_const_find2 (key : Pos → Nat) (c : Pos) :
    ∀ (l : List Pos) (m : OMap Nat Pos) (k : Nat),
      (l.foldl (fun m n => m.set (key n) c) m).find? k =
        if k ∈ l.map key then some c else m.find? k := by
  intro l
  induction l with
  | nil =>
      intro m k
      rw [if_neg (by simp)]
      rfl
  | cons n rest ih =>
      intro m k
      rw [List.foldl_cons, ih, List.map_cons]
      by_cases hr : k ∈ rest.map key
      · rw [if_pos hr, if_pos (List.mem_cons_of_mem _ hr)]
      · rw [if_neg hr, OMap.find?_set]
        by_cases hk : k = key n
        · rw [if_pos hk, if_pos (by rw [hk]; exact List.mem_cons_self _ _)]
        · rw [if_neg hk, if_neg (by
            intro hmem
            rcases List.mem_cons.mp hmem with h | h
            · exact hk h
            · exact hr h)]

theorem paintStep_hasKey (cond : Cell → Bool) (s : CellState) (g : Grid) (p q : Pos)
    (hp : g.hasKey p = true) : (paintStep cond s g p).hasKey q = g.hasKey q := by
  unfold paintStep
  by_cases hc : cond (gridCell g p)
  · rw [if_pos hc]
  · rw [if_neg hc, OMap.hasKey_set]
    by_cases hq : q = p
    · rw [hq, hp]
      simp
    · simp [hq]

theorem paintFold_hasKey (cond : Cell → Bool) (s : CellState) :
    ∀ (ps : List Pos) (g : Grid) (q : Pos), (∀ x ∈ ps, g.hasKey x = true) →
      (ps.foldl (paintStep cond s) g).hasKey q = g.hasKey q := by
  intro ps
  induction ps with
  | nil =>
      intro g q _
      rfl
  | cons p rest ih =>
      intro g q hkeys
      rw [List.foldl_cons]
      have hp : g.hasKey p = true := hkeys p (List.mem_cons_self _ _)
      rw [ih (paintStep cond s g p) q (fun x hx => by
        rw [paintStep_hasKey cond s g p x hp]
        exact hkeys x (List.mem_cons_of_mem _ hx))]
      exact paintStep_hasKey cond s g p q hp

theorem gridOK_set_visited (rows cols : Nat) (S G : Pos) (g : Grid) (h : Pos)
    (hok : gridOK rows cols S G g) (hin : inRange rows cols h) (hhS : h ≠ S) (hhG : h ≠ G) :
    gridOK rows cols S G (g.set h ⟨(gridCell g h).id, visitedState⟩) := by
  obtain ⟨hid, hkey, hst, hgl, hwl⟩ := hok
  refine ⟨?_, ?_, ?_, ?_, ?_⟩
  · intro p hp
    rw [gridCell_set]
    by_cases hph : p = h
    · rw [if_pos hph]
      show (gridCell g h).id = idOf cols p
      rw [hid h hin, hph]
    · rw [if_neg hph]
      exact hid p hp
  · intro p
    rw [OMap.hasKey_set]
    by_cases hph : p = h
    · constructor
      · intro _
        rw [hph]
        exact hin
      · intro _
        rw [hph]
        simp
    · constructor
      · intro hc
        rw [Bool.or_eq_true] at hc
        rcases hc with hc | hc
        · exact (hkey p).mp hc
        · exact absurd (of_decide_eq_true hc) hph
      · intro hc
        rw [Bool.or_eq_true]
        exact Or.inl ((hkey p).mpr hc)
  · intro p
    rw [gridCell_set]
    by_cases hph : p = h
    · rw [if_pos hph]
      constructor
      · intro hc
        have hc' : visitedState.isStart = true := hc
        exact absurd hc' (by decide)
      · intro hc
        exact absurd (hph.symm.trans hc) hhS
    · rw [if_neg hph]
      exact hst p
  · intro p
    rw [gridCell_set]
    by_cases hph : p = h
    · rw [if_pos hph]
      constructor
      · intro hc
        have hc' : visitedState.isGoal = true := hc
        exact absurd hc' (by decide)
      · intro hc
        exact absurd (hph.symm.trans hc) hhG
    · rw [if_neg hph]
      exact hgl p
  · intro p
    rw [gridCell_set]
    by_cases hph : p = h
    · rw [if_pos hph]
      rfl
    · rw [if_neg hph]
      exact hwl p

theorem gridOK_paintQueued (rows cols : Nat) (S G : Pos) (g : Grid) (ps : List Pos)
    (hok : gridOK rows cols S G g) (hkeys : ∀ x ∈ ps, g.hasKey x = true) :
    gridOK rows cols S G (paintQueued g ps) := by
  obtain ⟨hid, hkey, hst, hgl, hwl⟩ := hok
  have hfold : paintQueued g ps = ps.foldl
      (paintStep (fun c => c.state.isGoal || c.state.isStart || c.state.isVisited ||
        c.state.isWall) queuedState) g := rfl
  refine ⟨?_, ?_, ?_, ?_, ?_⟩
  · intro p hp
    rw [hfold, paintFold_id]
    exact hid p hp
  · intro p
    rw [hfold, paintFold_hasKey _ _ ps g p hkeys]
    exact hkey p
  · intro p
    by_cases hpS : p = S
    · rw [hfold, paintFold_guarded _ _ ps g p (fun _ => by
        rw [(hst p).mpr hpS]
        simp)]
      exact hst p
    · rw [hfold]
      rcases paintFold_cases (fun c => c.state.isGoal || c.state.isStart ||
          c.state.isVisited || c.state.isWall) queuedState ps g p with hc | hc
      · rw [hc]
        exact hst p
      · rw [hc]
        constructor
        · intro hq
          have hq' : queuedState.isStart = true := hq
          exact absurd hq' (by decide)
        · intro hq
          exact absurd hq hpS
  · intro p
    by_cases hpG : p = G
    · rw [hfold, paintFold_guarded _ _ ps g p (fun _ => by
        rw [(hgl p).mpr hpG]
        simp)]
      exact hgl p
    · rw [hfold]
      rcases paintFold_cases (fun c => c.state.isGoal || c.state.isStart ||
          c.state.isVisited || c.state.isWall) queuedState ps g p with hc | hc
      · rw [hc]
        exact hgl p
      · rw [hc]
        constructor
        · intro hq
          have hq' : queuedState.isGoal = true := hq
          exact absurd hq' (by decide)
        · intro hq
          exact absurd hq hpG
  · intro p
    rw [hfold]
    rcases paintFold_cases (fun c => c.state.isGoal || c.state.isStart ||
        c.state.isVisited || c.state.isWall) queuedState ps g p with hc | hc
    · rw [hc]
      exact hwl p
    · rw [hc]
      rfl

/-- Layered invariant of a BFS run over the wall-free `rows × cols` grid:
the queue splits into the unfinished part `A` of the current layer (cells at
distance `dc` from the start) followed by the next layer `B` (distance
`dc + 1`); the visited set holds exactly ids of cells at distance `< dc`
plus part of layer `dc` (and the start); every unvisited layer-`dc` cell is
still in `A`; every unvisited layer-`(dc+1)` cell is queued or has an
unvisited layer-`dc` neighbour; and the engine predecessor map records only
edges that step one unit closer to the start, with chains closed under
following parents down to the start. -/
structure bfsInv (rows cols : Nat) (S G : Pos) (dc : Nat) (A B : List Pos)
    (st : EngineState) : Prop where
  hS : inRange rows cols S
  hG : inRange rows cols G
  hSG : S ≠ G
  gok : gridOK rows cols S G st.grid
  dcpos : 1 ≤ dc
  qeq : st.queue = A ++ B
  layA : ∀ p ∈ A, inRange rows cols p ∧ manhattanDistance S p = dc
  layB : ∀ p ∈ B, inRange rows cols p ∧ manhattanDistance S p = dc + 1
  vnodup : st.visited.Nodup
  vstart : idOf cols S ∈ st.visited
  vgoal : idOf cols G ∉ st.visited
  vchar : ∀ i ∈ st.visited, ∃ p, inRange rows cols p ∧ idOf cols p = i ∧
    manhattanDistance S p ≤ dc
  vbelow : ∀ p, inRange rows cols p → manhattanDistance S p < dc →
    idOf cols p ∈ st.visited
  layerC : ∀ p, inRange rows cols p → manhattanDistance S p = dc →
    idOf cols p ∉ st.visited → p ∈ A
  layerD : ∀ p, inRange rows cols p → manhattanDistance S p = dc + 1 →
    idOf cols p ∉ st.visited →
    p ∈ B ∨ ∃ q, inRange rows cols q ∧ manhattanDistance q p = 1 ∧
      manhattanDistance S q = dc ∧ idOf cols q ∉ st.visited
  pmS : st.parentMap.find? (idOf cols S) = none
  pmE : ∀ k q, st.parentMap.find? k = some q → ∃ p, inRange rows cols p ∧
    idOf cols p = k ∧ inRange rows cols q ∧
    manhattanDistance S p = manhattanDistance S q + 1 ∧
    (q = S ∨ (st.parentMap.find? (idOf cols q)).isSome = true)
  pmQ : ∀ p ∈ st.queue, (st.parentMap.find? (idOf cols p)).isSome = true

/-- When the current layer's queue prefix is exhausted, the same state
satisfies the invariant one layer further. -/
theorem bfsInv_advance (rows cols : Nat) (S G : Pos) (dc : Nat) (B : List Pos)
    (st : EngineState) (inv : bfsInv rows cols S G dc [] B st) :
    bfsInv rows cols S G (dc + 1) B [] st := by
  obtain ⟨hS, hG, hSG, gok, dcpos, qeq, layA, layB, vnodup, vstart, vgoal, vchar,
    vbelow, layerC, layerD, pmS, pmE, pmQ⟩ := inv
  refine ⟨hS, hG, hSG, gok, by omega, by simpa using qeq, layB,
    fun p hp => absurd hp (List.not_mem_nil p), vnodup, vstart, vgoal, ?_, ?_, ?_, ?_,
    pmS, pmE, pmQ⟩
  · intro i hi
    obtain ⟨p, hin, hid, hle⟩ := vchar i hi
    exact ⟨p, hin, hid, by omega⟩
  · intro p hin hlt
    by_cases hdc : manhattanDistance S p < dc
    · exact vbelow p hin hdc
    · have hdeq : manhattanDistance S p = dc := by omega
      by_cases hv : idOf cols p ∈ st.visited
      · exact hv
      · exact absurd (layerC p hin hdeq hv) (List.not_mem_nil p)
  · intro p hin hd hv
    rcases layerD p hin hd hv with h | ⟨q, hqin, hqd, hqdc, hqv⟩
    · exact h
    · exact absurd (layerC q hqin hqdc hqv) (List.not_mem_nil q)
  · intro p hin hd hv
    have hne : p ≠ S := by
      intro he
      rw [he, manhattan_self] at hd
      omega
    obtain ⟨q, hqin, hq1, hqd⟩ := step_toward rows cols S p hS hin hne
    refine Or.inr ⟨q, hqin, by rw [manhattan_symm]; exact hq1, by omega, ?_⟩
    intro hqv
    obtain ⟨p', hp'in, hp'id, hp'le⟩ := vchar _ hqv
    have hpq : p' = q := idOf_inj rows cols p' q hp'in hqin hp'id
    rw [hpq] at hp'le
    omega

/-- Expanding the head of the current layer preserves the BFS invariant:
the expanded cell joins the visited set and its unvisited neighbours (all in
the next layer) are appended to the queue with their predecessor recorded as
the expanded cell. -/
theorem bfsInv_expand (rows cols : Nat) (S G : Pos) (dc : Nat) (A B : List Pos)
    (st : EngineState) (h : Pos)
    (inv : bfsInv rows cols S G dc (h :: A) B st)
    (hnvis : visitedHas st.visited (gridCell st.grid h).id = false)
    (hhG : h ≠ G) :
    ∃ P : List Pos,
      bfsInv rows cols S G dc A (B ++ P) (expandState ⟨S, G, .bfs⟩ st h (A ++ B)) ∧
      (expandState ⟨S, G, .bfs⟩ st h (A ++ B)).visited.length = st.visited.length + 1 := by
  obtain ⟨hS, hG, hSG, gok, dcpos, qeq, layA, layB, vnodup, vstart, vgoal, vchar,
    vbelow, layerC, layerD, pmS, pmE, pmQ⟩ := inv
  obtain ⟨hinh, hdh⟩ := layA h (List.mem_cons_self _ _)
  have layA' : ∀ p ∈ A, inRange rows cols p ∧ manhattanDistance S p = dc :=
    fun p hp => layA p (List.mem_cons_of_mem _ hp)
  have hidh : (gridCell st.grid h).id = idOf cols h := gok.1 h hinh
  have hhS : h ≠ S := by
    intro he
    rw [he, manhattan_self] at hdh
    omega
  have hnv' : idOf cols h ∉ st.visited := by
    intro hmem
    rw [hidh] at hnvis
    rw [(visitedHas_true_iff _ _).mpr hmem] at hnvis
    exact absurd hnvis (by decide)
  have hok2 : gridOK rows cols S G (st.grid.set h ⟨(gridCell st.grid h).id, visitedState⟩) :=
    gridOK_set_visited rows cols S G st.grid h gok hinh hhS hhG
  -- abbreviations matching the unfolding of `expandState` at this strategy
  set g2 : Grid := st.grid.set h ⟨(gridCell st.grid h).id, visitedState⟩ with hg2
  set nbrs : List Pos := getNeighbours h st.grid with hnbrs
  set vis' : List Nat := st.visited ++ [(gridCell st.grid h).id] with hvis'
  set pushes : List Pos := nbrs.filter (fun n =>
    !(visitedHas vis' (gridCell g2 n).id) && !((gridCell g2 n).state.isWall)) with hpushes
  have hrel : relaxAll .bfs g2 h nbrs (A ++ B) vis' st.parentMap st.astar =
      ((A ++ B) ++ pushes,
        pushes.foldl (fun m n => m.set (gridCell g2 n).id h) st.parentMap,
        st.astar) := relaxAll_bfs g2 h nbrs (A ++ B) vis' st.parentMap st.astar
  have hqf : (expandState ⟨S, G, .bfs⟩ st h (A ++ B)).queue = (A ++ B) ++ pushes := by
    show (relaxAll .bfs g2 h nbrs (A ++ B) vis' st.parentMap st.astar).1 = _
    rw [hrel]
  have hvf : (expandState ⟨S, G, .bfs⟩ st h (A ++ B)).visited = vis' := rfl
  have hpmf : (expandState ⟨S, G, .bfs⟩ st h (A ++ B)).parentMap =
      pushes.foldl (fun m n => m.set (gridCell g2 n).id h) st.parentMap := by
    show (relaxAll .bfs g2 h nbrs (A ++ B) vis' st.parentMap st.astar).2.1 = _
    rw [hrel]
  have hgf : (expandState ⟨S, G, .bfs⟩ st h (A ++ B)).grid =
      paintQueued g2 ((A ++ B) ++ pushes) := by
    show paintQueued g2 (relaxAll .bfs g2 h nbrs (A ++ B) vis' st.parentMap st.astar).1 = _
    rw [hrel]
  -- membership in the pushed list
  have hvisid : ∀ i : Nat, i ∈ vis' ↔ i ∈ st.visited ∨ i = idOf cols h := by
    intro i
    rw [hvis', hidh, List.mem_append, List.mem_singleton]
  have hpush : ∀ n : Pos, n ∈ pushes ↔
      manhattanDistance h n = 1 ∧ inRange rows cols n ∧ idOf cols n ∉ vis' := by
    intro n
    rw [hpushes, List.mem_filter]
    constructor
    · intro ⟨hmem, hpred⟩
      obtain ⟨hd1, hk⟩ := (mem_getNeighbours st.grid h n).mp hmem
      have hin : inRange rows cols n := (gok.2.1 n).mp hk
      have hidn : (gridCell g2 n).id = idOf cols n := hok2.1 n hin
      refine ⟨hd1, hin, ?_⟩
      intro hmem2
      rw [hidn, (visitedHas_true_iff _ _).mpr hmem2] at hpred
      simp at hpred
    · intro ⟨hd1, hin, hnv⟩
      have hidn : (gridCell g2 n).id = idOf cols n := hok2.1 n hin
      refine ⟨(mem_getNeighbours st.grid h n).mpr ⟨hd1, (gok.2.1 n).mpr hin⟩, ?_⟩
      rw [hidn, hok2.2.2.2.2 n]
      have hvh : visitedHas vis' (idOf cols n) = false := by
        cases hb : visitedHas vis' (idOf cols n) with
        | false => rfl
        | true => exact absurd ((visitedHas_true_iff _ _).mp hb) hnv
      rw [hvh]
      rfl
  have hpushLayer : ∀ n ∈ pushes, inRange rows cols n ∧
      manhattanDistance S n = dc + 1 := by
    intro n hn
    obtain ⟨hd1, hin, hnv⟩ := (hpush n).mp hn
    refine ⟨hin, ?_⟩
    rcases manhattan_adjacent S h n hd1 with hc | hc
    · omega
    · have hlow : manhattanDistance S n < dc := by omega
      have hmem := vbelow n hin hlow
      exact absurd ((hvisid _).mpr (Or.inl hmem)) hnv
  have hpmfind : ∀ k : Nat,
      (pushes.foldl (fun m n => m.set (gridCell g2 n).id h) st.parentMap).find? k =
        if k ∈ pushes.map (fun n => (gridCell g2 n).id) then some h
        else st.parentMap.find? k :=
    foldl_set_const_find2 (fun n => (gridCell g2 n).id) h pushes st.parentMap
  have hkeymem : ∀ k : Nat, k ∈ pushes.map (fun n => (gridCell g2 n).id) ↔
      ∃ n ∈ pushes, idOf cols n = k := by
    intro k
    rw [List.mem_map]
    constructor
    · intro ⟨n, hn, hk⟩
      have hin := ((hpush n).mp hn).2.1
      exact ⟨n, hn, by rw [← hok2.1 n hin]; exact hk⟩
    · intro ⟨n, hn, hk⟩
      have hin := ((hpush n).mp hn).2.1
      exact ⟨n, hn, by rw [hok2.1 n hin]; exact hk⟩
  have hnotpushh : idOf cols h ∉ pushes.map (fun n => (gridCell g2 n).id) := by
    intro hm
    obtain ⟨n, hn, hk⟩ := (hkeymem _).mp hm
    have hfacts := (hpush n).mp hn
    have hnh : n = h := idOf_inj rows cols n h hfacts.2.1 hinh hk
    rw [hnh] at hfacts
    exact hfacts.2.2 ((hvisid _).mpr (Or.inr rfl))
  have hpmsome : ∀ k : Nat, (st.parentMap.find? k).isSome = true →
      ((pushes.foldl (fun m n => m.set (gridCell g2 n).id h) st.parentMap).find? k).isSome
        = true := by
    intro k hk
    rw [hpmfind k]
    by_cases hm : k ∈ pushes.map (fun n => (gridCell g2 n).id)
    · rw [if_pos hm]
      rfl
    · rw [if_neg hm]
      exact hk
  have hmemq : h ∈ st.queue := by
    rw [qeq]
    exact List.mem_append_left _ (List.mem_cons_self _ _)
  refine ⟨pushes, ⟨hS, hG, hSG, ?_, dcpos, ?_, layA', ?_, ?_, ?_, ?_, ?_, ?_, ?_, ?_,
    ?_, ?_, ?_⟩, ?_⟩
  · -- gridOK of the repainted grid
    rw [hgf]
    refine gridOK_paintQueued rows cols S G g2 _ hok2 ?_
    intro x hx
    rcases List.mem_append.mp hx with hx | hx
    · rcases List.mem_append.mp hx with hx | hx
      · exact (hok2.2.1 x).mpr (layA' x hx).1
      · exact (hok2.2.1 x).mpr (layB x hx).1
    · exact (hok2.2.1 x).mpr (hpushLayer x hx).1
  · rw [hqf, List.append_assoc]
  · intro p hp
    rcases List.mem_append.mp hp with hp | hp
    · exact layB p hp
    · exact hpushLayer p hp
  · rw [hvf, hvis', hidh]
    exact List.Nodup.append vnodup (List.nodup_singleton _)
      (fun a ha hb => absurd (List.mem_singleton.mp hb ▸ ha) hnv')
  · rw [hvf]
    exact (hvisid _).mpr (Or.inl vstart)
  · rw [hvf]
    intro hm
    rcases (hvisid _).mp hm with hm | hm
    · exact vgoal hm
    · exact hhG (idOf_inj rows cols G h hG hinh hm).symm
  · rw [hvf]
    intro i hi
    rcases (hvisid i).mp hi with hi | hi
    · exact vchar i hi
    · exact ⟨h, hinh, hi.symm, by omega⟩
  · rw [hvf]
    intro p hin hlt
    exact (hvisid _).mpr (Or.inl (vbelow p hin hlt))
  · rw [hvf]
    intro p hin hd hv
    have hv0 : idOf cols p ∉ st.visited := fun hm => hv ((hvisid _).mpr (Or.inl hm))
    have hmem := layerC p hin hd hv0
    rcases List.mem_cons.mp hmem with he | he
    · exact absurd ((hvisid _).mpr (Or.inr (by rw [he]))) hv
    · exact he
  · rw [hvf]
    intro p hin hd hv
    have hv0 : idOf cols p ∉ st.visited := fun hm => hv ((hvisid _).mpr (Or.inl hm))
    rcases layerD p hin hd hv0 with hp | ⟨q, hqin, hq1, hqdc, hqv⟩
    · exact Or.inl (List.mem_append_left _ hp)
    · by_cases hqh : q = h
      · refine Or.inl (List.mem_append_right _ ((hpush p).mpr ⟨?_, hin, hv⟩))
        rw [← hqh]
        exact hq1
      · refine Or.inr ⟨q, hqin, hq1, hqdc, ?_⟩
        intro hm
        rcases (hvisid _).mp hm with hm | hm
        · exact hqv hm
        · exact hqh (idOf_inj rows cols q h hqin hinh hm)
  · rw [hpmf, hpmfind]
    rw [if_neg (fun hm => by
      obtain ⟨n, hn, hk⟩ := (hkeymem _).mp hm
      have hfacts := (hpush n).mp hn
      have hnS : n = S := idOf_inj rows cols n S hfacts.2.1 hS hk
      have hd := (hpushLayer n hn).2
      rw [hnS, manhattan_self] at hd
      omega)]
    exact pmS
  · rw [hpmf]
    intro k q hfind
    rw [hpmfind] at hfind
    by_cases hm : k ∈ pushes.map (fun n => (gridCell g2 n).id)
    · rw [if_pos hm] at hfind
      have hqh : q = h := by
        injection hfind with hf
        exact hf.symm
      obtain ⟨n, hn, hk⟩ := (hkeymem _).mp hm
      have hfacts := (hpush n).mp hn
      refine ⟨n, hfacts.2.1, hk, by rw [hqh]; exact hinh, ?_, Or.inr ?_⟩
      · rw [hqh, hdh, (hpushLayer n hn).2]
      · rw [hqh, hpmfind]
        rw [if_neg hnotpushh]
        exact pmQ h hmemq
    · rw [if_neg hm] at hfind
      obtain ⟨p, hpin, hpid, hqin, hdpq, hq⟩ := pmE k q hfind
      refine ⟨p, hpin, hpid, hqin, hdpq, ?_⟩
      rcases hq with hq | hq
      · exact Or.inl hq
      · exact Or.inr (hpmsome _ hq)
  · rw [hpmf, hqf]
    intro x hx
    rcases List.mem_append.mp hx with hx | hx
    · have hx' : x ∈ st.queue := by
        rw [qeq]
        rcases List.mem_append.mp hx with hx | hx
        · exact List.mem_append_left _ (List.mem_cons_of_mem _ hx)
        · exact List.mem_append_right _ hx
      exact hpmsome _ (pmQ x hx')
    · rw [hpmfind, if_pos ((hkeymem _).mpr ⟨x, hx, rfl⟩)]
      rfl
  · rw [hvf, hvis', List.length_append]
    rfl

/-- Under the invariant the queue cannot be empty: the goal is unvisited, so
either it or an intermediate cell of the current layer would still have to
be queued. -/
theorem bfsInv_queue_ne_nil (rows cols : Nat) (S G : Pos) (dc : Nat) (A B : List Pos)
    (st : EngineState) (inv : bfsInv rows cols S G dc A B st) : st.queue ≠ [] := by
  intro hq
  obtain ⟨hS, hG, hSG, gok, dcpos, qeq, layA, layB, vnodup, vstart, vgoal, vchar,
    vbelow, layerC, layerD, pmS, pmE, pmQ⟩ := inv
  rw [hq] at qeq
  obtain ⟨hA, hB⟩ := List.append_eq_nil.mp qeq.symm
  subst hA
  subst hB
  have hunvis : ∀ p, inRange rows cols p → manhattanDistance S p > dc →
      idOf cols p ∉ st.visited := by
    intro p hin hgt hmem
    obtain ⟨p', hp'in, hp'id, hp'le⟩ := vchar _ hmem
    have : p' = p := idOf_inj rows cols p' p hp'in hin hp'id
    rw [this] at hp'le
    omega
  have hdG := Nat.lt_trichotomy (manhattanDistance S G) dc
  rcases hdG with hlt | heq | hgt
  · exact vgoal (vbelow G hG hlt)
  · exact absurd (layerC G hG heq vgoal) (List.not_mem_nil G)
  · by_cases hdc1 : manhattanDistance S G = dc + 1
    · rcases layerD G hG hdc1 vgoal with hm | ⟨q, hqin, _, hqdc, hqv⟩
      · exact absurd hm (List.not_mem_nil G)
      · exact absurd (layerC q hqin hqdc hqv) (List.not_mem_nil q)
    · obtain ⟨q, hqin, hqd⟩ := exists_at_dist rows cols S (manhattanDistance S G) G hS hG
        rfl (dc + 1) (by omega)
      have hqv : idOf cols q ∉ st.visited := hunvis q hqin (by omega)
      rcases layerD q hqin hqd hqv with hm | ⟨q', hq'in, _, hq'dc, hq'v⟩
      · exact absurd hm (List.not_mem_nil q)
      · exact absurd (layerC q' hq'in hq'dc hq'v) (List.not_mem_nil q')

/-- One generator resumption from an invariant state either expands a cell
(preserving the invariant and growing the visited set by one) or pops the
goal and returns the reconstructed path, whose length is the Manhattan
distance from start to goal. -/
theorem bfs_step (rows cols : Nat) (S G : Pos) :
    ∀ (len : Nat) (st : EngineState) (dc : Nat) (A B : List Pos),
      st.queue.length = len →
      bfsInv rows cols S G dc A B st →
      (∃ st' dc' A' B', resumeRun ⟨S, G, .bfs⟩ st = (.cont, st') ∧
        bfsInv rows cols S G dc' A' B' st' ∧
        st'.visited.length = st.visited.length + 1) ∨
      (∃ pth st', resumeRun ⟨S, G, .bfs⟩ st = (.foundRes pth, st') ∧
        pth.length = manhattanDistance S G) := by
  intro len
  induction len with
  | zero =>
      intro st dc A B hlen inv
      have hne := bfsInv_queue_ne_nil rows cols S G dc A B st inv
      cases hq : st.queue with
      | nil => exact absurd hq hne
      | cons h t =>
          rw [hq] at hlen
          simp at hlen
  | succ len ih =>
      intro st dc A B hlen inv
      have hne := bfsInv_queue_ne_nil rows cols S G dc A B st inv
      cases hq : st.queue with
      | nil => exact absurd hq hne
      | cons h t =>
          rw [hq] at hlen
          have hlent : t.length = len := by
            rw [List.length_cons] at hlen
            omega
          have key : ∀ (dc₀ : Nat) (A₀ B₀ : List Pos),
              bfsInv rows cols S G dc₀ (h :: A₀) B₀ st → t = A₀ ++ B₀ →
              (∃ st' dc' A' B', resumeRun ⟨S, G, .bfs⟩ st = (.cont, st') ∧
                bfsInv rows cols S G dc' A' B' st' ∧
                st'.visited.length = st.visited.length + 1) ∨
              (∃ pth st', resumeRun ⟨S, G, .bfs⟩ st = (.foundRes pth, st') ∧
                pth.length = manhattanDistance S G) := by
            intro dc₀ A₀ B₀ inv₀ ht
            obtain ⟨hinh, hdh⟩ := inv₀.layA h (List.mem_cons_self _ _)
            have hidh : (gridCell st.grid h).id = idOf cols h := inv₀.gok.1 h hinh
            have hhS : h ≠ S := by
              intro he
              have := inv₀.dcpos
              rw [he, manhattan_self] at hdh
              omega
            have hpop : getNextNode (⟨S, G, .bfs⟩ : SearchCfg).strat st.astar
                (⟨S, G, .bfs⟩ : SearchCfg).goal st.queue = some (h, t) := by
              rw [hq]
              rfl
            have hwl : (gridCell st.grid h).state.isWall = false := inv₀.gok.2.2.2.2 h
            have hsf : (gridCell st.grid h).state.isStart = false := by
              cases hb : (gridCell st.grid h).state.isStart with
              | false => rfl
              | true => exact absurd ((inv₀.gok.2.2.1 h).mp hb) hhS
            have hnw : ((gridCell st.grid h).state.isWall ||
                (gridCell st.grid h).state.isStart) = false := by
              rw [hwl, hsf]
              rfl
            by_cases hvis : visitedHas st.visited (gridCell st.grid h).id = true
            · -- a stale duplicate: skipped inside the same resumption
              have hrw : resumeRun ⟨S, G, .bfs⟩ st =
                  resumeRun ⟨S, G, .bfs⟩ { st with queue := t } :=
                resumeRun_skip _ st h t hpop (Or.inr ⟨hnw, hvis⟩)
              have hmemh : idOf cols h ∈ st.visited := by
                rw [hidh] at hvis
                exact (visitedHas_true_iff _ _).mp hvis
              have inv₁ : bfsInv rows cols S G dc₀ A₀ B₀ { st with queue := t } := by
                obtain ⟨hS, hG, hSG, gok, dcpos, qeq, layA, layB, vnodup, vstart, vgoal,
                  vchar, vbelow, layerC, layerD, pmS, pmE, pmQ⟩ := inv₀
                refine ⟨hS, hG, hSG, gok, dcpos, ht, ?_, layB, vnodup, vstart, vgoal,
                  vchar, vbelow, ?_, layerD, pmS, pmE, ?_⟩
                · exact fun p hp => layA p (List.mem_cons_of_mem _ hp)
                · intro p hin hd hv
                  rcases List.mem_cons.mp (layerC p hin hd hv) with he | he
                  · exact absurd (he ▸ hmemh) hv
                  · exact he
                · intro p hp
                  refine pmQ p ?_
                  rw [hq]
                  exact List.mem_cons_of_mem _ hp
              have hlen1 : ({ st with queue := t } : EngineState).queue.length = len := hlent
              rcases ih { st with queue := t } dc₀ A₀ B₀ hlen1 inv₁ with
                ⟨st', dc', A', B', heq, hinv, hlen'⟩ | ⟨pth, st', heq, hlen'⟩
              · exact Or.inl ⟨st', dc', A', B', hrw.trans heq, hinv, hlen'⟩
              · exact Or.inr ⟨pth, st', hrw.trans heq, hlen'⟩
            · have hnvis : visitedHas st.visited (gridCell st.grid h).id = false := by
                cases hb : visitedHas st.visited (gridCell st.grid h).id with
                | false => rfl
                | true => exact absurd hb hvis
              by_cases hgoal : h = G
              · -- the goal is popped: reconstruct and measure the path
                have hgt : (gridCell st.grid h).state.isGoal = true :=
                  (inv₀.gok.2.2.2.1 h).mpr hgoal
                have hrw := resumeRun_found _ st h t hpop hnw hnvis hgt
                have hsome : (st.parentMap.find? (idOf cols h)).isSome = true := by
                  refine inv₀.pmQ h ?_
                  rw [hq]
                  exact List.mem_cons_self _ _
                have hsz := chain_size_le rows cols S st.parentMap inv₀.pmE
                  (manhattanDistance S h) h hinh rfl hsome
                have hplen := pathWalk_length rows cols S st.grid st.parentMap
                  inv₀.gok.1 inv₀.pmS inv₀.pmE (manhattanDistance S h) h
                  (st.parentMap.size + 1) hinh rfl (by omega)
                rw [if_pos hsome] at hplen
                have hdg : manhattanDistance S h = manhattanDistance S G := by
                  rw [hgoal]
                exact Or.inr ⟨_, _, hrw, hplen.trans hdg⟩
              · have hgf : (gridCell st.grid h).state.isGoal = false := by
                  cases hb : (gridCell st.grid h).state.isGoal with
                  | false => rfl
                  | true => exact absurd ((inv₀.gok.2.2.2.1 h).mp hb) hgoal
                have hrw := resumeRun_expand (⟨S, G, .bfs⟩ : SearchCfg) st h t
                  hpop hnw hnvis hgf
                obtain ⟨P, hinv, hlen'⟩ := bfsInv_expand rows cols S G dc₀ A₀ B₀ st h
                  inv₀ hnvis hgoal
                rw [ht] at hrw
                exact Or.inl ⟨_, dc₀, A₀, B₀ ++ P, hrw, hinv, hlen'⟩
          rcases hA : A with _ | ⟨a, A'⟩
          · rw [hA] at inv
            have hB : B = h :: t := by
              have hqe := inv.qeq
              rw [hq] at hqe
              simpa using hqe.symm
            have inv' := bfsInv_advance rows cols S G dc B st inv
            rw [hB] at inv'
            exact key (dc + 1) t [] inv' (by simp)
          · rw [hA] at inv
            have hqe := inv.qeq
            rw [hq, List.cons_append] at hqe
            injection hqe with hah htl
            rw [← hah] at inv
            exact key dc A' B inv htl

theorem initialGrid_length (rows cols : Nat) :
    (initialGrid rows cols).entries.length = rows * cols := by
  induction rows with
  | zero =>
      rw [Nat.zero_mul]
      rfl
  | succ rows ih =>
      show ((List.range (rows + 1)).flatMap _).length = _
      rw [List.range_succ, List.flatMap_append, List.length_append]
      have h1 : ((List.range rows).flatMap (fun r => (List.range cols).map
          (fun c => ((Int.ofNat r, Int.ofNat c),
            (⟨idOf cols (Int.ofNat r, Int.ofNat c), defaultState⟩ : Cell))))).length =
          rows * cols := ih
      rw [h1]
      have h2 : (([rows] : List Nat).flatMap (fun r => (List.range cols).map
          (fun c => ((Int.ofNat r, Int.ofNat c),
            (⟨idOf cols (Int.ofNat r, Int.ofNat c), defaultState⟩ : Cell))))).length =
          cols := by
        simp
      rw [h2, Nat.succ_mul]

theorem bfsInv_visited_le (rows cols : Nat) (S G : Pos) (dc : Nat) (A B : List Pos)
    (st : EngineState) (inv : bfsInv rows cols S G dc A B st) :
    st.visited.length ≤ rows * cols := by
  have hsub : st.visited ⊆ (initialGrid rows cols).entries.map (fun e => e.2.id) := by
    intro i hi
    obtain ⟨p, hin, hid, _⟩ := inv.vchar i hi
    have hfind : (initialGrid rows cols).find? p = some ⟨idOf cols p, defaultState⟩ := by
      rw [initialGrid_find?, if_pos hin]
    have hmem := OMap.find?_some_mem _ _ _ hfind
    have := List.mem_map_of_mem (fun e => e.2.id) hmem
    rw [← hid]
    exact this
  have hle := (List.subperm_of_subset inv.vnodup hsub).length_le
  rw [List.length_map, initialGrid_length] at hle
  exact hle

theorem runUntil_succ_cont (cfg : SearchCfg) (fuel : Nat) (st st' : EngineState)
    (h : resumeRun cfg st = (.cont, st')) :
    runUntil cfg (fuel + 1) st = runUntil cfg fuel st' := by
  conv_lhs => rw [runUntil]
  rw [h]

theorem runUntil_succ_found (cfg : SearchCfg) (fuel : Nat) (st st' : EngineState)
    (r : List Pos) (h : resumeRun cfg st = (.foundRes r, st')) :
    runUntil cfg (fuel + 1) st = some (.foundRes r, st') := by
  conv_lhs => rw [runUntil]
  rw [h]

/-- Running the generator from any invariant state with enough fuel finds
the goal with a Manhattan-optimal path. -/
theorem bfs_run (rows cols : Nat) (S G : Pos) :
    ∀ (fuel : Nat) (st : EngineState) (dc : Nat) (A B : List Pos),
      bfsInv rows cols S G dc A B st →
      rows * cols + 1 ≤ fuel + st.visited.length →
      ∃ pth st', runUntil ⟨S, G, .bfs⟩ fuel st = some (.foundRes pth, st') ∧
        pth.length = manhattanDistance S G := by
  intro fuel
  induction fuel with
  | zero =>
      intro st dc A B inv hb
      have := bfsInv_visited_le rows cols S G dc A B st inv
      omega
  | succ fuel ih =>
      intro st dc A B inv hb
      rcases bfs_step rows cols S G st.queue.length st dc A B rfl inv with
        ⟨st', dc', A', B', heq, hinv, hlen⟩ | ⟨pth, st', heq, hlen⟩
      · obtain ⟨pth, st'', h1, h2⟩ := ih st' dc' A' B' hinv (by omega)
        exact ⟨pth, st'', (runUntil_succ_cont _ fuel st st' heq).trans h1, h2⟩
      · exact ⟨pth, st', runUntil_succ_found _ fuel st st' pth heq, hlen⟩

/-- The state built by the initialization prefix of `search` satisfies the
layered invariant at layer 1. -/
theorem bfsInv_init (rows cols : Nat) (S G : Pos) (hS : inRange rows cols S)
    (hG : inRange rows cols G) (hne : S ≠ G) (ast0 : AStarState) :
    bfsInv rows cols S G 1 (getNeighbours S (setupGrid rows cols S G)) []
      (engineInit (setupGrid rows cols S G) ⟨S, G, .bfs⟩ ast0) := by
  have gok := setupGrid_gridOK rows cols S G hS hG hne
  set grid : Grid := setupGrid rows cols S G with hgrid
  set nbrs : List Pos := getNeighbours S grid with hnbrs
  have hidS : (gridCell grid S).id = idOf cols S := gok.1 S hS
  have hlay : ∀ p ∈ nbrs, inRange rows cols p ∧ manhattanDistance S p = 1 := by
    intro p hp
    obtain ⟨hd, hk⟩ := (mem_getNeighbours grid S p).mp hp
    exact ⟨(gok.2.1 p).mp hk, hd⟩
  have hqv : (engineInit grid ⟨S, G, .bfs⟩ ast0).visited = [(gridCell grid S).id] := rfl
  have hqq : (engineInit grid ⟨S, G, .bfs⟩ ast0).queue = nbrs := rfl
  have hqpm : (engineInit grid ⟨S, G, .bfs⟩ ast0).parentMap =
      nbrs.foldl (fun m n => m.set (gridCell grid n).id S) OMap.empty := rfl
  have hpmfind : ∀ k : Nat,
      (nbrs.foldl (fun m n => m.set (gridCell grid n).id S) OMap.empty).find? k =
        if k ∈ nbrs.map (fun n => (gridCell grid n).id) then some S
        else (OMap.empty : OMap Nat Pos).find? k :=
    foldl_set_const_find2 (fun n => (gridCell grid n).id) S nbrs OMap.empty
  have hkeymem : ∀ k : Nat, k ∈ nbrs.map (fun n => (gridCell grid n).id) ↔
      ∃ n ∈ nbrs, idOf cols n = k := by
    intro k
    rw [List.mem_map]
    constructor
    · intro ⟨n, hn, hk⟩
      exact ⟨n, hn, by rw [← gok.1 n (hlay n hn).1]; exact hk⟩
    · intro ⟨n, hn, hk⟩
      exact ⟨n, hn, by rw [gok.1 n (hlay n hn).1]; exact hk⟩
  have hSnot : idOf cols S ∉ nbrs.map (fun n => (gridCell grid n).id) := by
    intro hm
    obtain ⟨n, hn, hk⟩ := (hkeymem _).mp hm
    have hnS : n = S := idOf_inj rows cols n S (hlay n hn).1 hS hk
    have := (hlay n hn).2
    rw [hnS, manhattan_self] at this
    omega
  refine ⟨hS, hG, hne, gok, le_refl 1, by rw [hqq, List.append_nil], hlay,
    fun p hp => absurd hp (List.not_mem_nil p), ?_, ?_, ?_, ?_, ?_, ?_, ?_, ?_, ?_, ?_⟩
  · rw [hqv]
    exact List.nodup_singleton _
  · rw [hqv, hidS]
    exact List.mem_singleton.mpr rfl
  · rw [hqv, hidS]
    intro hm
    have hGS : G = S := idOf_inj rows cols G S hG hS (List.mem_singleton.mp hm)
    exact hne hGS.symm
  · rw [hqv, hidS]
    intro i hi
    rw [List.mem_singleton.mp hi]
    refine ⟨S, hS, rfl, ?_⟩
    rw [manhattan_self]
    omega
  · rw [hqv, hidS]
    intro p hin hlt
    have hd0 : manhattanDistance S p = 0 := by omega
    have hp : p = S := manhattan_eq_zero S p hd0
    rw [hp]
    exact List.mem_singleton.mpr rfl
  · intro p hin hd _
    exact (mem_getNeighbours grid S p).mpr ⟨hd, (gok.2.1 p).mpr hin⟩
  · rw [hqv, hidS]
    intro p hin hd _
    have hpS : p ≠ S := by
      intro he
      rw [he, manhattan_self] at hd
      omega
    obtain ⟨q, hqin, hq1, hqd⟩ := step_toward rows cols S p hS hin hpS
    refine Or.inr ⟨q, hqin, by rw [manhattan_symm]; exact hq1, by omega, ?_⟩
    intro hm
    have hqS : q = S := idOf_inj rows cols q S hqin hS (List.mem_singleton.mp hm)
    rw [hqS, manhattan_self] at hqd
    omega
  · rw [hqpm, hpmfind, if_neg hSnot]
    rfl
  · rw [hqpm]
    intro k q hfind
    rw [hpmfind] at hfind
    by_cases hm : k ∈ nbrs.map (fun n => (gridCell grid n).id)
    · rw [if_pos hm] at hfind
      have hqS : q = S := by
        injection hfind with hf
        exact hf.symm
      obtain ⟨n, hn, hk⟩ := (hkeymem _).mp hm
      refine ⟨n, (hlay n hn).1, hk, by rw [hqS]; exact hS, ?_, Or.inl hqS⟩
      rw [hqS, manhattan_self, (hlay n hn).2]
    · rw [if_neg hm] at hfind
      exact absurd hfind (by simp [OMap.find?, OMap.empty])
  · rw [hqpm, hqq]
    intro p hp
    rw [hpmfind, if_pos ((hkeymem _).mpr ⟨p, hp, rfl⟩)]
    rfl

/-- C1: For every wall-free grid with start `S` and goal `G` both on the
grid and distinct, running the BFS search to completion reports Found, and
the reconstructed path's length equals the Manhattan distance from `S` to
`G`. -/
theorem C1_bfs_found_manhattan (rows cols : Nat) (S G : Pos)
    (hS : inRange rows cols S) (hG : inRange rows cols G) (hne : S ≠ G)
    (ast0 : AStarState) :
    ∃ pth st',
      runUntil ⟨S, G, .bfs⟩ (rows * cols + 1)
        (engineInit (setupGrid rows cols S G) ⟨S, G, .bfs⟩ ast0) =
          some (.foundRes pth, st') ∧
      pth.length = manhattanDistance S G := by
  exact bfs_run rows cols S G (rows * cols + 1) _ 1 _ []
    (bfsInv_init rows cols S G hS hG hne ast0) (by omega)

/-- Witness for C1 at a concrete 2×2 grid with start `(0,0)`, goal `(1,1)`. -/
theorem C1_bfs_found_manhattan_witness :
    inRange 2 2 ((0, 0) : Pos) ∧ inRange 2 2 ((1, 1) : Pos) ∧
      ((0, 0) : Pos) ≠ ((1, 1) : Pos) ∧
      (∃ pth st',
        runUntil ⟨(0, 0), (1, 1), .bfs⟩ (2 * 2 + 1)
          (engineInit (setupGrid 2 2 (0, 0) (1, 1)) ⟨(0, 0), (1, 1), .bfs⟩ emptyAst) =
            some (.foundRes pth, st') ∧
        pth.length = manhattanDistance (0, 0) (1, 1)) :=
  ⟨by decide, by decide, by decide,
    C1_bfs_found_manhattan 2 2 (0, 0) (1, 1) (by decide) (by decide) (by decide) emptyAst⟩
